import Mathlib

/-!
# Shell: tokenizer and pipeline parser

A shallow embedding of `tokenize`, `token_push`, `parse_pipeline`, `sigint_handler`
and `sigchld_handler` of `src/Shell/Source.cpp`, and theorems about them. The wiring
of the standard streams, whose code is not part of the source file, is modelled from
the specification.

Conventions of the embedding:

* a C `char` is a `Char`; a C string is a `List Char` read up to its first
  '\x00' (the end of the list stands for the terminating '\x00');
* a pointer `p` walking a string is the suffix of the string that starts at
  `p`; an index `i` walking `tl->items` is the suffix of the token list that
  starts at `i`;
* `TokenList` is the list `items[0 .. n)`; `Pipeline.cmds` is `cmds[0 .. n_cmds)`;
* the two loops whose body runs another loop to find where it continues
  (the word loop and the main loop of `tokenize`, the main loop of
  `parse_pipeline`) recurse on a fuel counter; running out of fuel is a
  result of its own (`none`, `ParseResult.out_of_fuel`), never confused with
  a result of the program; `tokenize_loop_adequate` shows that `tokenize` is
  given enough fuel whenever any fuel is enough, so that `none` there is the
  program not returning, and `parse_loop_to_end` that the fuel given to the
  parser suffices;
* a signal handler is a function from the state it reads to the calls it makes
  and the state it leaves; the answers of `waitpid` are a sequence given in
  advance.
-/

namespace Shell

/-! ## Characters -/

/-- The C-locale `isspace`: space, `\t`, `\n`, `\v`, `\f`, `\r`. -/
def isspace (c : Char) : Bool :=
  c = ' ' || c = '\t' || c = '\n' || c = '\x0b' || c = '\x0c' || c = '\r'

/-- The value of `*p`: the first character, '\x00' at the end of the string. -/
def cur (p : List Char) : Char := p.headD '\x00'

/-- The copy made by `xstrdup`: the characters before the first '\x00'. -/
def xstrdup (s : List Char) : List Char := s.takeWhile (fun c => c ≠ '\x00')

/-! ## Tokens -/

def MAX_TOKENS : Nat := 256
def MAX_CMDS : Nat := 64

inductive TokType where
  | T_WORD | T_PIPE | T_IN | T_OUT | T_OUT_APP | T_AMP | T_END
  deriving DecidableEq, Repr

structure Token where
  type : TokType
  text : Option (List Char)
  deriving DecidableEq, Repr

/-- The entries `items[0 .. n)` of a `TokenList`. -/
abbrev TokenList := List Token

/-- The function `token_push`: a full list drops the token. -/
def token_push (tl : TokenList) (t : TokType) (txt : Option (List Char)) : TokenList :=
  if tl.length ≥ MAX_TOKENS then tl
  else tl ++ [{ type := t, text := txt.map xstrdup }]

/-! ## The tokenizer -/

/-- The statement `if (bi < sizeof(buf) - 1) buf[bi++] = c;` on `buf[0 .. bi)`. -/
def store (buf : List Char) (c : Char) : List Char :=
  if buf.length < 4095 then buf ++ [c] else buf

/-- The loop `while (isspace((unsigned char)*p)) p++;`. -/
def skip_space : List Char → List Char
  | [] => []
  | c :: rest => if isspace c then skip_space rest else c :: rest

/-- The loop `while (*p && *p != quote) { ... }` inside a quoted span: returns the
buffer and the position where the loop stops. -/
def quoted_loop (quote : Char) : List Char → List Char → List Char × List Char
  | [], buf => (buf, [])
  | c :: rest, buf =>
    if c = '\x00' ∨ c = quote then (buf, c :: rest)
    else if c = '\\' ∧ quote = '"' ∧ cur rest ≠ '\x00' then
      match rest with
      | [] => (buf, [])
      | d :: rest2 => quoted_loop quote rest2 (store buf d)
    else quoted_loop quote rest (store buf c)

/-- The word loop
`while (*p && !isspace(*p) && *p != '|' && *p != '&' && *p != '<' && *p != '>')`:
returns the buffer and the position where the loop stops. In its two unquoted
branches the statement is `if (bi < sizeof(buf) - 1) buf[bi++] = *p++;`: the
position moves on only when the character is stored, and with a full buffer the
loop stays at a plain character for ever (`word_loop_hangs`). -/
def word_loop : Nat → List Char → List Char → Option (List Char × List Char)
  | 0, _, _ => none
  | fuel + 1, p, buf =>
    match p with
    | [] => some (buf, [])
    | c :: rest =>
      if c = '\x00' ∨ isspace c = true ∨ c = '|' ∨ c = '&' ∨ c = '<' ∨ c = '>' then
        some (buf, c :: rest)
      else if c = '\'' ∨ c = '"' then
        let r := quoted_loop c rest buf
        let p2 := if cur r.2 = c then r.2.tail else r.2
        word_loop fuel p2 r.1
      else if c = '\\' ∧ cur rest ≠ '\x00' then
        if buf.length < 4095 then word_loop fuel rest.tail (buf ++ [cur rest])
        else word_loop fuel rest buf
      else
        if buf.length < 4095 then word_loop fuel rest (buf ++ [c])
        else word_loop fuel (c :: rest) buf

/-- The main loop `while (*p) { ... }` of `tokenize`, followed by the push of
`T_END`. -/
def tokenize_loop : Nat → List Char → TokenList → Option TokenList
  | 0, _, _ => none
  | fuel + 1, p, out =>
    if cur p = '\x00' then some (token_push out .T_END none)
    else
      let p1 := skip_space p
      match p1 with
      | [] => some (token_push out .T_END none)
      | c :: rest =>
        if c = '\x00' then some (token_push out .T_END none)
        else if c = '|' then tokenize_loop fuel rest (token_push out .T_PIPE none)
        else if c = '&' then tokenize_loop fuel rest (token_push out .T_AMP none)
        else if c = '<' then tokenize_loop fuel rest (token_push out .T_IN none)
        else if c = '>' then
          if cur rest = '>' then tokenize_loop fuel rest.tail (token_push out .T_OUT_APP none)
          else tokenize_loop fuel rest (token_push out .T_OUT none)
        else
          match word_loop (p1.length + 1) p1 [] with
          | none => none
          | some (buf, p2) => tokenize_loop fuel p2 (token_push out .T_WORD (some buf))

/-- The function `tokenize`, started on an empty list (`out->n = 0`). The fuel is
enough whenever any fuel is (`tokenize_loop_adequate`), so `none` is the function
not returning. -/
def tokenize (line : List Char) : Option TokenList :=
  tokenize_loop (line.length + 1) line []

/-! ## The parser -/

structure Command where
  argv : List (List Char)
  in_file : Option (List Char)
  out_file : Option (List Char)
  append : Bool
  deriving DecidableEq, Repr

/-- The entries `cmds[0 .. n_cmds)` and the background flag. -/
structure Pipeline where
  cmds : List Command
  background : Bool
  deriving DecidableEq, Repr

/-- What a run of `parse_pipeline` comes to. -/
inductive ParseResult where
  /-- returned `true`, with the pipeline built -/
  | ok (pl : Pipeline)
  /-- returned `false` -/
  | error
  /-- read `tl->items[i]` at an index past the entries of the list -/
  | out_of_range
  /-- called `xstrdup` on a `NULL` text -/
  | null_text
  /-- the fuel of the embedding ran out -/
  | out_of_fuel
  deriving DecidableEq, Repr

/-- What the inner loop `while (1)` comes to. -/
inductive ArgsResult where
  /-- left by `break`: the command so far, `argv_buf[0 .. argc)`, the position -/
  | done (cmd : Command) (argv_buf : List (List Char)) (rest : List Token)
  | error
  | out_of_range
  | null_text
  deriving DecidableEq, Repr

/-- The state of a command after `memset(cmd, 0, sizeof(*cmd))`. -/
def empty_command : Command :=
  { argv := [], in_file := none, out_file := none, append := false }

/-- The inner loop `while (1) { Token tk = tl->items[i]; ... }` of `parse_pipeline`. -/
def parse_args : List Token → Command → List (List Char) → ArgsResult
  | [], _, _ => .out_of_range
  | tk :: rest, cmd, argv_buf =>
    if tk.type = .T_WORD then
      if argv_buf.length ≥ 255 then .error
      else
        match tk.text with
        | none => .null_text
        | some s => parse_args rest cmd (argv_buf ++ [xstrdup s])
    else if tk.type = .T_IN ∨ tk.type = .T_OUT ∨ tk.type = .T_OUT_APP then
      match rest with
      | [] => .out_of_range
      | nx :: rest2 =>
        if nx.type ≠ .T_WORD then .error
        else
          match nx.text with
          | none => .null_text
          | some s =>
            if tk.type = .T_IN then
              parse_args rest2 { cmd with in_file := some (xstrdup s) } argv_buf
            else
              parse_args rest2
                { cmd with out_file := some (xstrdup s),
                           append := decide (tk.type = .T_OUT_APP) } argv_buf
    else .done cmd argv_buf (tk :: rest)

/-- The loop `while (tl->items[i].type != T_END) i++;`: `none` when it runs past
the entries of the list. -/
def skip_to_end : List Token → Option (List Token)
  | [] => none
  | tk :: rest => if tk.type = .T_END then some (tk :: rest) else skip_to_end rest

/-- The code after the main loop: the skip when `background` is set, and
`return pl->n_cmds > 0;`. -/
def parse_finish (pl : Pipeline) (items : List Token) : ParseResult :=
  if pl.background then
    match skip_to_end items with
    | none => .out_of_range
    | some _ => if pl.cmds.length > 0 then .ok pl else .error
  else if pl.cmds.length > 0 then .ok pl else .error

/-- The main loop `while (tl->items[i].type != T_END) { ... }` of `parse_pipeline`
and the code after it. -/
def parse_loop : Nat → List Token → Pipeline → ParseResult
  | 0, _, _ => .out_of_fuel
  | fuel + 1, items, pl =>
    match items with
    | [] => .out_of_range
    | tk :: _ =>
      if tk.type = .T_END then parse_finish pl items
      else if pl.cmds.length ≥ MAX_CMDS then .error
      else
        match parse_args items empty_command [] with
        | .error => .error
        | .out_of_range => .out_of_range
        | .null_text => .null_text
        | .done cmd argv_buf rest =>
          if argv_buf.length = 0 then .error
          else
            let cmd2 : Command := { cmd with argv := argv_buf }
            match rest with
            | [] => .out_of_range
            | t :: rest2 =>
              if t.type = .T_PIPE then
                parse_loop fuel rest2 { pl with cmds := pl.cmds ++ [cmd2] }
              else if t.type = .T_AMP then
                parse_finish { cmds := pl.cmds ++ [cmd2], background := true } rest2
              else if t.type = .T_END then
                parse_finish { pl with cmds := pl.cmds ++ [cmd2] } rest
              else parse_loop fuel rest pl

/-- The function `parse_pipeline`, started with `n_cmds = 0` and `background = false`. -/
def parse_pipeline (tl : TokenList) : ParseResult :=
  parse_loop (tl.length + 1) tl { cmds := [], background := false }

/-- The composition `parse_pipeline` after `tokenize` on one line. -/
def parse_line (line : List Char) : ParseResult :=
  match tokenize line with
  | none => .out_of_fuel
  | some tl => parse_pipeline tl

/-! ## Vocabulary of the statements -/

/-- A character that is not '\x00', not whitespace, not one of `| & < >`, not a quote
and not a backslash. -/
def plain (c : Char) : Prop :=
  c ≠ '\x00' ∧ isspace c = false ∧ c ≠ '|' ∧ c ≠ '&' ∧ c ≠ '<' ∧ c ≠ '>' ∧
    c ≠ '\'' ∧ c ≠ '"' ∧ c ≠ '\\'

instance : DecidablePred plain := fun c => by unfold plain; infer_instance

/-- A non-empty word of at most 4095 plain characters. -/
def plain_word (w : List Char) : Prop :=
  w ≠ [] ∧ w.length ≤ 4095 ∧ ∀ c ∈ w, plain c

instance : DecidablePred plain_word := fun w => by unfold plain_word; infer_instance

/-- The pieces of a list joined with a separator between neighbours. -/
def join_with {α : Type} (sep : List α) : List (List α) → List α
  | [] => []
  | [x] => x
  | x :: y :: rest => x ++ sep ++ join_with sep (y :: rest)

/-- The text a token is written as on a line. -/
def spell (t : Token) : List Char :=
  match t.type with
  | .T_WORD => t.text.getD []
  | .T_PIPE => ['|']
  | .T_IN => ['<']
  | .T_OUT => ['>']
  | .T_OUT_APP => ['>', '>']
  | .T_AMP => ['&']
  | .T_END => []

/-- A token that is a plain word or an operator. -/
def spellable (t : Token) : Prop :=
  (t.type = .T_WORD ∧ ∃ w, t.text = some w ∧ plain_word w) ∨
  (t.type ≠ .T_WORD ∧ t.type ≠ .T_END ∧ t.text = none)

/-- The token of a word. -/
def word_tok (w : List Char) : Token := { type := .T_WORD, text := some w }

/-- The token of an operator. -/
def op_tok (t : TokType) : Token := { type := t, text := none }

/-- The command of a word list without redirections. -/
def simple_command (ws : List (List Char)) : Command :=
  { argv := ws, in_file := none, out_file := none, append := false }

/-- The line of a list of commands: the words of a command joined by one space, the
commands joined by a pipe sign between two spaces. -/
def command_line (cmds : List (List (List Char))) : List Char :=
  join_with [' ', '|', ' '] (cmds.map (join_with [' ']))

/-- The tokens of a list of commands: the words of each command, a `T_PIPE`
between neighbours. -/
def command_tokens (cmds : List (List (List Char))) : List Token :=
  join_with [op_tok .T_PIPE] (cmds.map (List.map word_tok))

/-- The line of the words `ws` with the operator `op` and the file name `f` put in
at position `k`, all separated by single spaces. -/
def redirect_line (ws : List (List Char)) (k : Nat) (op f : List Char) : List Char :=
  join_with [' '] (ws.take k ++ [op, f] ++ ws.drop k)

/-- A token the inner loop of the parser consumes: a word or a redirection operator. -/
def is_arg (t : Token) : Prop :=
  t.type = .T_WORD ∨ t.type = .T_IN ∨ t.type = .T_OUT ∨ t.type = .T_OUT_APP

instance : DecidablePred is_arg := fun t => by unfold is_arg; infer_instance

/-- A redirection operator. -/
def is_redir (t : Token) : Prop :=
  t.type = .T_IN ∨ t.type = .T_OUT ∨ t.type = .T_OUT_APP

instance : DecidablePred is_redir := fun t => by unfold is_redir; infer_instance

/-- Every word token carries its text, as every token pushed by the tokenizer does. -/
def words_have_text (tl : List Token) : Prop :=
  ∀ t ∈ tl, t.type = .T_WORD → t.text ≠ none

instance : DecidablePred words_have_text := fun tl => by unfold words_have_text; infer_instance

/-- A position where a word ends: the end of the line, or a space. -/
def word_end (p : List Char) : Prop := p = [] ∨ ∃ r, p = ' ' :: r

/-- What a pipeline under construction keeps true: at most 64 commands, each with a
non-empty `argv`. -/
def pipeline_ok (pl : Pipeline) : Prop :=
  pl.cmds.length ≤ 64 ∧ ∀ c ∈ pl.cmds, 1 ≤ c.argv.length

/-- The string `s` with a backslash put before every double quote and every
backslash. -/
def esc : List Char → List Char
  | [] => []
  | c :: s => if c = '"' ∨ c = '\\' then '\\' :: c :: esc s else c :: esc s

/-! ## Further vocabulary, the signal handlers and the stream wiring -/

/-- A character at which the word loop stops. -/
def word_stop (c : Char) : Prop :=
  c = '\x00' ∨ isspace c = true ∨ c = '|' ∨ c = '&' ∨ c = '<' ∨ c = '>'

instance : DecidablePred word_stop := fun c => by unfold word_stop; infer_instance

/-- The text of every token is at most 4095 characters long. -/
def text_bound (tl : TokenList) : Prop :=
  ∀ t ∈ tl, ∀ s, t.text = some s → s.length ≤ 4095

/-- The number of backslashes at the end of the line. -/
def trailing_backslashes (p : List Char) : Nat :=
  (p.reverse.takeWhile (fun c => c = '\\')).length

/-- The line does not end in a backslash that escapes what follows: the backslashes
at its end are even in number, so each is one half of an escaped backslash. -/
def ends_escaped (p : List Char) : Prop :=
  trailing_backslashes p % 2 = 0

instance : DecidablePred ends_escaped := fun p => by unfold ends_escaped; infer_instance

/-- The string `s` with a backslash written before each character. -/
def backslashed : List Char → List Char
  | [] => []
  | c :: s => '\\' :: c :: backslashed s

/-- The argument words of a command: the texts of the word tokens that do not come
directly after a redirection operator (`prev` tells whether the token before the list
is one). -/
def arg_words : Bool → List Token → List (List Char)
  | _, [] => []
  | prev, t :: rest =>
    (if t.type = .T_WORD ∧ prev = false then [t.text.getD []] else [])
      ++ arg_words (decide (is_redir t)) rest

/-- The redirections of a command, in order: each redirection operator with the text
of the token after it. -/
def redirections : List Token → List (TokType × List Char)
  | [] => []
  | [_] => []
  | t :: nx :: rest =>
    (if is_redir t then [(t.type, nx.text.getD [])] else []) ++ redirections (nx :: rest)

/-- Every redirection operator of the list is directly followed by a word. -/
def redirs_followed : List Token → Bool
  | [] => true
  | [t] => !decide (is_redir t)
  | t :: nx :: rest =>
    (!decide (is_redir t) || decide (nx.type = .T_WORD)) && redirs_followed (nx :: rest)

/-- A text that is present and holds no NUL. -/
def is_string (o : Option (List Char)) : Prop :=
  ∃ s, o = some s ∧ ∀ c ∈ s, c ≠ '\x00'

instance : DecidablePred is_string := fun o =>
  match o with
  | none => isFalse (by simp [is_string])
  | some s => decidable_of_iff (∀ c ∈ s, c ≠ '\x00') (by simp [is_string])

/-- Every word token carries a text without NUL. -/
def words_are_strings (tl : List Token) : Prop :=
  ∀ t ∈ tl, t.type = .T_WORD → is_string t.text

instance : DecidablePred words_are_strings := fun tl => by
  unfold words_are_strings; infer_instance

/-- The file name of the last input redirection, if there is one. -/
def last_in (tl : List Token) : Option (List Char) :=
  (((redirections tl).filter (fun r => r.1 = .T_IN)).getLast?).map (fun r => r.2)

/-- The last output redirection, if there is one: its operator and its file name. -/
def last_out (tl : List Token) : Option (TokType × List Char) :=
  ((redirections tl).filter (fun r => r.1 ≠ .T_IN)).getLast?

/-- The assignment a redirection makes to the command: `in_file` for `T_IN`,
`out_file` and `append` for the two others. -/
def set_redir (cmd : Command) (r : TokType × List Char) : Command :=
  if r.1 = .T_IN then { cmd with in_file := some r.2 }
  else { cmd with out_file := some r.2, append := decide (r.1 = .T_OUT_APP) }

/-- The token sequence of single-word commands: the words with a `T_PIPE` between
neighbours, closed by `T_END`. -/
def single_word_commands (ws : List (List Char)) : List Token :=
  command_tokens (ws.map (fun w => [w])) ++ [op_tok .T_END]

/-! ## Signal handlers -/

/-- The signals the handlers deal with. -/
inductive Signal where
  | SIGINT | SIGCHLD
  deriving DecidableEq, Repr

/-- A call `kill(pid, sig)`. -/
structure KillCall where
  pid : Int
  sig : Signal
  deriving DecidableEq, Repr

/-- The handler `sigint_handler`, run with the value `fg_pgid` of the variable of that
name: the calls of `kill` it makes, in order, and the value of the variable when it
returns. The negation cannot overflow: it is taken of a positive `pid_t` only. -/
def sigint_handler (_signo : Int) (fg_pgid : Int) : List KillCall × Int :=
  let pg := fg_pgid
  if pg > 0 then ([{ pid := -pg, sig := .SIGINT }], fg_pgid)
  else ([], fg_pgid)

/-- One answer of `waitpid(-1, &status, WNOHANG)`: the value returned, the status
stored, the value of `errno` after the call, and the value of `errno` after the
`fprintf` of the notice, when one is printed. -/
structure WaitAnswer where
  pid : Int
  status : Int
  errno_wait : Int
  errno_print : Int
  deriving DecidableEq, Repr

/-- The state `sigchld_handler` works on: `errno`, and the process ids of the notices
written to `stderr`, in order. -/
structure HandlerState where
  errno : Int
  notices : List Int
  deriving DecidableEq, Repr

/-- The loop `while (1)` of `sigchld_handler`, from the `k`-th answer of `waitpid` on.
The macros `WIFEXITED` and `WIFSIGNALED` of `<sys/wait.h>` are parameters. The loop
has no bound of its own, so it recurses on a fuel counter and `none` is running out of
it. -/
def sigchld_loop (wifexited wifsignaled : Int → Bool) (answers : Nat → WaitAnswer) :
    Nat → Nat → HandlerState → Option HandlerState
  | 0, _, _ => none
  | fuel + 1, k, st =>
    let a := answers k
    let st1 : HandlerState := { st with errno := a.errno_wait }
    if a.pid ≤ 0 then some st1
    else if wifexited a.status || wifsignaled a.status then
      sigchld_loop wifexited wifsignaled answers fuel (k + 1)
        { errno := a.errno_print, notices := st1.notices ++ [a.pid] }
    else sigchld_loop wifexited wifsignaled answers fuel (k + 1) st1

/-- The handler `sigchld_handler`: `errno` is saved, the loop runs, `errno` is put
back. -/
def sigchld_handler (wifexited wifsignaled : Int → Bool) (answers : Nat → WaitAnswer)
    (fuel : Nat) (_signo : Int) (st : HandlerState) : Option HandlerState :=
  let saved := st.errno
  match sigchld_loop wifexited wifsignaled answers fuel 0 st with
  | none => none
  | some st2 => some { st2 with errno := saved }

/-- The process ids of the answers `j`, ..., `j + d - 1` whose status is a normal exit
or a death by signal. -/
def finished_pids (wifexited wifsignaled : Int → Bool) (answers : Nat → WaitAnswer)
    (j d : Nat) : List Int :=
  (((List.range' j d).map answers).filter
    (fun a => wifexited a.status || wifsignaled a.status)).map (fun a => a.pid)

/-! ## Wiring of the standard streams -/

/-- Where the standard input of a command comes from. -/
inductive StdinSource where
  | file (path : List Char)
  | pipe_read (channel : Nat)
  | inherited
  deriving DecidableEq, Repr

/-- Where the standard output of a command goes to. -/
inductive StdoutSink where
  | file (path : List Char) (append : Bool)
  | pipe_write (channel : Nat)
  | inherited
  deriving DecidableEq, Repr

/-- Modelled from the spec: the standard input of command `i` of the execution engine,
whose code is not in `src/` (`apply_redirs` breaks off in its first statement): "pipe
read-end from channel i-1 if i>0 and no `in_file`; otherwise the opened `in_file` if
present; otherwise inherited". -/
def stdin_source (cmd : Command) (i : Nat) : StdinSource :=
  if 0 < i ∧ cmd.in_file = none then .pipe_read (i - 1)
  else
    match cmd.in_file with
    | some f => .file f
    | none => .inherited

/-- Modelled from the spec: the standard output of command `i` of `n` of the execution
engine, whose code is not in `src/`: "pipe write-end to channel i if i<N-1 and no
`out_file`; otherwise the opened `out_file` (opened for append or truncate per
`append` flag) if present; otherwise inherited". -/
def stdout_sink (cmd : Command) (i n : Nat) : StdoutSink :=
  if i + 1 < n ∧ cmd.out_file = none then .pipe_write i
  else
    match cmd.out_file with
    | some f => .file f cmd.append
    | none => .inherited

/-- The standard input by precedence: the file when `in_file` is set, else the pipe
from the left when there is one, else the inherited input. -/
def stdin_by_precedence (cmd : Command) (i : Nat) : StdinSource :=
  match cmd.in_file with
  | some f => .file f
  | none => if 0 < i then .pipe_read (i - 1) else .inherited

/-- The standard output by precedence: the file when `out_file` is set, else the pipe
to the right when there is one, else the inherited output. -/
def stdout_by_precedence (cmd : Command) (i n : Nat) : StdoutSink :=
  match cmd.out_file with
  | some f => .file f cmd.append
  | none => if i + 1 < n then .pipe_write i else .inherited

/-! ## Unfolding lemmas and basic facts -/

/-- The body of the inner loop of `parse_pipeline` at a token. -/
theorem parse_args_cons (tk : Token) (rest : List Token) (cmd : Command)
    (argv_buf : List (List Char)) :
    parse_args (tk :: rest) cmd argv_buf =
      if tk.type = .T_WORD then
        if argv_buf.length ≥ 255 then .error
        else
          match tk.text with
          | none => .null_text
          | some s => parse_args rest cmd (argv_buf ++ [xstrdup s])
      else if tk.type = .T_IN ∨ tk.type = .T_OUT ∨ tk.type = .T_OUT_APP then
        match rest with
        | [] => .out_of_range
        | nx :: rest2 =>
          if nx.type ≠ .T_WORD then .error
          else
            match nx.text with
            | none => .null_text
            | some s =>
              if tk.type = .T_IN then
                parse_args rest2 { cmd with in_file := some (xstrdup s) } argv_buf
              else
                parse_args rest2
                  { cmd with out_file := some (xstrdup s),
                             append := decide (tk.type = .T_OUT_APP) } argv_buf
      else .done cmd argv_buf (tk :: rest) := by
  cases rest <;> rfl

/-- The body of the loop of a quoted span at a character. -/
theorem quoted_loop_cons (quote c : Char) (rest buf : List Char) :
    quoted_loop quote (c :: rest) buf =
      if c = '\x00' ∨ c = quote then (buf, c :: rest)
      else if c = '\\' ∧ quote = '"' ∧ cur rest ≠ '\x00' then
        match rest with
        | [] => (buf, [])
        | d :: rest2 => quoted_loop quote rest2 (store buf d)
      else quoted_loop quote rest (store buf c) := by
  cases rest <;> simp [quoted_loop, cur]

theorem xstrdup_eq {s : List Char} (h : ∀ c ∈ s, c ≠ '\x00') : xstrdup s = s := by
  unfold xstrdup
  rw [List.takeWhile_eq_self_iff]
  intro c hc
  simpa using h c hc

theorem token_push_lt {tl : TokenList} (h : tl.length < 256) (t : TokType)
    (txt : Option (List Char)) :
    token_push tl t txt = tl ++ [{ type := t, text := txt.map xstrdup }] := by
  unfold token_push MAX_TOKENS
  rw [if_neg (by omega)]

theorem word_loop_end {p : List Char} (h : word_end p) (f : Nat) (buf : List Char) :
    word_loop (f + 1) p buf = some (buf, p) := by
  rcases h with rfl | ⟨r, rfl⟩
  · simp [word_loop]
  · simp [word_loop, isspace]

theorem store_lt {buf : List Char} (h : buf.length < 4095) (c : Char) :
    store buf c = buf ++ [c] := by
  unfold store
  rw [if_pos h]

theorem word_loop_plain (w : List Char) : ∀ (p buf : List Char) (f : Nat),
    (∀ c ∈ w, plain c) → word_end p → buf.length + w.length ≤ 4095 → w.length < f →
    word_loop f (w ++ p) buf = some (buf ++ w, p) := by
  induction w with
  | nil =>
    intro p buf f _ hp _ hf
    rcases f with _ | f
    · simp at hf
    simpa using word_loop_end hp f buf
  | cons c w ih =>
    intro p buf f hw hp hlen hf
    rcases f with _ | f
    · simp at hf
    have hc : plain c := hw c (List.mem_cons_self _ _)
    obtain ⟨h0, h1, h2, h3, h4, h5, h6, h7, h8⟩ := hc
    simp only [List.length_cons] at hlen hf
    have hlt : buf.length < 4095 := by omega
    have := ih p (buf ++ [c]) f (fun d hd => hw d (List.mem_cons_of_mem _ hd)) hp
      (by simp only [List.length_append, List.length_singleton]; omega) (by omega)
    simp only [List.cons_append, word_loop, h0, h1, h2, h3, h4, h5, h6, h7, h8, hlt,
      false_or, or_self, if_false, if_true, false_and, Bool.false_eq_true]
    simpa using this

/-! ## The tokenizer on lines of plain words and operators -/

theorem tokenize_loop_nil (f : Nat) (out : TokenList) :
    tokenize_loop (f + 1) [] out = some (token_push out .T_END none) := by
  simp [tokenize_loop, cur]

theorem tokenize_loop_space (f : Nat) (p : List Char) (out : TokenList) :
    tokenize_loop f (' ' :: p) out = tokenize_loop f p out := by
  rcases f with _ | f
  · simp [tokenize_loop]
  · rcases p with _ | ⟨c, r⟩
    · simp [tokenize_loop, cur, skip_space, isspace]
    · by_cases hc : c = '\x00'
      · subst hc
        simp [tokenize_loop, cur, skip_space, isspace]
      · simp [tokenize_loop, cur, skip_space, isspace, hc]

theorem tokenize_loop_word (f : Nat) (w p : List Char) (out : TokenList)
    (hw : plain_word w) (hp : word_end p) :
    tokenize_loop (f + 1) (w ++ p) out
      = tokenize_loop f p (token_push out .T_WORD (some w)) := by
  obtain ⟨hne, hlen, hpl⟩ := hw
  rcases w with _ | ⟨c, w⟩
  · exact absurd rfl hne
  · have hwl := word_loop_plain (c :: w) p [] ((c :: w ++ p).length + 1) hpl hp
      (by simpa using hlen) (by simp; omega)
    obtain ⟨h0, h1, h2, h3, h4, h5, h6, h7, h8⟩ := hpl c (List.mem_cons_self _ _)
    simp only [List.cons_append, List.nil_append] at hwl
    simp only [List.cons_append, tokenize_loop, cur, List.headD_cons, h0, if_false,
      skip_space, h1, h2, h3, h4, h5, List.append_eq, hwl, Bool.false_eq_true]

theorem tokenize_loop_op (f : Nat) (t : Token) (p : List Char) (out : TokenList)
    (ht : t.type ≠ .T_WORD ∧ t.type ≠ .T_END ∧ t.text = none) (hp : word_end p) :
    tokenize_loop (f + 1) (spell t ++ p) out = tokenize_loop f p (token_push out t.type none) := by
  obtain ⟨ty, tx⟩ := t
  obtain ⟨h1, h2, h3⟩ := ht
  simp only at h1 h2 h3
  subst h3
  cases ty
  · exact absurd rfl h1
  · simp [spell, tokenize_loop, cur, skip_space, isspace]
  · simp [spell, tokenize_loop, cur, skip_space, isspace]
  · rcases hp with rfl | ⟨r, rfl⟩ <;>
      simp [spell, tokenize_loop, cur, skip_space, isspace]
  · simp [spell, tokenize_loop, cur, skip_space, isspace]
  · simp [spell, tokenize_loop, cur, skip_space, isspace]
  · exact absurd rfl h2

theorem plain_word_nul {w : List Char} (hw : plain_word w) : ∀ c ∈ w, c ≠ '\x00' :=
  fun c hc => (hw.2.2 c hc).1

theorem token_push_spellable {out : TokenList} (h : out.length < 256) {t : Token}
    (ht : spellable t) :
    (if t.type = .T_WORD then token_push out .T_WORD t.text else token_push out t.type none)
      = out ++ [t] := by
  obtain ⟨ty, tx⟩ := t
  rcases ht with ⟨h1, w, h2, h3⟩ | ⟨h1, h2, h3⟩
  · simp only at h1 h2
    subst h1 h2
    simp [token_push_lt h, xstrdup_eq (plain_word_nul h3)]
  · simp only at h1 h2 h3
    subst h3
    simp [token_push_lt h, h1]

/-- One token written before the end of the line or before a space. -/
theorem tokenize_loop_spell (f : Nat) (t : Token) (p : List Char) (out : TokenList)
    (ht : spellable t) (hp : word_end p) (hout : out.length < 256) :
    tokenize_loop (f + 1) (spell t ++ p) out = tokenize_loop f p (out ++ [t]) := by
  have hpush := token_push_spellable hout ht
  rcases ht with ⟨h1, w, h2, h3⟩ | ⟨h1, h2, h3⟩
  · have hs : spell t = w := by simp [spell, h1, h2]
    rw [hs, tokenize_loop_word f w p out h3 hp, ← hpush, if_pos h1, h2]
  · rw [tokenize_loop_op f t p out ⟨h1, h2, h3⟩ hp, ← hpush, if_neg h1]

/-- A line of spellable tokens separated by single spaces is tokenized to these
tokens, and the push of `T_END` comes after them. -/
theorem tokenize_loop_spelled_push (ts : List Token) : ∀ (f : Nat) (out : TokenList),
    (∀ t ∈ ts, spellable t) → out.length + ts.length ≤ 256 → ts.length < f →
    tokenize_loop f (join_with [' '] (ts.map spell)) out
      = some (token_push (out ++ ts) .T_END none) := by
  induction ts with
  | nil =>
    intro f out _ _ hf
    rcases f with _ | f
    · simp at hf
    · simp [join_with, tokenize_loop_nil]
  | cons t ts ih =>
    intro f out hts hout hf
    rcases f with _ | f
    · simp at hf
    simp only [List.length_cons] at hout hf
    have ht := hts t (List.mem_cons_self _ _)
    have hts2 : ∀ u ∈ ts, spellable u := fun u hu => hts u (List.mem_cons_of_mem _ hu)
    rcases ts with _ | ⟨u, us⟩
    · have h := tokenize_loop_spell f t [] out ht (Or.inl rfl) (by omega)
      simp only [List.append_nil] at h
      simp only [List.map_cons, List.map_nil, join_with, h]
      rcases f with _ | f
      · simp at hf
      · simp [tokenize_loop_nil]
    · have h := tokenize_loop_spell f t
        (' ' :: join_with [' '] ((u :: us).map spell)) out ht
        (Or.inr ⟨_, rfl⟩) (by omega)
      have h2 := ih f (out ++ [t]) hts2
        (by simp only [List.length_append, List.length_singleton]; omega) (by omega)
      simp only [List.map_cons, join_with, List.append_assoc, List.singleton_append] at h ⊢
      rw [h, tokenize_loop_space]
      simpa using h2

/-- A line of spellable tokens separated by single spaces is tokenized to these
tokens followed by `T_END`, when the list has room for all of them. -/
theorem tokenize_loop_spelled (ts : List Token) (f : Nat) (out : TokenList)
    (hts : ∀ t ∈ ts, spellable t) (hout : out.length + ts.length < 256) (hf : ts.length < f) :
    tokenize_loop f (join_with [' '] (ts.map spell)) out
      = some (out ++ ts ++ [{ type := .T_END, text := none }]) := by
  rw [tokenize_loop_spelled_push ts f out hts (by omega) hf,
    token_push_lt (by simp only [List.length_append]; omega)]
  rfl

theorem length_join_spell (ts : List Token) (h : ∀ t ∈ ts, spellable t) :
    ts.length ≤ (join_with [' '] (ts.map spell)).length := by
  induction ts with
  | nil => simp
  | cons t ts ih =>
    have h1 : 1 ≤ (spell t).length := by
      rcases h t (List.mem_cons_self _ _) with ⟨h1, w, h2, h3⟩ | ⟨h1, h2, h3⟩
      · have : w ≠ [] := h3.1
        simp only [spell, h1, h2, Option.getD_some]
        exact List.length_pos.mpr this
      · obtain ⟨ty, tx⟩ := t
        cases ty <;> simp_all [spell]
    have h2 := ih (fun u hu => h u (List.mem_cons_of_mem _ hu))
    rcases ts with _ | ⟨u, us⟩
    · simpa [join_with] using h1
    · simp only [List.map_cons, join_with, List.length_append, List.length_cons] at h2 ⊢
      omega

theorem tokenize_spelled (ts : List Token) (h : ∀ t ∈ ts, spellable t)
    (hlen : ts.length < 256) :
    tokenize (join_with [' '] (ts.map spell))
      = some (ts ++ [{ type := .T_END, text := none }]) := by
  have := tokenize_loop_spelled ts ((join_with [' '] (ts.map spell)).length + 1) []
    h (by simpa using hlen) (by have := length_join_spell ts h; omega)
  simpa [tokenize] using this

/-! ## The parser on words and separators -/

theorem parse_args_word (w : List Char) (rest : List Token) (cmd : Command)
    (buf : List (List Char)) (hb : buf.length < 255) :
    parse_args (word_tok w :: rest) cmd buf = parse_args rest cmd (buf ++ [xstrdup w]) := by
  simp [parse_args_cons, word_tok, hb]

theorem parse_args_words (ws : List (List Char)) : ∀ (rest : List Token) (cmd : Command)
    (buf : List (List Char)), (∀ w ∈ ws, ∀ c ∈ w, c ≠ '\x00') → buf.length + ws.length ≤ 255 →
    parse_args (ws.map word_tok ++ rest) cmd buf = parse_args rest cmd (buf ++ ws) := by
  induction ws with
  | nil => intro rest cmd buf _ _; simp
  | cons w ws ih =>
    intro rest cmd buf hw hlen
    simp only [List.length_cons] at hlen
    rw [List.map_cons, List.cons_append, parse_args_word w _ cmd buf (by omega),
      xstrdup_eq (hw w (List.mem_cons_self _ _)),
      ih rest cmd (buf ++ [w]) (fun v hv => hw v (List.mem_cons_of_mem _ hv))
        (by simp only [List.length_append, List.length_singleton]; omega)]
    simp

theorem parse_args_sep (t : Token) (rest : List Token) (cmd : Command)
    (buf : List (List Char))
    (ht : t.type = .T_PIPE ∨ t.type = .T_AMP ∨ t.type = .T_END) :
    parse_args (t :: rest) cmd buf = .done cmd buf (t :: rest) := by
  rcases ht with h | h | h <;> simp [parse_args_cons, h]

theorem parse_args_out (app : Bool) (w : List Char) (rest : List Token) (cmd : Command)
    (buf : List (List Char)) :
    parse_args (op_tok (if app then .T_OUT_APP else .T_OUT) :: word_tok w :: rest) cmd buf
      = parse_args rest { cmd with out_file := some (xstrdup w), append := app } buf := by
  cases app <;> simp [parse_args_cons, word_tok, op_tok]

/-- One pass of the main loop over a command that a `T_PIPE` follows. -/
theorem parse_loop_pipe (f : Nat) (items tail : List Token) (pl : Pipeline) (cmd : Command)
    (buf : List (List Char)) (t : Token) (ht : t.type = .T_PIPE)
    (h : parse_args items empty_command []
      = .done cmd buf (t :: tail))
    (hbuf : buf ≠ []) (hn : pl.cmds.length < 64) :
    parse_loop (f + 1) items pl
      = parse_loop f tail { pl with cmds := pl.cmds ++ [{ cmd with argv := buf }] } := by
  rcases items with _ | ⟨tk, r⟩
  · simp [parse_args] at h
  · have hne : tk.type ≠ .T_END := by
      intro he
      rw [parse_args_sep tk r _ _ (Or.inr (Or.inr he))] at h
      simp only [ArgsResult.done.injEq] at h
      exact hbuf h.2.1.symm
    have hlen : ¬ buf.length = 0 := fun h0 => hbuf (List.length_eq_zero.mp h0)
    simp [parse_loop, hne, MAX_CMDS, Nat.not_le.mpr hn, h, hlen, ht]

/-- One pass of the main loop over a command that `T_END` follows. -/
theorem parse_loop_end (f : Nat) (items tail : List Token) (pl : Pipeline) (cmd : Command)
    (buf : List (List Char)) (t : Token) (ht : t.type = .T_END)
    (h : parse_args items empty_command []
      = .done cmd buf (t :: tail))
    (hbuf : buf ≠ []) (hn : pl.cmds.length < 64) (hbg : pl.background = false) :
    parse_loop (f + 1) items pl
      = .ok { cmds := pl.cmds ++ [{ cmd with argv := buf }], background := false } := by
  rcases items with _ | ⟨tk, r⟩
  · simp [parse_args] at h
  · have hne : tk.type ≠ .T_END := by
      intro he
      rw [parse_args_sep tk r _ _ (Or.inr (Or.inr he))] at h
      simp only [ArgsResult.done.injEq] at h
      exact hbuf h.2.1.symm
    have hlen : ¬ buf.length = 0 := fun h0 => hbuf (List.length_eq_zero.mp h0)
    simp [parse_loop, hne, MAX_CMDS, Nat.not_le.mpr hn, h, hlen, ht, parse_finish, hbg]

/-! ## Lines of commands and of one redirected command -/

theorem join_with_append {α : Type} (sep : List α) (a : List (List α)) :
    ∀ (b : List (List α)), a ≠ [] → b ≠ [] →
    join_with sep (a ++ b) = join_with sep a ++ sep ++ join_with sep b := by
  induction a with
  | nil => intro b ha; exact absurd rfl ha
  | cons x a ih =>
    intro b _ hb
    rcases a with _ | ⟨y, a⟩
    · rcases b with _ | ⟨z, b⟩
      · exact absurd rfl hb
      · simp [join_with]
    · have := ih b (by simp) hb
      simp only [List.cons_append, join_with, List.append_assoc, List.append_eq] at this ⊢
      rw [this]

theorem spell_word_tok (ws : List (List Char)) : (ws.map word_tok).map spell = ws := by
  induction ws with
  | nil => rfl
  | cons w ws ih =>
    rw [List.map_cons, List.map_cons, ih]
    rfl

theorem command_tokens_cons2 (c c2 : List (List Char)) (cs : List (List (List Char))) :
    command_tokens (c :: c2 :: cs)
      = c.map word_tok ++ op_tok .T_PIPE :: command_tokens (c2 :: cs) := by
  simp [command_tokens, join_with]

theorem command_tokens_ne_nil (c : List (List Char)) (cs : List (List (List Char)))
    (hc : c ≠ []) : command_tokens (c :: cs) ≠ [] := by
  rcases c with _ | ⟨w, c⟩
  · exact absurd rfl hc
  · rcases cs with _ | ⟨c2, cs⟩
    · simp [command_tokens, join_with]
    · simp [command_tokens_cons2]

/-- The line of a list of non-empty commands is the line of its tokens. -/
theorem command_line_eq (cmds : List (List (List Char))) (hne : ∀ ws ∈ cmds, ws ≠ []) :
    command_line cmds = join_with [' '] ((command_tokens cmds).map spell) := by
  induction cmds with
  | nil => simp [command_line, command_tokens, join_with]
  | cons c cs ih =>
    rcases cs with _ | ⟨c2, cs⟩
    · simp only [command_line, command_tokens, join_with, spell_word_tok, List.map_cons,
        List.map_nil]
    · have hc : c ≠ [] := hne c (List.mem_cons_self _ _)
      have hc2 : c2 ≠ [] := hne c2 (List.mem_cons_of_mem _ (List.mem_cons_self _ _))
      have ih2 := ih (fun ws hws => hne ws (List.mem_cons_of_mem _ hws))
      have hne2 : (command_tokens (c2 :: cs)).map spell ≠ [] := by
        simpa using command_tokens_ne_nil c2 cs hc2
      have hsp : spell (op_tok .T_PIPE) = ['|'] := rfl
      rw [command_tokens_cons2, List.map_append, spell_word_tok, List.map_cons, hsp,
        join_with_append _ c _ hc (by simp),
        show (['|'] :: (command_tokens (c2 :: cs)).map spell)
          = [['|']] ++ (command_tokens (c2 :: cs)).map spell from rfl,
        join_with_append _ [['|']] _ (by simp) hne2, ← ih2]
      simp [command_line, join_with]

theorem command_tokens_length (cmds : List (List (List Char))) (h : cmds ≠ []) :
    (command_tokens cmds).length + 1 = (cmds.map List.length).sum + cmds.length := by
  induction cmds with
  | nil => exact absurd rfl h
  | cons c cs ih =>
    rcases cs with _ | ⟨c2, cs⟩
    · simp [command_tokens, join_with]
    · have := ih (by simp)
      rw [command_tokens_cons2]
      simp only [List.length_append, List.length_map, List.length_cons, List.map_cons,
        List.sum_cons] at this ⊢
      omega

theorem command_tokens_spellable (cmds : List (List (List Char)))
    (hw : ∀ ws ∈ cmds, ∀ w ∈ ws, plain_word w) :
    ∀ t ∈ command_tokens cmds, spellable t := by
  induction cmds with
  | nil => simp [command_tokens, join_with]
  | cons c cs ih =>
    have hc : ∀ t ∈ c.map word_tok, spellable t := by
      intro t ht
      obtain ⟨w, hwc, rfl⟩ := List.mem_map.mp ht
      exact Or.inl ⟨rfl, w, rfl, hw c (List.mem_cons_self _ _) w hwc⟩
    rcases cs with _ | ⟨c2, cs⟩
    · simpa [command_tokens, join_with] using hc
    · have ih2 := ih (fun ws hws => hw ws (List.mem_cons_of_mem _ hws))
      intro t ht
      rw [command_tokens_cons2, List.mem_append, List.mem_cons] at ht
      rcases ht with ht | rfl | ht
      · exact hc t ht
      · exact Or.inr ⟨by simp [op_tok], by simp [op_tok], rfl⟩
      · exact ih2 t ht

/-- The main loop of the parser over the tokens of a list of commands. -/
theorem parse_loop_commands (cs : List (List (List Char))) :
    ∀ (c : List (List Char)) (pl : Pipeline) (f : Nat),
    (∀ ws ∈ c :: cs, ws ≠ [] ∧ ws.length ≤ 255 ∧ ∀ w ∈ ws, ∀ x ∈ w, x ≠ '\x00') →
    pl.cmds.length + (c :: cs).length ≤ 64 → pl.background = false → cs.length < f →
    parse_loop f (command_tokens (c :: cs) ++ [op_tok .T_END]) pl
      = .ok { cmds := pl.cmds ++ (c :: cs).map simple_command, background := false } := by
  induction cs with
  | nil =>
    intro c pl f h hn hbg hf
    rcases f with _ | f
    · simp at hf
    obtain ⟨hne, hlen, hnul⟩ := h c (List.mem_cons_self _ _)
    have hargs := parse_args_words c [op_tok .T_END]
      empty_command [] hnul
      (by simpa using hlen)
    rw [parse_args_sep _ _ _ _ (Or.inr (Or.inr rfl))] at hargs
    simp only [List.length_cons, List.length_nil] at hn
    have := parse_loop_end f _ [] pl _ _ (op_tok .T_END) rfl hargs (by simpa using hne)
      (by omega) hbg
    simpa [command_tokens, join_with, simple_command] using this
  | cons c2 cs ih =>
    intro c pl f h hn hbg hf
    rcases f with _ | f
    · simp at hf
    obtain ⟨hne, hlen, hnul⟩ := h c (List.mem_cons_self _ _)
    simp only [List.length_cons] at hn hf
    have hargs := parse_args_words c
      (op_tok .T_PIPE :: (command_tokens (c2 :: cs) ++ [op_tok .T_END]))
      empty_command [] hnul
      (by simpa using hlen)
    rw [parse_args_sep _ _ _ _ (Or.inl rfl)] at hargs
    have hstep := parse_loop_pipe f _ _ pl _ _ (op_tok .T_PIPE) rfl hargs (by simpa using hne)
      (by omega)
    have hrec := ih c2 { pl with cmds := pl.cmds ++ [simple_command c] } f
      (fun ws hws => h ws (List.mem_cons_of_mem _ hws))
      (by simp only [List.length_append, List.length_cons, List.length_nil]; omega) hbg
      (by omega)
    rw [command_tokens_cons2, List.append_assoc, List.cons_append, hstep]
    simpa [simple_command] using hrec

/-- C1: a line of `n` commands of plain words (`1 ≤ n ≤ 64`, words plus commands at
most 256), the words joined by one space and the commands by a pipe sign between
spaces, is tokenized and parsed to exactly these commands in order, each with its
word list as `argv`, no redirection, `append` false, and `background` false. -/
theorem plain_pipeline_parses (cmds : List (List (List Char)))
    (hn1 : 1 ≤ cmds.length) (hn2 : cmds.length ≤ 64)
    (hne : ∀ ws ∈ cmds, ws ≠ [])
    (hw : ∀ ws ∈ cmds, ∀ w ∈ ws, plain_word w)
    (htot : (cmds.map List.length).sum + cmds.length ≤ 256) :
    parse_line (command_line cmds)
      = .ok { cmds := cmds.map simple_command, background := false } := by
  rcases cmds with _ | ⟨c, cs⟩
  · simp at hn1
  have hlen := command_tokens_length (c :: cs) (by simp)
  have htok := tokenize_spelled (command_tokens (c :: cs))
    (command_tokens_spellable (c :: cs) hw) (by omega)
  rw [← command_line_eq (c :: cs) hne] at htok
  have hsum : ∀ ws ∈ c :: cs, ws.length ≤ ((c :: cs).map List.length).sum := fun ws hws =>
    List.single_le_sum (by simp) _ (List.mem_map_of_mem _ hws)
  have hloop := parse_loop_commands cs c { cmds := [], background := false }
    ((command_tokens (c :: cs) ++ [op_tok .T_END]).length + 1)
    (fun ws hws => ⟨hne ws hws, by have := hsum ws hws; omega,
      fun w hw2 => plain_word_nul (hw ws hws w hw2)⟩)
    (by simpa using hn2) rfl
    (by simp only [List.length_append, List.length_cons, List.length_nil] at hlen ⊢; omega)
  simp only [parse_line, htok, parse_pipeline]
  simpa [op_tok] using hloop

theorem plain_pipeline_parses_witness :
    parse_line ['a', ' ', '|', ' ', 'b', ' ', '|', ' ', 'c']
      = .ok { cmds := [simple_command [['a']], simple_command [['b']],
                       simple_command [['c']]], background := false } :=
  plain_pipeline_parses [[['a']], [['b']], [['c']]] (by decide) (by decide) (by decide)
    (by decide) (by decide)

theorem redirect_parses (app : Bool) (ws : List (List Char)) (f : List Char) (k : Nat)
    (h2 : ws.length ≤ 253) (h1 : 1 ≤ ws.length)
    (hws : ∀ w ∈ ws, plain_word w) (hf : plain_word f) :
    parse_line (redirect_line ws k (spell (op_tok (if app then .T_OUT_APP else .T_OUT))) f)
      = .ok { cmds := [{ argv := ws, in_file := none, out_file := some f, append := app }],
              background := false } := by
  let ts : List Token := (ws.take k).map word_tok ++
    op_tok (if app then .T_OUT_APP else .T_OUT) :: word_tok f :: (ws.drop k).map word_tok
  have hline : redirect_line ws k (spell (op_tok (if app then .T_OUT_APP else .T_OUT))) f
      = join_with [' '] (ts.map spell) := by
    have hsf : spell (word_tok f) = f := rfl
    simp only [redirect_line, ts, List.map_append, List.map_cons, spell_word_tok, hsf]
    simp
  have hsp : ∀ t ∈ ts, spellable t := by
    intro t ht
    simp only [ts, List.mem_append, List.mem_cons, List.mem_map] at ht
    rcases ht with ⟨w, hw, rfl⟩ | rfl | rfl | ⟨w, hw, rfl⟩
    · exact Or.inl ⟨rfl, w, rfl, hws w (List.mem_of_mem_take hw)⟩
    · exact Or.inr ⟨by cases app <;> simp [op_tok], by cases app <;> simp [op_tok], rfl⟩
    · exact Or.inl ⟨rfl, f, rfl, hf⟩
    · exact Or.inl ⟨rfl, w, rfl, hws w (List.mem_of_mem_drop hw)⟩
  have htl : ts.length = ws.length + 2 := by
    simp only [ts, List.length_append, List.length_map, List.length_cons, List.length_take,
      List.length_drop]
    omega
  have htok := tokenize_spelled ts hsp (by omega)
  rw [← hline] at htok
  have hnul : ∀ w ∈ ws, ∀ c ∈ w, c ≠ '\x00' := fun w hw => plain_word_nul (hws w hw)
  have hargs : parse_args (ts ++ [op_tok .T_END])
      empty_command []
      = .done { argv := [], in_file := none, out_file := some f, append := app } ws
          [op_tok .T_END] := by
    simp only [ts, List.append_assoc, List.cons_append]
    rw [parse_args_words _ _ _ _ (fun w hw => hnul w (List.mem_of_mem_take hw))
        (by simp only [List.length_nil, List.length_take]; omega),
      parse_args_out, xstrdup_eq (plain_word_nul hf),
      parse_args_words _ _ _ _ (fun w hw => hnul w (List.mem_of_mem_drop hw))
        (by simp only [List.nil_append, List.length_take, List.length_drop]; omega),
      parse_args_sep _ _ _ _ (Or.inr (Or.inr rfl))]
    simp [empty_command]
  have hloop := parse_loop_end (ts ++ [op_tok .T_END]).length _ [] { cmds := [], background := false }
    _ _ (op_tok .T_END) rfl hargs (by intro h; simp [h] at h1) (by simp) rfl
  simp only [parse_line, htok, parse_pipeline]
  simpa [op_tok] using hloop

/-- C2: a line of 1 to 253 plain words with `>` and a plain file name put in at any
position `k` (a `k` past the last word puts them at the end), all separated by single spaces, is parsed to one command with `argv` the
words, `out_file` the file name, `append` false, no `in_file` and `background`
false; with `>>` in place of `>` the result is the same except `append` true. -/
theorem redirect_out_parses (ws : List (List Char)) (f : List Char) (k : Nat)
    (h1 : 1 ≤ ws.length) (h2 : ws.length ≤ 253)
    (hws : ∀ w ∈ ws, plain_word w) (hf : plain_word f) :
    parse_line (redirect_line ws k ['>'] f)
      = .ok { cmds := [{ argv := ws, in_file := none, out_file := some f, append := false }],
              background := false } ∧
    parse_line (redirect_line ws k ['>', '>'] f)
      = .ok { cmds := [{ argv := ws, in_file := none, out_file := some f, append := true }],
              background := false } :=
  ⟨redirect_parses false ws f k h2 h1 hws hf, redirect_parses true ws f k h2 h1 hws hf⟩

theorem redirect_out_parses_witness :
    parse_line ['c', 'm', 'd', ' ', '>', ' ', 'o', '.', 't']
      = .ok { cmds := [{ argv := [['c', 'm', 'd']], in_file := none,
                         out_file := some ['o', '.', 't'], append := false }],
              background := false } ∧
    parse_line ['c', 'm', 'd', ' ', '>', '>', ' ', 'o', '.', 't']
      = .ok { cmds := [{ argv := [['c', 'm', 'd']], in_file := none,
                         out_file := some ['o', '.', 't'], append := true }],
              background := false } :=
  redirect_out_parses [['c', 'm', 'd']] ['o', '.', 't'] 1 (by decide) (by decide) (by decide)
    (by decide)

/-! ## The parser over runs of arguments and separators -/

theorem not_is_arg {s : Token} (hs : ¬ is_arg s) :
    s.type = .T_PIPE ∨ s.type = .T_AMP ∨ s.type = .T_END := by
  obtain ⟨ty, tx⟩ := s
  cases ty <;> simp_all [is_arg]

theorem not_words_have_text_cons {t : Token} {l : List Token} (h : ¬ words_have_text l) :
    ¬ words_have_text (t :: l) :=
  fun hw => h (fun u hu => hw u (List.mem_cons_of_mem _ hu))

/-- The inner loop over a run of words and redirections that a separator follows:
what it comes to does not depend on what follows the separator. -/
theorem parse_args_seg : ∀ (n : Nat) (args : List Token), args.length ≤ n →
    (∀ t ∈ args, is_arg t) → ∀ (s : Token), ¬ is_arg s →
    ∀ (cmd : Command) (buf : List (List Char)),
    (∀ tail, parse_args (args ++ s :: tail) cmd buf = .error) ∨
    ((∀ tail, parse_args (args ++ s :: tail) cmd buf = .null_text) ∧ ¬ words_have_text args) ∨
    (∃ c b, buf.length ≤ b.length ∧
      ∀ tail, parse_args (args ++ s :: tail) cmd buf = .done c b (s :: tail)) := by
  intro n
  induction n with
  | zero =>
    intro args hlen _ s hs cmd buf
    have : args = [] := List.length_eq_zero.mp (Nat.le_zero.mp hlen)
    subst this
    exact Or.inr (Or.inr ⟨cmd, buf, le_refl _, fun tail =>
      parse_args_sep s tail cmd buf (not_is_arg hs)⟩)
  | succ n ih =>
    intro args hlen hargs s hs cmd buf
    rcases args with _ | ⟨t, r⟩
    · exact Or.inr (Or.inr ⟨cmd, buf, le_refl _, fun tail =>
        parse_args_sep s tail cmd buf (not_is_arg hs)⟩)
    have hr : ∀ u ∈ r, is_arg u := fun u hu => hargs u (List.mem_cons_of_mem _ hu)
    simp only [List.length_cons, Nat.add_le_add_iff_right] at hlen
    by_cases hw : t.type = .T_WORD
    · by_cases hb : buf.length ≥ 255
      · exact Or.inl (fun tail => by simp [parse_args_cons, hw, hb])
      · rcases htx : t.text with _ | x
        · refine Or.inr (Or.inl ⟨fun tail => by simp [parse_args_cons, hw, hb, htx], ?_⟩)
          exact fun h => h t (List.mem_cons_self _ _) hw htx
        · rcases ih r hlen hr s hs cmd (buf ++ [xstrdup x]) with h | ⟨h, hn⟩ | ⟨c, b, hbl, h⟩
          · exact Or.inl (fun tail => by simp [parse_args_cons, hw, hb, htx, h])
          · exact Or.inr (Or.inl ⟨fun tail => by simp [parse_args_cons, hw, hb, htx, h],
              not_words_have_text_cons hn⟩)
          · refine Or.inr (Or.inr ⟨c, b, ?_, fun tail => by
              simp [parse_args_cons, hw, hb, htx, h]⟩)
            simp only [List.length_append, List.length_singleton] at hbl
            omega
    · have hred : t.type = .T_IN ∨ t.type = .T_OUT ∨ t.type = .T_OUT_APP := by
        rcases hargs t (List.mem_cons_self _ _) with h | h
        · exact absurd h hw
        · exact h
      have hsw : s.type ≠ .T_WORD := fun h => hs (Or.inl h)
      rcases r with _ | ⟨nx, r2⟩
      · exact Or.inl (fun tail => by simp [parse_args_cons, hw, hred, hsw])
      · by_cases hnw : nx.type = .T_WORD
        · have hr2 : ∀ u ∈ r2, is_arg u := fun u hu => hr u (List.mem_cons_of_mem _ hu)
          have hlen2 : r2.length ≤ n := by
            simp only [List.length_cons] at hlen
            omega
          rcases htx : nx.text with _ | x
          · refine Or.inr (Or.inl ⟨fun tail => by
              simp [parse_args_cons, hw, hred, hnw, htx], ?_⟩)
            exact fun h => h nx (List.mem_cons_of_mem _ (List.mem_cons_self _ _)) hnw htx
          · by_cases hin : t.type = .T_IN
            · rcases ih r2 hlen2 hr2 s hs { cmd with in_file := some (xstrdup x) } buf
                with h | ⟨h, hn⟩ | ⟨c, b, hbl, h⟩
              · exact Or.inl (fun tail => by
                  rw [List.cons_append, parse_args_cons, if_neg hw, if_pos hred]
                  simp [hnw, htx, hin, h])
              · exact Or.inr (Or.inl ⟨fun tail => by
                  rw [List.cons_append, parse_args_cons, if_neg hw, if_pos hred]
                  simp [hnw, htx, hin, h],
                  not_words_have_text_cons (not_words_have_text_cons hn)⟩)
              · exact Or.inr (Or.inr ⟨c, b, hbl, fun tail => by
                  rw [List.cons_append, parse_args_cons, if_neg hw, if_pos hred]
                  simp [hnw, htx, hin, h]⟩)
            · rcases ih r2 hlen2 hr2 s hs
                { cmd with out_file := some (xstrdup x),
                           append := decide (t.type = .T_OUT_APP) } buf
                with h | ⟨h, hn⟩ | ⟨c, b, hbl, h⟩
              · exact Or.inl (fun tail => by
                  rw [List.cons_append, parse_args_cons, if_neg hw, if_pos hred]
                  simp [hnw, htx, hin, h])
              · exact Or.inr (Or.inl ⟨fun tail => by
                  rw [List.cons_append, parse_args_cons, if_neg hw, if_pos hred]
                  simp [hnw, htx, hin, h],
                  not_words_have_text_cons (not_words_have_text_cons hn)⟩)
              · exact Or.inr (Or.inr ⟨c, b, hbl, fun tail => by
                  rw [List.cons_append, parse_args_cons, if_neg hw, if_pos hred]
                  simp [hnw, htx, hin, h]⟩)
        · exact Or.inl (fun tail => by simp [parse_args_cons, hw, hred, hnw])

/-- A list of tokens is a run of words and redirections, or such a run, a
separator, and a rest. -/
theorem split_first_sep (l : List Token) :
    (∀ t ∈ l, is_arg t) ∨
    ∃ args s r, l = args ++ s :: r ∧ (∀ t ∈ args, is_arg t) ∧ ¬ is_arg s := by
  induction l with
  | nil => exact Or.inl (by simp)
  | cons t l ih =>
    by_cases ht : is_arg t
    · rcases ih with h | ⟨args, s, r, rfl, ha, hs⟩
      · exact Or.inl (by simpa [ht] using h)
      · exact Or.inr ⟨t :: args, s, r, rfl, by simpa [ht] using ha, hs⟩
    · exact Or.inr ⟨[], t, l, rfl, by simp, ht⟩

theorem head_not_end (args : List Token) (hargs : ∀ t ∈ args, is_arg t) (s : Token)
    (hs : s.type ≠ .T_END) (tail : List Token) :
    ∃ tk r, args ++ s :: tail = tk :: r ∧ tk.type ≠ .T_END := by
  rcases args with _ | ⟨t, r⟩
  · exact ⟨s, tail, rfl, hs⟩
  · refine ⟨t, r ++ s :: tail, rfl, ?_⟩
    rcases hargs t (List.mem_cons_self _ _) with h | h | h | h <;> simp [h]

/-- The body of the main loop of `parse_pipeline` at a token that is not `T_END`. -/
theorem parse_loop_cons (g : Nat) (tk : Token) (r : List Token) (pl : Pipeline)
    (hne : tk.type ≠ .T_END) :
    parse_loop (g + 1) (tk :: r) pl =
      if pl.cmds.length ≥ MAX_CMDS then .error
      else
        match parse_args (tk :: r) empty_command [] with
        | .error => .error
        | .out_of_range => .out_of_range
        | .null_text => .null_text
        | .done cmd argv_buf rest =>
          if argv_buf.length = 0 then .error
          else
            match rest with
            | [] => .out_of_range
            | t :: rest2 =>
              if t.type = .T_PIPE then
                parse_loop g rest2 { pl with cmds := pl.cmds ++ [{ cmd with argv := argv_buf }] }
              else if t.type = .T_AMP then
                parse_finish
                  { cmds := pl.cmds ++ [{ cmd with argv := argv_buf }], background := true } rest2
              else if t.type = .T_END then
                parse_finish { pl with cmds := pl.cmds ++ [{ cmd with argv := argv_buf }] } rest
              else parse_loop g rest pl := by
  simp only [parse_loop, hne, if_false]

theorem not_wf_append_left {a : List Token} (b : List Token) (h : ¬ words_have_text a) :
    ¬ words_have_text (a ++ b) :=
  fun hw => h (fun u hu => hw u (List.mem_append_left _ hu))

theorem not_wf_append_right (a : List Token) {b : List Token} (h : ¬ words_have_text b) :
    ¬ words_have_text (a ++ b) :=
  fun hw => h (fun u hu => hw u (List.mem_append_right _ hu))

/-- The body of the main loop at a run of words and redirections that a separator
other than `T_END` follows. -/
theorem parse_loop_seg (args : List Token) (hargs : ∀ t ∈ args, is_arg t) (s : Token)
    (hse : s.type ≠ .T_END) (pl : Pipeline) (tail : List Token) (g : Nat) :
    parse_loop (g + 1) (args ++ s :: tail) pl =
      if pl.cmds.length ≥ MAX_CMDS then .error
      else
        match parse_args (args ++ s :: tail) empty_command [] with
        | .error => .error
        | .out_of_range => .out_of_range
        | .null_text => .null_text
        | .done cmd argv_buf rest =>
          if argv_buf.length = 0 then .error
          else
            match rest with
            | [] => .out_of_range
            | t :: rest2 =>
              if t.type = .T_PIPE then
                parse_loop g rest2 { pl with cmds := pl.cmds ++ [{ cmd with argv := argv_buf }] }
              else if t.type = .T_AMP then
                parse_finish
                  { cmds := pl.cmds ++ [{ cmd with argv := argv_buf }], background := true } rest2
              else if t.type = .T_END then
                parse_finish { pl with cmds := pl.cmds ++ [{ cmd with argv := argv_buf }] } rest
              else parse_loop g rest pl := by
  obtain ⟨tk, r, heq, hne⟩ := head_not_end args hargs s hse tail
  rw [heq]
  exact parse_loop_cons g tk r pl hne

/-- One pass of the main loop over a run of words and redirections that a `T_PIPE`
follows. -/
theorem parse_loop_seg_pipe (args : List Token) (hargs : ∀ t ∈ args, is_arg t) (s : Token)
    (hs : s.type = .T_PIPE) (pl : Pipeline) :
    (∀ tail g, parse_loop (g + 1) (args ++ s :: tail) pl = .error) ∨
    ((∀ tail g, parse_loop (g + 1) (args ++ s :: tail) pl = .null_text)
      ∧ ¬ words_have_text args) ∨
    (∃ pl2, ∀ tail g, parse_loop (g + 1) (args ++ s :: tail) pl = parse_loop g tail pl2) := by
  have hsa : ¬ is_arg s := by simp [is_arg, hs]
  have hse : s.type ≠ .T_END := by simp [hs]
  have hunf := parse_loop_seg args hargs s hse pl
  by_cases hn : pl.cmds.length ≥ MAX_CMDS
  · exact Or.inl (fun tail g => by rw [hunf, if_pos hn])
  rcases parse_args_seg args.length args (le_refl _) hargs s hsa empty_command []
    with h | ⟨h, hw⟩ | ⟨c, b, _, h⟩
  · exact Or.inl (fun tail g => by rw [hunf, if_neg hn, h])
  · exact Or.inr (Or.inl ⟨fun tail g => by rw [hunf, if_neg hn, h], hw⟩)
  · by_cases hb : b.length = 0
    · exact Or.inl (fun tail g => by rw [hunf, if_neg hn, h]; simp [hb])
    · exact Or.inr (Or.inr ⟨{ pl with cmds := pl.cmds ++ [{ c with argv := b }] },
        fun tail g => by
          rw [hunf, if_neg hn, h]
          simp only [hb, if_false, hs, if_true]⟩)

theorem skip_to_end_some (rest : List Token) (e : Token) (he : e.type = .T_END)
    (x : List Token) : ∃ r, skip_to_end (rest ++ e :: x) = some r := by
  induction rest with
  | nil => exact ⟨e :: x, by simp [skip_to_end, he]⟩
  | cons t rest ih =>
    by_cases ht : t.type = .T_END
    · exact ⟨t :: (rest ++ e :: x), by simp [skip_to_end, ht]⟩
    · obtain ⟨r, hr⟩ := ih
      exact ⟨r, by simp [skip_to_end, ht, hr]⟩

/-- One pass of the main loop over a run of words and redirections that a `T_AMP`
follows: the result does not depend on the tokens after the `T_AMP`, as long as a
`T_END` is among them. -/
theorem parse_loop_seg_amp (args : List Token) (hargs : ∀ t ∈ args, is_arg t) (s : Token)
    (hs : s.type = .T_AMP) (pl : Pipeline) :
    ∃ res, (∀ pl2, res = .ok pl2 → pl2.background = true) ∧
      (res ≠ .out_of_fuel ∧ res ≠ .out_of_range) ∧
      ∀ tail g, (∃ r, skip_to_end tail = some r) →
        parse_loop (g + 1) (args ++ s :: tail) pl = res := by
  have hsa : ¬ is_arg s := by simp [is_arg, hs]
  have hse : s.type ≠ .T_END := by simp [hs]
  have hunf := parse_loop_seg args hargs s hse pl
  by_cases hn : pl.cmds.length ≥ MAX_CMDS
  · exact ⟨.error, by simp, by simp, fun tail g _ => by rw [hunf, if_pos hn]⟩
  rcases parse_args_seg args.length args (le_refl _) hargs s hsa empty_command []
    with h | ⟨h, _⟩ | ⟨c, b, _, h⟩
  · exact ⟨.error, by simp, by simp, fun tail g _ => by rw [hunf, if_neg hn, h]⟩
  · exact ⟨.null_text, by simp, by simp, fun tail g _ => by rw [hunf, if_neg hn, h]⟩
  · by_cases hb : b.length = 0
    · exact ⟨.error, by simp, by simp, fun tail g _ => by rw [hunf, if_neg hn, h]; simp [hb]⟩
    · refine ⟨.ok { cmds := pl.cmds ++ [{ c with argv := b }], background := true }, ?_,
        by simp, ?_⟩
      · intro pl2 h2
        simp only [ParseResult.ok.injEq] at h2
        rw [← h2]
      · intro tail g ⟨r, hr⟩
        rw [hunf, if_neg hn, h]
        simp [hb, hs, parse_finish, hr]

/-- The main loop over tokens without `T_AMP` and `T_END`: it fails whatever
follows, or it gets to the start of the last run of words and redirections. -/
theorem parse_loop_piped : ∀ (n : Nat) (pre : List Token), pre.length ≤ n →
    (∀ t ∈ pre, t.type ≠ .T_AMP ∧ t.type ≠ .T_END) → ∀ (pl : Pipeline),
    (∀ tail f, pre.length < f → parse_loop f (pre ++ tail) pl = .error) ∨
    ((∀ tail f, pre.length < f → parse_loop f (pre ++ tail) pl = .null_text)
      ∧ ¬ words_have_text pre) ∨
    (∃ a1 a2 pl2 k, pre = a1 ++ a2 ∧ (∀ t ∈ a2, is_arg t) ∧ k ≤ a1.length ∧
      ∀ tail f, pre.length < f →
        parse_loop f (pre ++ tail) pl = parse_loop (f - k) (a2 ++ tail) pl2) := by
  intro n
  induction n with
  | zero =>
    intro pre hlen _ pl
    have : pre = [] := List.length_eq_zero.mp (Nat.le_zero.mp hlen)
    subst this
    exact Or.inr (Or.inr ⟨[], [], pl, 0, rfl, by simp, le_refl _, fun tail f _ => rfl⟩)
  | succ n ih =>
    intro pre hlen hpre pl
    rcases split_first_sep pre with hall | ⟨args, s, r, rfl, hargs, hs⟩
    · exact Or.inr (Or.inr ⟨[], pre, pl, 0, rfl, hall, le_refl _, fun tail f _ => rfl⟩)
    have hsp : s.type = .T_PIPE := by
      have := hpre s (by simp)
      rcases not_is_arg hs with h | h | h
      · exact h
      · exact absurd h this.1
      · exact absurd h this.2
    have hr : ∀ t ∈ r, t.type ≠ .T_AMP ∧ t.type ≠ .T_END := fun t ht => hpre t (by simp [ht])
    have hrl : r.length ≤ n := by
      simp only [List.length_append, List.length_cons] at hlen
      omega
    have hassoc : ∀ tail, (args ++ s :: r) ++ tail = args ++ s :: (r ++ tail) := by
      intro tail; simp
    have hfuel : ∀ f, (args ++ s :: r).length < f → ∃ g, f = g + 1 ∧ r.length < g := by
      intro f hf
      simp only [List.length_append, List.length_cons] at hf
      exact ⟨f - 1, by omega, by omega⟩
    rcases parse_loop_seg_pipe args hargs s hsp pl with h | ⟨h, hw⟩ | ⟨pl2, h⟩
    · refine Or.inl (fun tail f hf => ?_)
      obtain ⟨g, rfl, _⟩ := hfuel f hf
      rw [hassoc, h]
    · refine Or.inr (Or.inl ⟨fun tail f hf => ?_, not_wf_append_left _ hw⟩)
      obtain ⟨g, rfl, _⟩ := hfuel f hf
      rw [hassoc, h]
    · rcases ih r hrl hr pl2 with h2 | ⟨h2, hw⟩ | ⟨a1, a2, pl3, k, rfl, ha2, hk, h2⟩
      · refine Or.inl (fun tail f hf => ?_)
        obtain ⟨g, rfl, hg⟩ := hfuel f hf
        rw [hassoc, h, h2 tail g hg]
      · refine Or.inr (Or.inl ⟨fun tail f hf => ?_, ?_⟩)
        · obtain ⟨g, rfl, hg⟩ := hfuel f hf
          rw [hassoc, h, h2 tail g hg]
        · exact not_wf_append_right _ (not_words_have_text_cons hw)
      · refine Or.inr (Or.inr ⟨args ++ s :: a1, a2, pl3, k + 1, by simp, ha2, by simp; omega,
          fun tail f hf => ?_⟩)
        obtain ⟨g, rfl, hg⟩ := hfuel f hf
        rw [hassoc, h, h2 tail g hg]
        congr 1
        omega

/-! ## Background marker, pipes and redirection operators -/

/-- C3: the tokens after the background marker are discarded: with no `T_AMP` and no
`T_END` in `pre`, the parser comes to the same result on `pre`, `T_AMP`, `rest`,
`T_END` as on `pre`, `T_AMP`, `T_END` (whatever `rest` holds); the run ends without
reading past the tokens; every pipeline it succeeds with has `background` set; and
the line `cmd &` is parsed to the one command `cmd` in the background. -/
theorem background_discards_rest (pre rest : List Token) (b e : Token)
    (hb : b.type = .T_AMP) (he : e.type = .T_END)
    (hpre : ∀ t ∈ pre, t.type ≠ .T_AMP ∧ t.type ≠ .T_END) :
    parse_pipeline (pre ++ [b] ++ rest ++ [e]) = parse_pipeline (pre ++ [b, e]) ∧
    (parse_pipeline (pre ++ [b] ++ rest ++ [e]) ≠ .out_of_fuel ∧
      parse_pipeline (pre ++ [b] ++ rest ++ [e]) ≠ .out_of_range) ∧
    (∀ pl, parse_pipeline (pre ++ [b] ++ rest ++ [e]) = .ok pl → pl.background = true) ∧
    parse_line ['c', 'm', 'd', ' ', '&']
      = .ok { cmds := [simple_command [['c', 'm', 'd']]], background := true } := by
  have h1 : pre ++ [b] ++ rest ++ [e] = pre ++ b :: (rest ++ [e]) := by simp
  have h2 : pre ++ [b, e] = pre ++ b :: ([] ++ [e]) := by simp
  have hs1 := skip_to_end_some rest e he []
  have hs2 := skip_to_end_some [] e he []
  have hf1 : pre.length < (pre ++ b :: (rest ++ [e])).length + 1 := by simp; omega
  have hf2 : pre.length < (pre ++ b :: ([] ++ [e])).length + 1 := by simp; omega
  refine ⟨?_, ?_, ?_, by decide⟩
  · rw [h1, h2]
    unfold parse_pipeline
    rcases parse_loop_piped pre.length pre (le_refl _) hpre { cmds := [], background := false }
      with h | ⟨h, _⟩ | ⟨a1, a2, pl2, k, hsplit, ha2, hk, h⟩
    · rw [h _ _ hf1, h _ _ hf2]
    · rw [h _ _ hf1, h _ _ hf2]
    · obtain ⟨res, _, _, hres⟩ := parse_loop_seg_amp a2 ha2 b hb pl2
      have hlen : pre.length = a1.length + a2.length := by rw [hsplit]; simp
      rw [h _ _ hf1, h _ _ hf2]
      obtain ⟨g1, hg1⟩ : ∃ g, (pre ++ b :: (rest ++ [e])).length + 1 - k = g + 1 :=
        ⟨(pre ++ b :: (rest ++ [e])).length - k, by simp; omega⟩
      obtain ⟨g2, hg2⟩ : ∃ g, (pre ++ b :: ([] ++ [e])).length + 1 - k = g + 1 :=
        ⟨(pre ++ b :: ([] ++ [e])).length - k, by simp; omega⟩
      rw [hg1, hg2, hres _ g1 hs1, hres _ g2 hs2]
  · rw [h1]
    unfold parse_pipeline
    rcases parse_loop_piped pre.length pre (le_refl _) hpre { cmds := [], background := false }
      with h | ⟨h, _⟩ | ⟨a1, a2, pl2, k, hsplit, ha2, hk, h⟩
    · rw [h _ _ hf1]
      simp
    · rw [h _ _ hf1]
      simp
    · obtain ⟨res, _, hne, hres⟩ := parse_loop_seg_amp a2 ha2 b hb pl2
      have hlen : pre.length = a1.length + a2.length := by rw [hsplit]; simp
      obtain ⟨g1, hg1⟩ : ∃ g, (pre ++ b :: (rest ++ [e])).length + 1 - k = g + 1 :=
        ⟨(pre ++ b :: (rest ++ [e])).length - k, by simp; omega⟩
      rw [h _ _ hf1, hg1, hres _ g1 hs1]
      exact hne
  · intro pl hpl
    rw [h1] at hpl
    unfold parse_pipeline at hpl
    rcases parse_loop_piped pre.length pre (le_refl _) hpre { cmds := [], background := false }
      with h | ⟨h, _⟩ | ⟨a1, a2, pl2, k, hsplit, ha2, hk, h⟩
    · rw [h _ _ hf1] at hpl
      exact absurd hpl (by simp)
    · rw [h _ _ hf1] at hpl
      exact absurd hpl (by simp)
    · obtain ⟨res, hbg, _, hres⟩ := parse_loop_seg_amp a2 ha2 b hb pl2
      have hlen : pre.length = a1.length + a2.length := by rw [hsplit]; simp
      obtain ⟨g1, hg1⟩ : ∃ g, (pre ++ b :: (rest ++ [e])).length + 1 - k = g + 1 :=
        ⟨(pre ++ b :: (rest ++ [e])).length - k, by simp; omega⟩
      rw [h _ _ hf1, hg1, hres _ g1 hs1] at hpl
      exact hbg pl hpl

theorem background_discards_rest_witness :
    parse_pipeline ([word_tok ['a']] ++ [op_tok .T_AMP] ++ [word_tok ['b']] ++ [op_tok .T_END])
      = parse_pipeline ([word_tok ['a']] ++ [op_tok .T_AMP, op_tok .T_END]) ∧
    (parse_pipeline ([word_tok ['a']] ++ [op_tok .T_AMP] ++ [word_tok ['b']] ++ [op_tok .T_END])
        ≠ .out_of_fuel ∧
      parse_pipeline ([word_tok ['a']] ++ [op_tok .T_AMP] ++ [word_tok ['b']] ++ [op_tok .T_END])
        ≠ .out_of_range) ∧
    (∀ pl, parse_pipeline
        ([word_tok ['a']] ++ [op_tok .T_AMP] ++ [word_tok ['b']] ++ [op_tok .T_END]) = .ok pl →
      pl.background = true) ∧
    parse_line ['c', 'm', 'd', ' ', '&']
      = .ok { cmds := [simple_command [['c', 'm', 'd']]], background := true } :=
  background_discards_rest [word_tok ['a']] [word_tok ['b']] (op_tok .T_AMP) (op_tok .T_END)
    rfl rfl (by decide)

/-- C4, evaluated on the line `a |`: the parser succeeds with the one command `a`. -/
theorem trailing_pipe_accepted :
    tokenize ['a', ' ', '|'] = some [word_tok ['a'], op_tok .T_PIPE, op_tok .T_END] ∧
    parse_pipeline [word_tok ['a'], op_tok .T_PIPE, op_tok .T_END]
      = .ok { cmds := [simple_command [['a']]], background := false } ∧
    parse_line ['a', ' ', '|']
      = .ok { cmds := [simple_command [['a']]], background := false } := by
  decide

/-- The main loop at a `T_PIPE` or a `T_AMP` where a command should start. -/
theorem parse_loop_sep_head (g : Nat) (p : Token) (r : List Token) (pl : Pipeline)
    (hp : p.type = .T_PIPE ∨ p.type = .T_AMP) : parse_loop (g + 1) (p :: r) pl = .error := by
  have hne : p.type ≠ .T_END := by rcases hp with h | h <;> simp [h]
  rw [parse_loop_cons g p r pl hne]
  rw [parse_args_sep p r _ _ (by rcases hp with h | h <;> simp [h])]
  simp

theorem words_have_text_append_left {a b : List Token} (h : words_have_text (a ++ b)) :
    words_have_text a :=
  fun t ht => h t (List.mem_append_left _ ht)

/-- The parser fails when, before any `T_AMP` and `T_END`, a `T_PIPE` follows a
`T_PIPE`. -/
theorem parse_loop_pipe_pipe (a : List Token) (p q : Token) (r : List Token) (pl : Pipeline)
    (f : Nat) (ha : ∀ t ∈ a, t.type ≠ .T_AMP ∧ t.type ≠ .T_END) (hwf : words_have_text a)
    (hp : p.type = .T_PIPE) (hq : q.type = .T_PIPE) (hf : a.length + 1 < f) :
    parse_loop f (a ++ p :: q :: r) pl = .error := by
  have hsplit : a ++ p :: q :: r = (a ++ [p]) ++ q :: r := by simp
  have hpre : ∀ t ∈ a ++ [p], t.type ≠ .T_AMP ∧ t.type ≠ .T_END := by
    intro t ht
    rcases List.mem_append.mp ht with h | h
    · exact ha t h
    · simp only [List.mem_singleton] at h
      subst h
      simp [hp]
  have hwf2 : words_have_text (a ++ [p]) := by
    intro t ht
    rcases List.mem_append.mp ht with h | h
    · exact hwf t h
    · simp only [List.mem_singleton] at h
      subst h
      simp [hp]
  have hf2 : (a ++ [p]).length < f := by simpa using hf
  rw [hsplit]
  rcases parse_loop_piped _ (a ++ [p]) (le_refl _) hpre pl
    with h | ⟨_, hn⟩ | ⟨a1, a2, pl2, k, hs, ha2, hk, h⟩
  · exact h _ f hf2
  · exact absurd hwf2 hn
  · have hnil : a2 = [] := by
      rcases List.eq_nil_or_concat a2 with h0 | ⟨l, x, rfl⟩
      · exact h0
      · have hx : x = p := by
          rw [List.concat_eq_append, ← List.append_assoc] at hs
          have := List.append_inj_right' hs rfl
          simp only [List.cons.injEq, and_true] at this
          exact this.symm
        have := ha2 x (by simp)
        rw [hx] at this
        simp [is_arg, hp] at this
    subst hnil
    have hlen : (a ++ [p]).length = a1.length := by rw [hs]; simp
    rw [h _ f hf2]
    obtain ⟨g, hg⟩ : ∃ g, f - k = g + 1 := ⟨f - k - 1, by omega⟩
    rw [hg, List.nil_append]
    exact parse_loop_sep_head g q r pl2 (Or.inl hq)

/-- C5: a pipe with no command on its left is a syntax error: on a token sequence
`tl` closed by its one `T_END` token `e` (word tokens carrying their text) whose first
token is a `T_PIPE`, or in which a `T_PIPE` with no `T_AMP` before it is directly
followed by a `T_PIPE`, the parser returns false; so it does on the line `| a`. The
proof does not look at `e`, so the closing token is left free. -/
theorem pipe_without_left_fails (tl : List Token) (e : Token)
    (hend : ∀ t ∈ tl, t.type ≠ .T_END) (hwf : words_have_text tl)
    (h : (∃ p r, tl = p :: r ∧ p.type = .T_PIPE) ∨
      (∃ a p q r, tl = a ++ p :: q :: r ∧ p.type = .T_PIPE ∧ q.type = .T_PIPE ∧
        ∀ t ∈ a, t.type ≠ .T_AMP)) :
    parse_pipeline (tl ++ [e]) = .error ∧ parse_line ['|', ' ', 'a'] = .error := by
  refine ⟨?_, by decide⟩
  unfold parse_pipeline
  rcases h with ⟨p, r, rfl, hp⟩ | ⟨a, p, q, r, rfl, hp, hq, ha⟩
  · exact parse_loop_sep_head _ p (r ++ [e]) _ (Or.inl hp)
  · have hsplit : a ++ p :: q :: r ++ [e] = a ++ p :: q :: (r ++ [e]) := by simp
    rw [hsplit]
    exact parse_loop_pipe_pipe a p q (r ++ [e]) _ _
      (fun t ht => ⟨ha t ht, hend t (List.mem_append_left _ ht)⟩)
      (words_have_text_append_left hwf) hp hq (by simp)

theorem pipe_without_left_fails_witness :
    parse_pipeline ([word_tok ['a'], op_tok .T_PIPE, op_tok .T_PIPE, word_tok ['b']]
      ++ [op_tok .T_END]) = .error ∧ parse_line ['|', ' ', 'a'] = .error :=
  pipe_without_left_fails [word_tok ['a'], op_tok .T_PIPE, op_tok .T_PIPE, word_tok ['b']]
    (op_tok .T_END) (by decide) (by decide)
    (Or.inr ⟨[word_tok ['a']], op_tok .T_PIPE, op_tok .T_PIPE, [word_tok ['b']], rfl, rfl, rfl,
      by decide⟩)

/-- The inner loop fails on a run of words and redirections in front of a redirection
operator that no word follows. -/
theorem parse_args_dangling : ∀ (n : Nat) (a : List Token), a.length ≤ n →
    (∀ t ∈ a, is_arg t) → words_have_text a → ∀ (r x : Token) (b : List Token),
    is_redir r → x.type ≠ .T_WORD → ∀ (cmd : Command) (buf : List (List Char)),
    parse_args (a ++ r :: x :: b) cmd buf = .error := by
  intro n
  induction n with
  | zero =>
    intro a hlen _ _ r x b hr hx cmd buf
    have : a = [] := List.length_eq_zero.mp (Nat.le_zero.mp hlen)
    subst this
    have hrw : r.type ≠ .T_WORD := by rcases hr with h | h | h <;> simp [h]
    have hr2 : r.type = .T_IN ∨ r.type = .T_OUT ∨ r.type = .T_OUT_APP := hr
    rw [List.nil_append, parse_args_cons, if_neg hrw, if_pos hr2]
    simp [hx]
  | succ n ih =>
    intro a hlen ha hwf r x b hr hx cmd buf
    have hrw : r.type ≠ .T_WORD := by rcases hr with h | h | h <;> simp [h]
    have hr2 : r.type = .T_IN ∨ r.type = .T_OUT ∨ r.type = .T_OUT_APP := hr
    rcases a with _ | ⟨t, a⟩
    · rw [List.nil_append, parse_args_cons, if_neg hrw, if_pos hr2]
      simp [hx]
    have ha2 : ∀ u ∈ a, is_arg u := fun u hu => ha u (List.mem_cons_of_mem _ hu)
    have hwf2 : words_have_text a := fun u hu => hwf u (List.mem_cons_of_mem _ hu)
    simp only [List.length_cons, Nat.add_le_add_iff_right] at hlen
    rw [List.cons_append, parse_args_cons]
    by_cases hw : t.type = .T_WORD
    · rw [if_pos hw]
      by_cases hb : buf.length ≥ 255
      · rw [if_pos hb]
      · rw [if_neg hb]
        rcases htx : t.text with _ | s
        · exact absurd htx (hwf t (List.mem_cons_self _ _) hw)
        · exact ih a hlen ha2 hwf2 r x b hr hx cmd _
    · have hred : t.type = .T_IN ∨ t.type = .T_OUT ∨ t.type = .T_OUT_APP := by
        rcases ha t (List.mem_cons_self _ _) with h | h
        · exact absurd h hw
        · exact h
      rw [if_neg hw, if_pos hred]
      rcases a with _ | ⟨nx, a⟩
      · simp [hrw]
      · have ha3 : ∀ u ∈ a, is_arg u := fun u hu => ha2 u (List.mem_cons_of_mem _ hu)
        have hwf3 : words_have_text a := fun u hu => hwf2 u (List.mem_cons_of_mem _ hu)
        have hlen3 : a.length ≤ n := by
          simp only [List.length_cons] at hlen
          omega
        by_cases hnw : nx.type = .T_WORD
        · rcases htx : nx.text with _ | s
          · exact absurd htx (hwf2 nx (List.mem_cons_self _ _) hnw)
          · by_cases hin : t.type = .T_IN
            · simp only [List.cons_append, hnw, ne_eq, not_true_eq_false, if_false, hin,
                if_true, htx]
              exact ih a hlen3 ha3 hwf3 r x b hr hx _ _
            · simp only [List.cons_append, hnw, ne_eq, not_true_eq_false, if_false, hin, htx]
              exact ih a hlen3 ha3 hwf3 r x b hr hx _ _
        · simp [hnw]

/-- The parser fails when, before any `T_AMP` and `T_END`, a redirection operator is
not followed by a word. -/
theorem parse_loop_dangling (a : List Token) (r x : Token) (b : List Token) (pl : Pipeline)
    (f : Nat) (ha : ∀ t ∈ a, t.type ≠ .T_AMP ∧ t.type ≠ .T_END) (hwf : words_have_text a)
    (hr : is_redir r) (hx : x.type ≠ .T_WORD) (hf : a.length < f) :
    parse_loop f (a ++ r :: x :: b) pl = .error := by
  rcases parse_loop_piped _ a (le_refl _) ha pl
    with h | ⟨_, hn⟩ | ⟨a1, a2, pl2, k, hs, ha2, hk, h⟩
  · exact h _ f hf
  · exact absurd hwf hn
  · have hlen : a.length = a1.length + a2.length := by rw [hs]; simp
    have hwf2 : words_have_text a2 := fun t ht => hwf t (by rw [hs]; simp [ht])
    rw [h _ f hf]
    obtain ⟨g, hg⟩ : ∃ g, f - k = g + 1 := ⟨f - k - 1, by omega⟩
    rw [hg]
    have hra : is_arg r := Or.inr hr
    obtain ⟨tk, rr, heq, hne⟩ : ∃ tk rr, a2 ++ r :: x :: b = tk :: rr ∧ tk.type ≠ .T_END := by
      rcases a2 with _ | ⟨t, a2⟩
      · exact ⟨r, x :: b, rfl, by rcases hr with h | h | h <;> simp [h]⟩
      · refine ⟨t, a2 ++ r :: x :: b, rfl, ?_⟩
        rcases ha2 t (List.mem_cons_self _ _) with h | h | h | h <;> simp [h]
    have hargs := parse_args_dangling _ a2 (le_refl _) ha2 hwf2 r x b hr hx empty_command []
    rw [heq] at hargs ⊢
    rw [parse_loop_cons g tk rr pl2 hne, hargs]
    simp

/-- C6: a dangling redirection is a syntax error: on a token sequence `tl` closed by
its one `T_END` token `e` (word tokens carrying their text) in which a `T_IN`, `T_OUT`
or `T_OUT_APP` with no `T_AMP` before it is directly followed by a token that is not a
word (the closing token included), the parser returns false; so it does on the line
`a >`. The proof does not look at the type of `e`, so the closing token is left free. -/
theorem dangling_redirection_fails (tl : List Token) (e : Token)
    (hend : ∀ t ∈ tl, t.type ≠ .T_END) (hwf : words_have_text tl)
    (h : ∃ a r x b, tl ++ [e] = a ++ r :: x :: b ∧ is_redir r ∧ x.type ≠ .T_WORD ∧
      ∀ t ∈ a, t.type ≠ .T_AMP) :
    parse_pipeline (tl ++ [e]) = .error ∧ parse_line ['a', ' ', '>'] = .error := by
  refine ⟨?_, by decide⟩
  obtain ⟨a, r, x, b, heq, hr, hx, ha⟩ := h
  have hlen : tl.length + 1 = a.length + (b.length + 1 + 1) := by
    have := congrArg List.length heq
    simpa using this
  have hpre : a = tl.take a.length := by
    have h1 := congrArg (List.take a.length) heq
    rw [List.take_append_of_le_length (by omega), List.take_left'] at h1
    · exact h1.symm
    · rfl
  have hmem : ∀ t ∈ a, t ∈ tl := fun t ht => by
    rw [hpre] at ht
    exact List.mem_of_mem_take ht
  unfold parse_pipeline
  rw [heq]
  exact parse_loop_dangling a r x b _ _ (fun t ht => ⟨ha t ht, hend t (hmem t ht)⟩)
    (fun t ht => hwf t (hmem t ht)) hr hx (by rw [← heq]; simp; omega)

theorem dangling_redirection_fails_witness :
    parse_pipeline ([word_tok ['a'], op_tok .T_OUT] ++ [op_tok .T_END]) = .error ∧
    parse_line ['a', ' ', '>'] = .error :=
  dangling_redirection_fails [word_tok ['a'], op_tok .T_OUT] (op_tok .T_END) (by decide)
    (by decide) ⟨[word_tok ['a']], op_tok .T_OUT, op_tok .T_END, [], rfl, by decide, by decide,
      by decide⟩

/-! ## Bounds of a parsed pipeline, and the full token list -/

theorem parse_finish_ok {pl0 pl : Pipeline} {items : List Token}
    (h : parse_finish pl0 items = .ok pl) : pl = pl0 ∧ 1 ≤ pl0.cmds.length := by
  unfold parse_finish at h
  split at h
  · split at h
    · exact absurd h (by simp)
    · split at h
      · simp only [ParseResult.ok.injEq] at h
        exact ⟨h.symm, by omega⟩
      · exact absurd h (by simp)
  · split at h
    · simp only [ParseResult.ok.injEq] at h
      exact ⟨h.symm, by omega⟩
    · exact absurd h (by simp)

theorem pipeline_ok_push {pl0 : Pipeline} (h0 : pipeline_ok pl0) (hn : pl0.cmds.length < 64)
    (cmd : Command) (hc : 1 ≤ cmd.argv.length) (bg : Bool) :
    pipeline_ok { cmds := pl0.cmds ++ [cmd], background := bg } := by
  refine ⟨by simp only [List.length_append, List.length_singleton]; omega, ?_⟩
  intro c hcm
  rcases List.mem_append.mp hcm with h | h
  · exact h0.2 c h
  · simp only [List.mem_singleton] at h
    rw [h]
    exact hc

/-- The main loop keeps `pipeline_ok` and succeeds with at least one command. -/
theorem parse_loop_ok : ∀ (f : Nat) (items : List Token) (pl0 pl : Pipeline),
    pipeline_ok pl0 → parse_loop f items pl0 = .ok pl →
    1 ≤ pl.cmds.length ∧ pipeline_ok pl := by
  intro f
  induction f with
  | zero => intro items pl0 pl _ h; simp [parse_loop] at h
  | succ f ih =>
    intro items pl0 pl h0 h
    rcases items with _ | ⟨tk, r⟩
    · simp [parse_loop] at h
    by_cases hend : tk.type = .T_END
    · simp only [parse_loop, hend, if_true] at h
      obtain ⟨rfl, h1⟩ := parse_finish_ok h
      exact ⟨h1, h0⟩
    rw [parse_loop_cons f tk r pl0 hend] at h
    by_cases hn : pl0.cmds.length ≥ MAX_CMDS
    · rw [if_pos hn] at h
      exact absurd h (by simp)
    rw [if_neg hn] at h
    have hn2 : pl0.cmds.length < 64 := by
      unfold MAX_CMDS at hn
      omega
    rcases hargs : parse_args (tk :: r) empty_command [] with ⟨cmd, buf, rest⟩ | _ | _ | _
    · rw [hargs] at h
      simp only at h
      by_cases hb : buf.length = 0
      · rw [if_pos hb] at h
        exact absurd h (by simp)
      rw [if_neg hb] at h
      have hok : ∀ bg, pipeline_ok
          { cmds := pl0.cmds ++ [{ cmd with argv := buf }], background := bg } :=
        fun bg => pipeline_ok_push h0 hn2 _ (by simp only; omega) bg
      rcases rest with _ | ⟨t, rest2⟩
      · exact absurd h (by simp)
      simp only at h
      by_cases hp : t.type = .T_PIPE
      · rw [if_pos hp] at h
        exact ih _ _ _ (hok _) h
      rw [if_neg hp] at h
      by_cases ha : t.type = .T_AMP
      · rw [if_pos ha] at h
        obtain ⟨rfl, h1⟩ := parse_finish_ok h
        exact ⟨h1, hok _⟩
      rw [if_neg ha] at h
      by_cases he : t.type = .T_END
      · rw [if_pos he] at h
        obtain ⟨rfl, h1⟩ := parse_finish_ok h
        exact ⟨h1, hok _⟩
      rw [if_neg he] at h
      exact ih _ _ _ h0 h
    · rw [hargs] at h
      exact absurd h (by simp)
    · rw [hargs] at h
      exact absurd h (by simp)
    · rw [hargs] at h
      exact absurd h (by simp)

/-- C8: whenever the parser succeeds, the pipeline has at least 1 and at most 64
commands, and the `argv` of each has at least one element. -/
theorem parse_ok_bounds (tl : List Token) (pl : Pipeline) (h : parse_pipeline tl = .ok pl) :
    1 ≤ pl.cmds.length ∧ pl.cmds.length ≤ 64 ∧ ∀ c ∈ pl.cmds, 1 ≤ c.argv.length := by
  have := parse_loop_ok _ tl { cmds := [], background := false } pl
    ⟨by simp, by simp⟩ h
  exact ⟨this.1, this.2.1, this.2.2⟩

theorem parse_ok_bounds_witness :
    1 ≤ (Pipeline.mk [simple_command [['a']], simple_command [['b']]] false).cmds.length ∧
    (Pipeline.mk [simple_command [['a']], simple_command [['b']]] false).cmds.length ≤ 64 ∧
    ∀ c ∈ (Pipeline.mk [simple_command [['a']], simple_command [['b']]] false).cmds,
      1 ≤ c.argv.length :=
  parse_ok_bounds [word_tok ['a'], op_tok .T_PIPE, word_tok ['b'], op_tok .T_END] _ (by decide)

theorem token_push_full {tl : TokenList} (h : tl.length = 256) (t : TokType)
    (txt : Option (List Char)) : token_push tl t txt = tl := by
  unfold token_push MAX_TOKENS
  rw [if_pos (by omega)]

/-- The main loop of the tokenizer on a run of pipe signs that fills the list. -/
theorem tokenize_loop_pipes (n : Nat) : ∀ (out : TokenList) (f : Nat), n < f →
    out.length + n = 256 →
    tokenize_loop f (List.replicate n '|') out
      = some (out ++ List.replicate n (op_tok .T_PIPE)) := by
  induction n with
  | zero =>
    intro out f hf hlen
    rcases f with _ | f
    · simp at hf
    · simp [tokenize_loop_nil, token_push_full (show out.length = 256 by omega)]
  | succ n ih =>
    intro out f hf hlen
    rcases f with _ | f
    · simp at hf
    have hstep : tokenize_loop (f + 1) ('|' :: List.replicate n '|') out
        = tokenize_loop f (List.replicate n '|') (token_push out .T_PIPE none) := by
      simp [tokenize_loop, cur, skip_space, isspace]
    rw [List.replicate_succ, hstep, token_push_lt (by omega),
      ih _ f (by omega) (by simp only [List.length_append, List.length_singleton]; omega)]
    simp [op_tok, List.replicate_succ]

/-- C7, evaluated on the line of 256 pipe signs: the token list is 256 `T_PIPE`
tokens, and no `T_END` is among them. -/
theorem tokenize_full_list_drops_end :
    tokenize (List.replicate 256 '|') = some (List.replicate 256 (op_tok .T_PIPE)) ∧
    ∀ t ∈ List.replicate 256 (op_tok .T_PIPE), t.type ≠ .T_END := by
  refine ⟨?_, ?_⟩
  · have := tokenize_loop_pipes 256 [] ((List.replicate 256 '|').length + 1)
      (by rw [List.length_replicate]; omega) rfl
    unfold tokenize
    rw [this, List.nil_append]
  · intro t ht
    rw [List.eq_of_mem_replicate ht]
    simp [op_tok]

/-- The parser on the words of one command and a `T_AMP` with no `T_END` stored after
them: the skip to `T_END` reads past the tokens. -/
theorem parse_words_amp_no_end (ws : List (List Char)) (hw : ∀ w ∈ ws, ∀ c ∈ w, c ≠ '\x00')
    (hne : ws.length ≠ 0) (hlen : ws.length ≤ 255) :
    parse_pipeline (ws.map word_tok ++ [op_tok .T_AMP]) = .out_of_range := by
  have hargs : ∀ t ∈ ws.map word_tok, is_arg t := by
    intro t ht
    obtain ⟨w, _, rfl⟩ := List.mem_map.mp ht
    exact Or.inl rfl
  unfold parse_pipeline
  rw [parse_loop_seg _ hargs (op_tok .T_AMP) (by simp [op_tok]) _ [] _,
    parse_args_words _ _ _ _ hw (by simpa using hlen),
    parse_args_sep _ _ _ _ (Or.inr (Or.inl rfl))]
  simp [MAX_CMDS, op_tok, parse_finish, skip_to_end, hne]

/-- The line of 255 words `a` and a closing `&` fills the token list, no `T_END` is
stored, and the parser, skipping to a `T_END` after the `T_AMP`, reads past the
tokens. -/
theorem missing_end_read_out_of_range :
    tokenize (join_with [' ']
        ((List.replicate 255 (word_tok ['a']) ++ [op_tok .T_AMP]).map spell))
      = some (List.replicate 255 (word_tok ['a']) ++ [op_tok .T_AMP]) ∧
    parse_pipeline (List.replicate 255 (word_tok ['a']) ++ [op_tok .T_AMP])
      = .out_of_range := by
  have hsp : ∀ t ∈ List.replicate 255 (word_tok ['a']) ++ [op_tok .T_AMP], spellable t := by
    intro t ht
    rcases List.mem_append.mp ht with h | h
    · rw [List.eq_of_mem_replicate h]
      exact Or.inl ⟨rfl, ['a'], rfl, by decide⟩
    · rw [List.mem_singleton.mp h]
      exact Or.inr ⟨by simp [op_tok], by simp [op_tok], rfl⟩
  have hlen : (List.replicate 255 (word_tok ['a']) ++ [op_tok .T_AMP]).length = 256 := by
    rw [List.length_append, List.length_replicate]
    rfl
  refine ⟨?_, ?_⟩
  · have h := tokenize_loop_spelled_push _ ((join_with [' ']
        ((List.replicate 255 (word_tok ['a']) ++ [op_tok .T_AMP]).map spell)).length + 1) []
      hsp (by rw [hlen]; simp) (by have := length_join_spell _ hsp; omega)
    unfold tokenize
    rw [h, List.nil_append, token_push_full hlen]
  · have hrep : List.replicate 255 (word_tok ['a'])
        = (List.replicate 255 ['a']).map word_tok := by
      rw [List.map_replicate]
    have hw : ∀ w ∈ List.replicate 255 ['a'], ∀ c ∈ w, c ≠ '\x00' := by
      intro w hw
      rw [List.eq_of_mem_replicate hw]
      decide
    rw [hrep]
    exact parse_words_amp_no_end _ hw (by rw [List.length_replicate]; decide)
      (by rw [List.length_replicate])

/-! ## Quoted spans -/

/-- The loop of a single-quoted span copies every character up to the closing quote. -/
theorem quoted_loop_single (s : List Char) : ∀ (tail buf : List Char),
    (∀ c ∈ s, c ≠ '\x00' ∧ c ≠ '\'') → buf.length + s.length ≤ 4095 →
    quoted_loop '\'' (s ++ tail) buf = quoted_loop '\'' tail (buf ++ s) := by
  induction s with
  | nil => intro tail buf _ _; simp
  | cons c s ih =>
    intro tail buf hs hlen
    obtain ⟨h0, h1⟩ := hs c (List.mem_cons_self _ _)
    simp only [List.length_cons] at hlen
    rw [List.cons_append, quoted_loop_cons, if_neg (by simp [h0, h1]),
      if_neg (by simp), store_lt (by omega),
      ih tail _ (fun d hd => hs d (List.mem_cons_of_mem _ hd))
        (by simp only [List.length_append, List.length_singleton]; omega)]
    simp

/-- The loop of a double-quoted span undoes `esc`. -/
theorem quoted_loop_esc (s : List Char) : ∀ (tail buf : List Char),
    (∀ c ∈ s, c ≠ '\x00') → buf.length + s.length ≤ 4095 →
    quoted_loop '"' (esc s ++ tail) buf = quoted_loop '"' tail (buf ++ s) := by
  induction s with
  | nil => intro tail buf _ _; simp [esc]
  | cons c s ih =>
    intro tail buf hs hlen
    have h0 := hs c (List.mem_cons_self _ _)
    simp only [List.length_cons] at hlen
    have hrec := ih tail (buf ++ [c]) (fun d hd => hs d (List.mem_cons_of_mem _ hd))
      (by simp only [List.length_append, List.length_singleton]; omega)
    have hst : store buf c = buf ++ [c] := store_lt (by omega) c
    by_cases hc : c = '"' ∨ c = '\\'
    · have hcur : cur (c :: (esc s ++ tail)) ≠ '\x00' := by simpa [cur] using h0
      rw [esc, if_pos hc, List.cons_append, List.cons_append, quoted_loop_cons,
        if_neg (by simp), if_pos ⟨rfl, rfl, hcur⟩]
      simp only [hst, hrec]
      simp
    · have hc1 : c ≠ '"' := fun h => hc (Or.inl h)
      have hc2 : c ≠ '\\' := fun h => hc (Or.inr h)
      rw [esc, if_neg hc, List.cons_append, quoted_loop_cons, if_neg (by simp [h0, hc1]),
        if_neg (by simp [hc2]), hst, hrec]
      simp

/-- The tokenizer on a line that is one quoted span. -/
theorem tokenize_quoted (q : Char) (hq : q = '\'' ∨ q = '"') (body s : List Char)
    (hloop : quoted_loop q (body ++ [q]) [] = (s, [q])) (hs : ∀ c ∈ s, c ≠ '\x00') :
    tokenize (q :: (body ++ [q])) = some [word_tok s, op_tok .T_END] := by
  have hlen : (q :: (body ++ [q])).length + 1 = body.length + 1 + 1 + 1 := by simp
  unfold tokenize
  rw [hlen]
  rcases hq with rfl | rfl
  · simp [tokenize_loop, cur, skip_space, isspace, word_loop, hloop, token_push, MAX_TOKENS,
      xstrdup_eq hs, word_tok, op_tok]
  · simp [tokenize_loop, cur, skip_space, isspace, word_loop, hloop, token_push, MAX_TOKENS,
      xstrdup_eq hs, word_tok, op_tok]

/-- C9: double-quote escaping round-trips: for a string `s` of at most 4095
characters without NUL, the line made of a double quote, `s` with a backslash before
every double quote and every backslash, and a closing double quote is tokenized to
exactly the word `s` followed by `T_END`. -/
theorem double_quote_roundtrip (s : List Char) (hlen : s.length ≤ 4095)
    (hs : ∀ c ∈ s, c ≠ '\x00') :
    tokenize ('"' :: (esc s ++ ['"'])) = some [word_tok s, op_tok .T_END] := by
  refine tokenize_quoted '"' (Or.inr rfl) (esc s) s ?_ hs
  rw [quoted_loop_esc s ['"'] [] hs (by simpa using hlen)]
  simp [quoted_loop_cons]

theorem double_quote_roundtrip_witness :
    tokenize ['"', 'a', '\\', '"', ' ', '|', '\\', '\\', '"']
      = some [word_tok ['a', '"', ' ', '|', '\\'], op_tok .T_END] :=
  double_quote_roundtrip ['a', '"', ' ', '|', '\\'] (by decide) (by decide)

/-- C10: single quotes are fully literal: for a string `s` of at most 4095 characters
without single quote and without NUL, the line made of a single quote, `s` and a
closing single quote is tokenized to exactly the word `s` followed by `T_END`. -/
theorem single_quote_literal (s : List Char) (hlen : s.length ≤ 4095)
    (hs : ∀ c ∈ s, c ≠ '\x00' ∧ c ≠ '\'') :
    tokenize ('\'' :: (s ++ ['\''])) = some [word_tok s, op_tok .T_END] := by
  refine tokenize_quoted '\'' (Or.inl rfl) s s ?_ (fun c hc => (hs c hc).1)
  rw [quoted_loop_single s ['\''] [] hs (by simpa using hlen)]
  simp [quoted_loop_cons]

theorem single_quote_literal_witness :
    tokenize ['\'', 'a', '\\', 'b', ' ', '"', '>', '\'']
      = some [word_tok ['a', '\\', 'b', ' ', '"', '>'], op_tok .T_END] :=
  single_quote_literal ['a', '\\', 'b', ' ', '"', '>'] (by decide) (by decide)

/-! ## The loops of the tokenizer: bounds, the body of the main loop, fuel -/

/-- The body of the word loop at a character. -/
theorem word_loop_cons (f : Nat) (c : Char) (rest buf : List Char) :
    word_loop (f + 1) (c :: rest) buf =
      if word_stop c then some (buf, c :: rest)
      else if c = '\'' ∨ c = '"' then
        word_loop f
          (if cur (quoted_loop c rest buf).2 = c then (quoted_loop c rest buf).2.tail
            else (quoted_loop c rest buf).2)
          (quoted_loop c rest buf).1
      else if c = '\\' ∧ cur rest ≠ '\x00' then
        if buf.length < 4095 then word_loop f rest.tail (buf ++ [cur rest])
        else word_loop f rest buf
      else
        if buf.length < 4095 then word_loop f rest (buf ++ [c])
        else word_loop f (c :: rest) buf := by
  simp only [word_loop, word_stop]

theorem store_length {buf : List Char} (h : buf.length ≤ 4095) (c : Char) :
    (store buf c).length ≤ 4095 := by
  unfold store
  split
  · simp only [List.length_append, List.length_singleton]
    omega
  · exact h

theorem skip_space_length (p : List Char) : (skip_space p).length ≤ p.length := by
  induction p with
  | nil => simp [skip_space]
  | cons c p ih =>
    simp only [skip_space]
    split
    · simp only [List.length_cons]
      omega
    · exact le_refl _

theorem skip_space_head (p : List Char) (c : Char) (r : List Char)
    (h : skip_space p = c :: r) : isspace c = false := by
  induction p with
  | nil => simp [skip_space] at h
  | cons d p ih =>
    simp only [skip_space] at h
    split at h
    · exact ih h
    · rename_i hd
      simp only [List.cons.injEq] at h
      rw [← h.1]
      simpa using hd

/-- The loop of a quoted span stops at or after its start and keeps the buffer within
its bound. -/
theorem quoted_loop_bounds : ∀ (n : Nat) (p : List Char), p.length ≤ n →
    ∀ (q : Char) (buf : List Char),
    (quoted_loop q p buf).2.length ≤ p.length ∧
    (buf.length ≤ 4095 → (quoted_loop q p buf).1.length ≤ 4095) := by
  intro n
  induction n with
  | zero =>
    intro p hp q buf
    have : p = [] := List.length_eq_zero.mp (Nat.le_zero.mp hp)
    subst this
    simp [quoted_loop]
  | succ n ih =>
    intro p hp q buf
    rcases p with _ | ⟨c, rest⟩
    · simp [quoted_loop]
    simp only [List.length_cons, Nat.add_le_add_iff_right] at hp
    rw [quoted_loop_cons]
    split
    · exact ⟨le_refl _, fun h => h⟩
    · split
      · rcases rest with _ | ⟨d, rest2⟩
        · exact ⟨by simp, fun h => h⟩
        · simp only [List.length_cons] at hp ⊢
          have := ih rest2 (by omega) q (store buf d)
          exact ⟨by omega, fun h => this.2 (store_length h d)⟩
      · have := ih rest hp q (store buf c)
        simp only [List.length_cons]
        exact ⟨by omega, fun h => this.2 (store_length h c)⟩

/-- The body of the main loop of `tokenize` at the first character after the
whitespace. -/
theorem tokenize_loop_at (f : Nat) (p : List Char) (out : TokenList) (c : Char)
    (rest : List Char) (h0 : cur p ≠ '\x00') (hsk : skip_space p = c :: rest) :
    tokenize_loop (f + 1) p out =
      if c = '\x00' then some (token_push out .T_END none)
      else if c = '|' then tokenize_loop f rest (token_push out .T_PIPE none)
      else if c = '&' then tokenize_loop f rest (token_push out .T_AMP none)
      else if c = '<' then tokenize_loop f rest (token_push out .T_IN none)
      else if c = '>' then
        if cur rest = '>' then tokenize_loop f rest.tail (token_push out .T_OUT_APP none)
        else tokenize_loop f rest (token_push out .T_OUT none)
      else
        match word_loop ((c :: rest).length + 1) (c :: rest) [] with
        | none => none
        | some (buf, p2) => tokenize_loop f p2 (token_push out .T_WORD (some buf)) := by
  simp only [tokenize_loop, h0, hsk, if_false]

theorem tokenize_loop_at_end (f : Nat) (p : List Char) (out : TokenList)
    (h : cur p = '\x00' ∨ skip_space p = []) :
    tokenize_loop (f + 1) p out = some (token_push out .T_END none) := by
  rcases h with h | h
  · simp only [tokenize_loop, h, if_true]
  · by_cases h0 : cur p = '\x00'
    · simp only [tokenize_loop, h0, if_true]
    · simp only [tokenize_loop, h0, h, if_false]

/-- A plain character at a full buffer: the word loop comes back to the same state, so
no fuel lets it return. -/
theorem word_loop_hangs (c : Char) (rest buf : List Char) (hstop : ¬ word_stop c)
    (hq : ¬ (c = '\'' ∨ c = '"')) (hbs : ¬ (c = '\\' ∧ cur rest ≠ '\x00'))
    (hfull : ¬ buf.length < 4095) : ∀ f, word_loop f (c :: rest) buf = none := by
  intro f
  induction f with
  | zero => rfl
  | succ f ih => rw [word_loop_cons, if_neg hstop, if_neg hq, if_neg hbs, if_neg hfull, ih]

/-- More fuel does not change what the word loop returns. -/
theorem word_loop_mono : ∀ (f : Nat) (p buf : List Char) (r : List Char × List Char),
    word_loop f p buf = some r → ∀ g, f ≤ g → word_loop g p buf = some r := by
  intro f
  induction f with
  | zero => intro p buf r h; simp [word_loop] at h
  | succ f ih =>
    intro p buf r h g hg
    obtain ⟨g, rfl⟩ : ∃ g', g = g' + 1 := ⟨g - 1, by omega⟩
    have hfg : f ≤ g := by omega
    rcases p with _ | ⟨c, rest⟩
    · simpa [word_loop] using h
    rw [word_loop_cons] at h ⊢
    split
    · rename_i hs
      rwa [if_pos hs] at h
    · rename_i hs
      rw [if_neg hs] at h
      split
      · rename_i hq
        rw [if_pos hq] at h
        exact ih _ _ _ h g hfg
      · rename_i hq
        rw [if_neg hq] at h
        split
        · rename_i hb
          rw [if_pos hb] at h
          split
          · rename_i hl
            rw [if_pos hl] at h
            exact ih _ _ _ h g hfg
          · rename_i hl
            rw [if_neg hl] at h
            exact ih _ _ _ h g hfg
        · rename_i hb
          rw [if_neg hb] at h
          split
          · rename_i hl
            rw [if_pos hl] at h
            exact ih _ _ _ h g hfg
          · rename_i hl
            rw [if_neg hl] at h
            exact ih _ _ _ h g hfg

/-- Where the word loop returns, it stops at or after its start, and after it when
the first character is not one the loop stops at. -/
theorem word_loop_progress : ∀ (f : Nat) (p buf b p2 : List Char),
    word_loop f p buf = some (b, p2) →
    p2.length ≤ p.length ∧
    ∀ c rest, p = c :: rest → ¬ word_stop c → p2.length ≤ rest.length := by
  intro f
  induction f with
  | zero => intro p buf b p2 h; simp [word_loop] at h
  | succ f ih =>
    intro p buf b p2 h
    rcases p with _ | ⟨c, rest⟩
    · simp only [word_loop, Option.some.injEq, Prod.mk.injEq] at h
      rw [← h.2]
      exact ⟨le_refl _, fun _ _ hc => by simp at hc⟩
    rw [word_loop_cons] at h
    have key : ¬ word_stop c → p2.length ≤ rest.length := by
      intro hs
      rw [if_neg hs] at h
      by_cases hq : c = '\'' ∨ c = '"'
      · rw [if_pos hq] at h
        have h1 := (ih _ _ _ _ h).1
        have h2 := (quoted_loop_bounds rest.length rest (le_refl _) c buf).1
        have h3 : (if cur (quoted_loop c rest buf).2 = c then (quoted_loop c rest buf).2.tail
            else (quoted_loop c rest buf).2).length ≤ (quoted_loop c rest buf).2.length := by
          split
          · simp only [List.length_tail]
            omega
          · exact le_refl _
        omega
      rw [if_neg hq] at h
      by_cases hb : c = '\\' ∧ cur rest ≠ '\x00'
      · rw [if_pos hb] at h
        by_cases hl : buf.length < 4095
        · rw [if_pos hl] at h
          have h1 := (ih _ _ _ _ h).1
          simp only [List.length_tail] at h1
          omega
        · rw [if_neg hl] at h
          exact (ih _ _ _ _ h).1
      · rw [if_neg hb] at h
        by_cases hl : buf.length < 4095
        · rw [if_pos hl] at h
          exact (ih _ _ _ _ h).1
        · rw [if_neg hl] at h
          exact (ih _ _ _ _ h).2 c rest rfl hs
    refine ⟨?_, ?_⟩
    · by_cases hs : word_stop c
      · rw [if_pos hs] at h
        simp only [Option.some.injEq, Prod.mk.injEq] at h
        rw [← h.2]
      · have := key hs
        simp only [List.length_cons]
        omega
    · intro c2 rest2 heq hs
      simp only [List.cons.injEq] at heq
      rw [← heq.1] at hs
      rw [← heq.2]
      exact key hs

/-- The fuel `p.length + 1` is enough for the word loop: what it returns with any
fuel, it returns with every fuel above the length of the rest of the line. -/
theorem word_loop_adequate : ∀ (g : Nat) (p buf : List Char) (r : List Char × List Char),
    word_loop g p buf = some r → ∀ f, p.length < f → word_loop f p buf = some r := by
  intro g
  induction g with
  | zero => intro p buf r h; simp [word_loop] at h
  | succ g ih =>
    intro p buf r h f hf
    obtain ⟨f, rfl⟩ : ∃ f', f = f' + 1 := ⟨f - 1, by omega⟩
    rcases p with _ | ⟨c, rest⟩
    · simpa [word_loop] using h
    simp only [List.length_cons, Nat.add_lt_add_iff_right] at hf
    rw [word_loop_cons] at h ⊢
    by_cases hs : word_stop c
    · rw [if_pos hs] at h ⊢
      exact h
    rw [if_neg hs] at h ⊢
    by_cases hq : c = '\'' ∨ c = '"'
    · rw [if_pos hq] at h ⊢
      refine ih _ _ _ h f ?_
      have h2 := (quoted_loop_bounds rest.length rest (le_refl _) c buf).1
      split
      · simp only [List.length_tail]
        omega
      · omega
    rw [if_neg hq] at h ⊢
    by_cases hb : c = '\\' ∧ cur rest ≠ '\x00'
    · rw [if_pos hb] at h ⊢
      by_cases hl : buf.length < 4095
      · rw [if_pos hl] at h ⊢
        exact ih _ _ _ h f (by simp only [List.length_tail]; omega)
      · rw [if_neg hl] at h ⊢
        exact ih _ _ _ h f hf
    · rw [if_neg hb] at h ⊢
      by_cases hl : buf.length < 4095
      · rw [if_pos hl] at h ⊢
        exact ih _ _ _ h f hf
      · rw [if_neg hl] at h
        have := word_loop_hangs c rest buf hs hq hb hl g
        rw [this] at h
        exact absurd h (by simp)

/-- More fuel does not change what the main loop of `tokenize` returns. -/
theorem tokenize_loop_mono : ∀ (f : Nat) (p : List Char) (out tl : TokenList),
    tokenize_loop f p out = some tl → ∀ g, f ≤ g → tokenize_loop g p out = some tl := by
  intro f
  induction f with
  | zero => intro p out tl h; simp [tokenize_loop] at h
  | succ f ih =>
    intro p out tl h g hg
    obtain ⟨g, rfl⟩ : ∃ g', g = g' + 1 := ⟨g - 1, by omega⟩
    have hfg : f ≤ g := by omega
    by_cases h0 : cur p = '\x00'
    · rw [tokenize_loop_at_end f p out (Or.inl h0)] at h
      rw [tokenize_loop_at_end g p out (Or.inl h0)]
      exact h
    rcases hsk : skip_space p with _ | ⟨c, rest⟩
    · rw [tokenize_loop_at_end f p out (Or.inr hsk)] at h
      rw [tokenize_loop_at_end g p out (Or.inr hsk)]
      exact h
    rw [tokenize_loop_at f p out c rest h0 hsk] at h
    rw [tokenize_loop_at g p out c rest h0 hsk]
    split
    · rename_i hc
      rwa [if_pos hc] at h
    rename_i hc0
    rw [if_neg hc0] at h
    split
    · rename_i hc
      rw [if_pos hc] at h
      exact ih _ _ _ h g hfg
    rename_i hc1
    rw [if_neg hc1] at h
    split
    · rename_i hc
      rw [if_pos hc] at h
      exact ih _ _ _ h g hfg
    rename_i hc2
    rw [if_neg hc2] at h
    split
    · rename_i hc
      rw [if_pos hc] at h
      exact ih _ _ _ h g hfg
    rename_i hc3
    rw [if_neg hc3] at h
    split
    · rename_i hc
      rw [if_pos hc] at h
      split
      · rename_i hn
        rw [if_pos hn] at h
        exact ih _ _ _ h g hfg
      · rename_i hn
        rw [if_neg hn] at h
        exact ih _ _ _ h g hfg
    rename_i hc4
    rw [if_neg hc4] at h
    rcases hwl : word_loop ((c :: rest).length + 1) (c :: rest) [] with _ | ⟨b, p2⟩
    · rw [hwl] at h
      exact absurd h (by simp)
    · rw [hwl] at h
      exact ih _ _ _ h g hfg

/-- The fuel `line.length + 1` is enough for `tokenize`: what the main loop returns
with any fuel, it returns with every fuel above the length of the rest of the line.
So `tokenize line = none` tells that no fuel lets the loop return. -/
theorem tokenize_loop_adequate : ∀ (g : Nat) (p : List Char) (out tl : TokenList),
    tokenize_loop g p out = some tl → ∀ f, p.length < f → tokenize_loop f p out = some tl := by
  intro g
  induction g with
  | zero => intro p out tl h; simp [tokenize_loop] at h
  | succ g ih =>
    intro p out tl h f hf
    obtain ⟨f, rfl⟩ : ∃ f', f = f' + 1 := ⟨f - 1, by omega⟩
    by_cases h0 : cur p = '\x00'
    · rw [tokenize_loop_at_end g p out (Or.inl h0)] at h
      rw [tokenize_loop_at_end f p out (Or.inl h0)]
      exact h
    rcases hsk : skip_space p with _ | ⟨c, rest⟩
    · rw [tokenize_loop_at_end g p out (Or.inr hsk)] at h
      rw [tokenize_loop_at_end f p out (Or.inr hsk)]
      exact h
    have hlen : rest.length + 1 ≤ p.length := by
      have := skip_space_length p
      rw [hsk] at this
      simpa using this
    have hrest : rest.length < f := by omega
    rw [tokenize_loop_at g p out c rest h0 hsk] at h
    rw [tokenize_loop_at f p out c rest h0 hsk]
    by_cases hc0 : c = '\x00'
    · rw [if_pos hc0] at h ⊢
      exact h
    rw [if_neg hc0] at h ⊢
    by_cases hc1 : c = '|'
    · rw [if_pos hc1] at h ⊢
      exact ih _ _ _ h f hrest
    rw [if_neg hc1] at h ⊢
    by_cases hc2 : c = '&'
    · rw [if_pos hc2] at h ⊢
      exact ih _ _ _ h f hrest
    rw [if_neg hc2] at h ⊢
    by_cases hc3 : c = '<'
    · rw [if_pos hc3] at h ⊢
      exact ih _ _ _ h f hrest
    rw [if_neg hc3] at h ⊢
    by_cases hc4 : c = '>'
    · rw [if_pos hc4] at h ⊢
      by_cases hn : cur rest = '>'
      · rw [if_pos hn] at h ⊢
        exact ih _ _ _ h f (by simp only [List.length_tail]; omega)
      · rw [if_neg hn] at h ⊢
        exact ih _ _ _ h f hrest
    rw [if_neg hc4] at h ⊢
    rcases hwl : word_loop ((c :: rest).length + 1) (c :: rest) [] with _ | ⟨b, p2⟩
    · rw [hwl] at h
      exact absurd h (by simp)
    · rw [hwl] at h
      have hns : ¬ word_stop c := by
        have hsp := skip_space_head p c rest hsk
        unfold word_stop
        simp [hc0, hsp, hc1, hc2, hc3, hc4]
      have := (word_loop_progress _ _ _ _ _ hwl).2 c rest rfl hns
      exact ih _ _ _ h f (by omega)

/-! ## Whitespace around a line -/

theorem isspace_ne_nul {c : Char} (h : isspace c = true) : c ≠ '\x00' := by
  intro h0
  subst h0
  exact absurd h (by decide)

theorem isspace_ne_gt {c : Char} (h : isspace c = true) : c ≠ '>' := by
  intro h0
  subst h0
  exact absurd h (by decide)

/-- A whitespace character in front of the position changes nothing. -/
theorem tokenize_loop_isspace (f : Nat) (c : Char) (p : List Char) (out : TokenList)
    (hc : isspace c = true) :
    tokenize_loop f (c :: p) out = tokenize_loop f p out := by
  have h0 := isspace_ne_nul hc
  rcases f with _ | f
  · simp [tokenize_loop]
  · rcases p with _ | ⟨d, r⟩
    · simp [tokenize_loop, cur, skip_space, hc, h0]
    · by_cases hd : d = '\x00'
      · subst hd
        have hn : isspace '\x00' = false := by decide
        simp [tokenize_loop, cur, skip_space, hc, h0, hn]
      · simp [tokenize_loop, cur, skip_space, hc, h0, hd]

theorem tokenize_loop_ws (w : List Char) (hw : ∀ c ∈ w, isspace c = true) (f : Nat)
    (p : List Char) (out : TokenList) :
    tokenize_loop f (w ++ p) out = tokenize_loop f p out := by
  induction w with
  | nil => rfl
  | cons c w ih =>
    rw [List.cons_append, tokenize_loop_isspace f c _ out (hw c (List.mem_cons_self _ _)),
      ih (fun d hd => hw d (List.mem_cons_of_mem _ hd))]

theorem cur_append {p : List Char} (hp : p ≠ []) (w : List Char) : cur (p ++ w) = cur p := by
  rcases p with _ | ⟨c, r⟩
  · exact absurd rfl hp
  · rfl

theorem tail_append {p : List Char} (hp : p ≠ []) (w : List Char) :
    (p ++ w).tail = p.tail ++ w := by
  rcases p with _ | ⟨c, r⟩
  · exact absurd rfl hp
  · rfl

theorem word_loop_ws (f : Nat) (w buf : List Char) (hw : ∀ c ∈ w, isspace c = true) :
    word_loop (f + 1) w buf = some (buf, w) := by
  rcases w with _ | ⟨c, r⟩
  · simp [word_loop]
  · have hs : word_stop c := Or.inr (Or.inl (hw c (List.mem_cons_self _ _)))
    rw [word_loop_cons, if_pos hs]

/-- C11 as stated fails on the line made of `a` and a backslash: a space put after
it is escaped by the backslash and becomes part of the word. -/
theorem trailing_space_after_backslash :
    (∀ c ∈ ['a', '\\'], c ≠ '\'' ∧ c ≠ '"') ∧
    (∀ c ∈ ([] : List Char), isspace c = true) ∧ (∀ c ∈ [' '], isspace c = true) ∧
    tokenize ([] ++ ['a', '\\'] ++ [' ']) = some [word_tok ['a', ' '], op_tok .T_END] ∧
    tokenize ['a', '\\'] = some [word_tok ['a', '\\'], op_tok .T_END] ∧
    tokenize ([] ++ ['a', '\\'] ++ [' ']) ≠ tokenize ['a', '\\'] := by
  decide

theorem takeWhile_append_stop (l m : List Char) (c : Char) (hc : c ≠ '\\') :
    (l ++ c :: m).takeWhile (fun x => x = '\\') = l.takeWhile (fun x => x = '\\') := by
  induction l with
  | nil => simp [List.takeWhile, hc]
  | cons x l ih =>
    by_cases hx : x = '\\'
    · simp [List.takeWhile, hx, ih]
    · simp [List.takeWhile, hx]

theorem trailing_append_stop (pre : List Char) (h : Char) (t : List Char) (hh : h ≠ '\\') :
    trailing_backslashes (pre ++ h :: t) = trailing_backslashes (h :: t) := by
  unfold trailing_backslashes
  rw [List.reverse_append, List.reverse_cons, List.append_assoc, List.singleton_append,
    takeWhile_append_stop _ _ h hh, takeWhile_append_stop _ [] h hh]

theorem trailing_cons_stop (c : Char) (rest : List Char) (hc : c ≠ '\\') :
    trailing_backslashes (c :: rest) = trailing_backslashes rest := by
  unfold trailing_backslashes
  rw [List.reverse_cons, takeWhile_append_stop _ [] c hc]

theorem takeWhile_append_pair (l : List Char) :
    ((l ++ ['\\', '\\']).takeWhile (fun x => x = '\\')).length % 2
      = (l.takeWhile (fun x => x = '\\')).length % 2 := by
  induction l with
  | nil => rfl
  | cons x l ih =>
    by_cases hx : x = '\\'
    · simp only [List.cons_append, List.takeWhile, hx, decide_True, List.length_cons,
        List.append_eq]
      omega
    · simp [List.takeWhile, hx]

theorem trailing_pair (rest : List Char) :
    trailing_backslashes ('\\' :: '\\' :: rest) % 2 = trailing_backslashes rest % 2 := by
  unfold trailing_backslashes
  rw [List.reverse_cons, List.reverse_cons, List.append_assoc]
  exact takeWhile_append_pair _

theorem ends_escaped_nil : ends_escaped [] := rfl

theorem not_ends_escaped_single : ¬ ends_escaped ['\\'] := by decide

/-- Past a character that is not a backslash. -/
theorem ends_escaped_tail {c : Char} {rest : List Char} (h : ends_escaped (c :: rest))
    (hb : c ≠ '\\') : ends_escaped rest := by
  unfold ends_escaped at h ⊢
  rw [trailing_cons_stop c rest hb] at h
  exact h

/-- Past a backslash and the character it escapes. -/
theorem ends_escaped_tail2 {d : Char} {rest : List Char}
    (h : ends_escaped ('\\' :: d :: rest)) : ends_escaped rest := by
  unfold ends_escaped at h ⊢
  by_cases hb : d = '\\'
  · subst hb
    rw [trailing_pair] at h
    exact h
  · have e : trailing_backslashes ('\\' :: d :: rest) = trailing_backslashes (d :: rest) :=
      trailing_append_stop ['\\'] d rest hb
    rw [e, trailing_cons_stop d rest hb] at h
    exact h

/-- At a position the word loop stops at. -/
theorem ends_escaped_suffix (pre s : List Char) (h : ends_escaped (pre ++ s))
    (hs : s = [] ∨ ∃ c r, s = c :: r ∧ word_stop c) : ends_escaped s := by
  rcases hs with rfl | ⟨c, r, rfl, hc⟩
  · exact ends_escaped_nil
  · have hcb : c ≠ '\\' := by
      intro hb
      subst hb
      exact absurd hc (by decide)
    unfold ends_escaped at h ⊢
    rw [trailing_append_stop pre c r hcb] at h
    exact h

/-- Where the word loop returns on a line without quotes, it stands further on in the
line, at its end or at a character it stops at. -/
theorem word_loop_suffix : ∀ (f : Nat) (p buf b p2 : List Char),
    (∀ c ∈ p, c ≠ '\'' ∧ c ≠ '"') → word_loop f p buf = some (b, p2) →
    ∃ pre, p = pre ++ p2 ∧ (p2 = [] ∨ ∃ c r, p2 = c :: r ∧ word_stop c) := by
  intro f
  induction f with
  | zero => intro p buf b p2 _ h; simp [word_loop] at h
  | succ f ih =>
    intro p buf b p2 hq h
    rcases p with _ | ⟨c, rest⟩
    · simp only [word_loop, Option.some.injEq, Prod.mk.injEq] at h
      exact ⟨[], by rw [← h.2]; rfl, Or.inl h.2.symm⟩
    have hq2 : ∀ d ∈ rest, d ≠ '\'' ∧ d ≠ '"' := fun d hd => hq d (List.mem_cons_of_mem _ hd)
    have hcq : ¬ (c = '\'' ∨ c = '"') := by
      have := hq c (List.mem_cons_self _ _)
      exact fun h => h.elim this.1 this.2
    rw [word_loop_cons] at h
    by_cases hs : word_stop c
    · rw [if_pos hs] at h
      simp only [Option.some.injEq, Prod.mk.injEq] at h
      exact ⟨[], by rw [← h.2]; rfl, Or.inr ⟨c, rest, h.2.symm, hs⟩⟩
    have hc0 : c ≠ '\x00' := fun h0 => hs (Or.inl h0)
    rw [if_neg hs, if_neg hcq] at h
    by_cases hb : c = '\\' ∧ cur rest ≠ '\x00'
    · rw [if_pos hb] at h
      rcases rest with _ | ⟨d, rest2⟩
      · exact absurd rfl hb.2
      have hd0 : d ≠ '\x00' := by simpa [cur] using hb.2
      by_cases hl : buf.length < 4095
      · rw [if_pos hl] at h
        obtain ⟨pre, hpre, hstop⟩ := ih _ _ _ _
          (fun x hx => hq2 x (List.mem_cons_of_mem _ hx)) h
        have hpre2 : rest2 = pre ++ p2 := hpre
        exact ⟨c :: d :: pre, by rw [hpre2]; rfl, hstop⟩
      · rw [if_neg hl] at h
        obtain ⟨pre, hpre, hstop⟩ := ih _ _ _ _ hq2 h
        exact ⟨c :: pre, by rw [hpre]; rfl, hstop⟩
    · rw [if_neg hb] at h
      by_cases hl : buf.length < 4095
      · rw [if_pos hl] at h
        obtain ⟨pre, hpre, hstop⟩ := ih _ _ _ _ hq2 h
        exact ⟨c :: pre, by rw [hpre]; rfl, hstop⟩
      · rw [if_neg hl] at h
        exact ih _ _ _ _ hq h

/-- The word loop on a line without quotes: where it returns, it returns the same
buffer with whitespace put after the line, the whitespace staying after the position
where it stops. While the buffer has room the line must not end in a backslash that
escapes; with a full buffer such an end is no return. -/
theorem word_loop_padded : ∀ (f : Nat) (p buf w : List Char),
    (∀ c ∈ p, c ≠ '\'' ∧ c ≠ '"') → (∀ c ∈ w, isspace c = true) →
    (buf.length < 4095 → ends_escaped p) →
    ∀ b p2, word_loop f p buf = some (b, p2) →
      word_loop f (p ++ w) buf = some (b, p2 ++ w) := by
  intro f
  induction f with
  | zero => intro p buf w _ _ _ b p2 h; simp [word_loop] at h
  | succ f ih =>
    intro p buf w hq hw hesc b p2 h
    rcases p with _ | ⟨c, rest⟩
    · simp only [word_loop, Option.some.injEq, Prod.mk.injEq] at h
      rw [List.nil_append, word_loop_ws f w buf hw, ← h.1, ← h.2]
      rfl
    have hq2 : ∀ d ∈ rest, d ≠ '\'' ∧ d ≠ '"' := fun d hd => hq d (List.mem_cons_of_mem _ hd)
    have hcq : ¬ (c = '\'' ∨ c = '"') := by
      have := hq c (List.mem_cons_self _ _)
      exact fun h => h.elim this.1 this.2
    rw [word_loop_cons] at h
    rw [List.cons_append, word_loop_cons]
    by_cases hs : word_stop c
    · rw [if_pos hs] at h ⊢
      simp only [Option.some.injEq, Prod.mk.injEq] at h
      rw [← h.1, ← h.2]
      rfl
    have hc0 : c ≠ '\x00' := fun h0 => hs (Or.inl h0)
    rw [if_neg hs, if_neg hcq] at h
    rw [if_neg hs, if_neg hcq]
    by_cases hb : c = '\\' ∧ cur rest ≠ '\x00'
    · have hne : rest ≠ [] := by
        intro hr
        rw [hr] at hb
        exact hb.2 rfl
      have hb2 : c = '\\' ∧ cur (rest ++ w) ≠ '\x00' := by
        rw [cur_append hne]
        exact hb
      rw [if_pos hb] at h
      rw [if_pos hb2, cur_append hne, tail_append hne]
      by_cases hl : buf.length < 4095
      · rw [if_pos hl] at h ⊢
        refine ih _ _ w ?_ hw ?_ b p2 h
        · intro x hx
          exact hq2 x (List.mem_of_mem_tail hx)
        · intro _
          rcases rest with _ | ⟨d, rest2⟩
          · exact absurd rfl hne
          have := hesc hl
          rw [hb.1] at this
          exact ends_escaped_tail2 this
      · rw [if_neg hl] at h ⊢
        exact ih _ _ w hq2 hw (fun hl2 => absurd hl2 hl) b p2 h
    · rw [if_neg hb] at h
      by_cases hl : buf.length < 4095
      · rw [if_pos hl] at h
        have hesc1 := hesc hl
        have hb2 : ¬ (c = '\\' ∧ cur (rest ++ w) ≠ '\x00') := by
          intro h2
          have hne : rest ≠ [] := by
            intro hr
            rw [hr, h2.1] at hesc1
            exact not_ends_escaped_single hesc1
          rw [cur_append hne] at h2
          exact hb h2
        rw [if_neg hb2, if_pos hl]
        refine ih _ _ w hq2 hw ?_ b p2 h
        intro _
        by_cases hcb : c = '\\'
        · have hcur : cur rest = '\x00' := by
            by_contra hne
            exact hb ⟨hcb, hne⟩
          rcases rest with _ | ⟨d, rest2⟩
          · rw [hcb] at hesc1
            exact absurd hesc1 not_ends_escaped_single
          · have hd : d = '\x00' := by simpa [cur] using hcur
            have e : trailing_backslashes (c :: d :: rest2) = trailing_backslashes (d :: rest2) :=
              trailing_append_stop [c] d rest2 (by rw [hd]; decide)
            unfold ends_escaped at hesc1 ⊢
            rw [e] at hesc1
            exact hesc1
        · exact ends_escaped_tail hesc1 hcb
      · rw [if_neg hl] at h
        have := word_loop_hangs c rest buf hs hcq hb hl f
        rw [this] at h
        exact absurd h (by simp)

theorem isspace_ne_backslash {c : Char} (h : isspace c = true) : c ≠ '\\' := by
  intro h0
  subst h0
  exact absurd h (by decide)

/-- The tokenizer on a line without quotes that does not end in an escaping
backslash: where it returns, it returns the same list with whitespace put after the
line. -/
theorem tokenize_loop_padded : ∀ (f : Nat) (p : List Char) (out : TokenList)
    (w : List Char) (tl : TokenList),
    (∀ c ∈ p, c ≠ '\'' ∧ c ≠ '"') → ends_escaped p → (∀ c ∈ w, isspace c = true) →
    tokenize_loop f p out = some tl → tokenize_loop f (p ++ w) out = some tl := by
  intro f
  induction f with
  | zero => intro p out w tl _ _ _ h; simp [tokenize_loop] at h
  | succ f ih =>
    intro p
    induction p with
    | nil =>
      intro out w tl _ _ hw h
      have e := tokenize_loop_ws w hw (f + 1) [] out
      rw [List.append_nil] at e
      rw [List.nil_append, e]
      exact h
    | cons c rest ihp =>
      intro out w tl hq hesc hw h
      have hq2 : ∀ d ∈ rest, d ≠ '\'' ∧ d ≠ '"' :=
        fun d hd => hq d (List.mem_cons_of_mem _ hd)
      by_cases h0 : c = '\x00'
      · rw [tokenize_loop_at_end f (c :: rest) out (Or.inl (by rw [h0]; rfl))] at h
        rw [List.cons_append,
          tokenize_loop_at_end f (c :: (rest ++ w)) out (Or.inl (by rw [h0]; rfl))]
        exact h
      by_cases hsp : isspace c = true
      · rw [tokenize_loop_isspace (f + 1) c rest out hsp] at h
        rw [List.cons_append, tokenize_loop_isspace (f + 1) c (rest ++ w) out hsp]
        exact ihp out w tl hq2 (ends_escaped_tail hesc (isspace_ne_backslash hsp)) hw h
      have hsk : skip_space (c :: rest) = c :: rest := by
        simp only [skip_space, hsp]
        rfl
      have hsk2 : skip_space (c :: (rest ++ w)) = c :: (rest ++ w) := by
        simp only [skip_space, hsp]
        rfl
      have hc1 : cur (c :: rest) ≠ '\x00' := h0
      have hc2 : cur (c :: (rest ++ w)) ≠ '\x00' := h0
      rw [tokenize_loop_at f (c :: rest) out c rest hc1 hsk, if_neg h0] at h
      rw [List.cons_append, tokenize_loop_at f (c :: (rest ++ w)) out c (rest ++ w) hc2 hsk2,
        if_neg h0]
      by_cases h1 : c = '|'
      · rw [if_pos h1] at h ⊢
        exact ih rest _ w tl hq2 (ends_escaped_tail hesc (by rw [h1]; decide)) hw h
      rw [if_neg h1] at h ⊢
      by_cases h2 : c = '&'
      · rw [if_pos h2] at h ⊢
        exact ih rest _ w tl hq2 (ends_escaped_tail hesc (by rw [h2]; decide)) hw h
      rw [if_neg h2] at h ⊢
      by_cases h3 : c = '<'
      · rw [if_pos h3] at h ⊢
        exact ih rest _ w tl hq2 (ends_escaped_tail hesc (by rw [h3]; decide)) hw h
      rw [if_neg h3] at h ⊢
      have hesc2 : c ≠ '\\' → ends_escaped rest := ends_escaped_tail hesc
      by_cases h4 : c = '>'
      · rw [if_pos h4] at h ⊢
        have hr := hesc2 (by rw [h4]; decide)
        by_cases h5 : cur rest = '>'
        · have hne : rest ≠ [] := by
            intro hr0
            rw [hr0] at h5
            exact absurd h5 (by decide)
          rw [if_pos h5] at h
          rw [cur_append hne, if_pos h5, tail_append hne]
          refine ih rest.tail _ w tl (fun x hx => hq2 x (List.mem_of_mem_tail hx)) ?_ hw h
          rcases rest with _ | ⟨d, rest2⟩
          · exact absurd rfl hne
          · have hd : d = '>' := h5
            exact ends_escaped_tail hr (by rw [hd]; decide)
        · rw [if_neg h5] at h
          have h6 : cur (rest ++ w) ≠ '>' := by
            rcases rest with _ | ⟨d, rest2⟩
            · rcases w with _ | ⟨x, w2⟩
              · decide
              · exact isspace_ne_gt (hw x (List.mem_cons_self _ _))
            · exact h5
          rw [if_neg h6]
          exact ih rest _ w tl hq2 hr hw h
      rw [if_neg h4] at h ⊢
      cases hwl : word_loop ((c :: rest).length + 1) (c :: rest) [] with
      | none =>
        rw [hwl] at h
        exact absurd h (by simp)
      | some r =>
        obtain ⟨b, p2⟩ := r
        rw [hwl] at h
        have hpad := word_loop_padded _ (c :: rest) [] w hq hw (fun _ => hesc) b p2 hwl
        have hlift : word_loop ((c :: (rest ++ w)).length + 1) (c :: (rest ++ w)) []
            = some (b, p2 ++ w) :=
          word_loop_mono _ _ _ _ hpad ((c :: (rest ++ w)).length + 1)
            (by simp only [List.length_cons, List.length_append]; omega)
        rw [hlift]
        obtain ⟨pre, hpre, hstop⟩ := word_loop_suffix _ _ _ _ _ hq hwl
        have hqp : ∀ x ∈ p2, x ≠ '\'' ∧ x ≠ '"' := by
          intro x hx
          exact hq x (by rw [hpre]; exact List.mem_append_right _ hx)
        have hep : ends_escaped p2 := ends_escaped_suffix pre p2 (by rw [← hpre]; exact hesc) hstop
        exact ih p2 _ w tl hqp hep hw h

/-- The word loop on a line without quotes that fits in the buffer returns. -/
theorem word_loop_short : ∀ (f : Nat) (p buf : List Char),
    (∀ c ∈ p, c ≠ '\'' ∧ c ≠ '"') → buf.length + p.length ≤ 4095 → p.length < f →
    ∃ r, word_loop f p buf = some r := by
  intro f
  induction f with
  | zero => intro p buf _ _ h; exact absurd h (Nat.not_lt_zero _)
  | succ f ih =>
    intro p buf hq hlen hf
    rcases p with _ | ⟨c, rest⟩
    · exact ⟨(buf, []), by simp [word_loop]⟩
    have hq2 : ∀ d ∈ rest, d ≠ '\'' ∧ d ≠ '"' := fun d hd => hq d (List.mem_cons_of_mem _ hd)
    have hcq : ¬ (c = '\'' ∨ c = '"') := by
      have := hq c (List.mem_cons_self _ _)
      exact fun h => h.elim this.1 this.2
    simp only [List.length_cons] at hlen hf
    have hl : buf.length < 4095 := by omega
    rw [word_loop_cons]
    by_cases hs : word_stop c
    · rw [if_pos hs]
      exact ⟨_, rfl⟩
    rw [if_neg hs, if_neg hcq]
    by_cases hb : c = '\\' ∧ cur rest ≠ '\x00'
    · rw [if_pos hb, if_pos hl]
      have ht : rest.tail.length ≤ rest.length := by
        rw [List.length_tail]
        omega
      refine ih _ _ (fun x hx => hq2 x (List.mem_of_mem_tail hx)) ?_ (by omega)
      rw [List.length_append, List.length_singleton]
      omega
    · rw [if_neg hb, if_pos hl]
      refine ih _ _ hq2 ?_ (by omega)
      rw [List.length_append, List.length_singleton]
      omega

/-- The tokenizer returns on a line without quotes of at most 4095 characters. -/
theorem tokenize_loop_short : ∀ (f : Nat) (p : List Char) (out : TokenList),
    (∀ c ∈ p, c ≠ '\'' ∧ c ≠ '"') → p.length ≤ 4095 → p.length < f →
    ∃ tl, tokenize_loop f p out = some tl := by
  intro f
  induction f with
  | zero => intro p out _ _ h; exact absurd h (Nat.not_lt_zero _)
  | succ f ih =>
    intro p
    induction p with
    | nil =>
      intro out _ _ _
      exact ⟨_, tokenize_loop_at_end f [] out (Or.inl rfl)⟩
    | cons c rest ihp =>
      intro out hq hlen hf
      have hq2 : ∀ d ∈ rest, d ≠ '\'' ∧ d ≠ '"' :=
        fun d hd => hq d (List.mem_cons_of_mem _ hd)
      simp only [List.length_cons] at hlen hf
      by_cases h0 : c = '\x00'
      · exact ⟨_, tokenize_loop_at_end f (c :: rest) out (Or.inl (by rw [h0]; rfl))⟩
      by_cases hsp : isspace c = true
      · rw [tokenize_loop_isspace (f + 1) c rest out hsp]
        exact ihp out hq2 (by omega) (by omega)
      have hsk : skip_space (c :: rest) = c :: rest := by
        simp only [skip_space, hsp]
        rfl
      have hc1 : cur (c :: rest) ≠ '\x00' := h0
      rw [tokenize_loop_at f (c :: rest) out c rest hc1 hsk, if_neg h0]
      by_cases h1 : c = '|'
      · rw [if_pos h1]
        exact ih rest _ hq2 (by omega) (by omega)
      rw [if_neg h1]
      by_cases h2 : c = '&'
      · rw [if_pos h2]
        exact ih rest _ hq2 (by omega) (by omega)
      rw [if_neg h2]
      by_cases h3 : c = '<'
      · rw [if_pos h3]
        exact ih rest _ hq2 (by omega) (by omega)
      rw [if_neg h3]
      by_cases h4 : c = '>'
      · rw [if_pos h4]
        have ht : rest.tail.length ≤ rest.length := by
          rw [List.length_tail]
          omega
        by_cases h5 : cur rest = '>'
        · rw [if_pos h5]
          exact ih rest.tail _ (fun x hx => hq2 x (List.mem_of_mem_tail hx)) (by omega)
            (by omega)
        · rw [if_neg h5]
          exact ih rest _ hq2 (by omega) (by omega)
      rw [if_neg h4]
      obtain ⟨⟨b, p2⟩, hwl⟩ := word_loop_short ((c :: rest).length + 1) (c :: rest) [] hq
        (by simp only [List.length_cons, List.length_nil]; omega) (Nat.lt_succ_self _)
      rw [hwl]
      have hstopc : ¬ word_stop c := by
        intro hs
        rcases hs with hs | hs | hs | hs | hs | hs
        · exact h0 hs
        · exact hsp hs
        · exact h1 hs
        · exact h2 hs
        · exact h3 hs
        · exact h4 hs
      have hprog := (word_loop_progress _ _ _ _ _ hwl).2 c rest rfl hstopc
      obtain ⟨pre, hpre, _⟩ := word_loop_suffix _ _ _ _ _ hq hwl
      have hqp : ∀ x ∈ p2, x ≠ '\'' ∧ x ≠ '"' := by
        intro x hx
        exact hq x (by rw [hpre]; exact List.mem_append_right _ hx)
      exact ih p2 _ hqp (by omega) (by omega)

/-- C11, amended: on a line without quote characters whose backslashes at the end
are even in number (it does not end in a backslash that would escape what is put
after it), whenever `tokenize` returns a token list on the line it returns the same
token list on the line with whitespace put before it and after it; and it returns
on every such line of at most 4095 characters. -/
theorem whitespace_around_line (line w1 w2 : List Char)
    (hq : ∀ c ∈ line, c ≠ '\'' ∧ c ≠ '"') (hbs : ends_escaped line)
    (hw1 : ∀ c ∈ w1, isspace c = true) (hw2 : ∀ c ∈ w2, isspace c = true) :
    (∀ tl, tokenize line = some tl → tokenize (w1 ++ line ++ w2) = some tl) ∧
    (line.length ≤ 4095 → ∃ tl, tokenize line = some tl) := by
  refine ⟨?_, ?_⟩
  · intro tl hret
    unfold tokenize at hret ⊢
    rw [List.append_assoc, tokenize_loop_ws w1 hw1]
    have hpad := tokenize_loop_padded _ line [] w2 tl hq hbs hw2 hret
    exact tokenize_loop_mono _ _ _ _ hpad _
      (by simp only [List.length_append]; omega)
  · intro hlen
    exact tokenize_loop_short _ line [] hq hlen (Nat.lt_succ_self _)

theorem whitespace_around_line_witness :
    ends_escaped ['a', '\\', '\\', ' ', 'b', '\\', '\\'] ∧
    tokenize ([' ', '\t'] ++ ['a', '\\', '\\', ' ', 'b', '\\', '\\'] ++ ['\n', ' '])
      = some [word_tok ['a', '\\'], word_tok ['b', '\\'], op_tok .T_END] ∧
    tokenize ['a', '\\', '\\', ' ', 'b', '\\', '\\']
      = some [word_tok ['a', '\\'], word_tok ['b', '\\'], op_tok .T_END] :=
  ⟨by decide,
   (whitespace_around_line ['a', '\\', '\\', ' ', 'b', '\\', '\\'] [' ', '\t'] ['\n', ' ']
      (by decide) (by decide) (by decide) (by decide)).1 _ (by decide),
   by decide⟩

/-! ## Escaped characters, unterminated quotes, long words -/

/-- The word loop on a line of escaped characters. -/
theorem word_loop_backslashed (s : List Char) : ∀ (buf : List Char) (f : Nat),
    (∀ c ∈ s, c ≠ '\x00') → buf.length + s.length ≤ 4095 → s.length < f →
    word_loop f (backslashed s) buf = some (buf ++ s, []) := by
  induction s with
  | nil =>
    intro buf f _ _ hf
    rcases f with _ | f
    · simp at hf
    · simp [backslashed, word_loop]
  | cons c s ih =>
    intro buf f hs hlen hf
    rcases f with _ | f
    · simp at hf
    simp only [List.length_cons] at hlen hf
    have hc := hs c (List.mem_cons_self _ _)
    have hstop : ¬ word_stop '\\' := by decide
    have hq : ¬ ('\\' = '\'' ∨ '\\' = '"') := by decide
    have hbs : '\\' = '\\' ∧ cur (c :: backslashed s) ≠ '\x00' := ⟨rfl, by simpa [cur] using hc⟩
    have hlt : buf.length < 4095 := by omega
    rw [backslashed, word_loop_cons, if_neg hstop, if_neg hq, if_pos hbs, if_pos hlt]
    simp only [cur, List.headD_cons, List.tail_cons]
    rw [ih _ f (fun d hd => hs d (List.mem_cons_of_mem _ hd))
      (by simp only [List.length_append, List.length_singleton]; omega) (by omega)]
    simp

theorem length_backslashed (s : List Char) : (backslashed s).length = 2 * s.length := by
  induction s with
  | nil => rfl
  | cons c s ih =>
    simp only [backslashed, List.length_cons, ih]
    omega

/-- C13: backslash stripping applies to unquoted text: for a non-empty string `s` of
at most 4095 characters without NUL, the line with a backslash before each character
of `s` is tokenized to exactly the word `s` followed by `T_END`; so the line `a`,
backslash, space, `b` gives the one word `a b`. -/
theorem backslash_stripped_unquoted (s : List Char) (hne : s ≠ []) (hlen : s.length ≤ 4095)
    (hs : ∀ c ∈ s, c ≠ '\x00') :
    tokenize (backslashed s) = some [word_tok s, op_tok .T_END] ∧
    tokenize ['a', '\\', ' ', 'b'] = some [word_tok ['a', ' ', 'b'], op_tok .T_END] := by
  refine ⟨?_, by decide⟩
  rcases s with _ | ⟨c, s⟩
  · exact absurd rfl hne
  have hwl := word_loop_backslashed (c :: s) [] ((backslashed (c :: s)).length + 1) hs
    (by simpa using hlen) (by rw [length_backslashed]; omega)
  have h0 : cur (backslashed (c :: s)) ≠ '\x00' := by simp [backslashed, cur]
  have hsk : skip_space (backslashed (c :: s)) = '\\' :: c :: backslashed s := by
    simp [backslashed, skip_space, isspace]
  have hl : (backslashed (c :: s)).length + 1 = (backslashed s).length + 1 + 1 + 1 := by
    simp [backslashed]
  have hbk : '\\' :: c :: backslashed s = backslashed (c :: s) := rfl
  unfold tokenize
  rw [hl, tokenize_loop_at _ _ [] '\\' _ h0 hsk]
  simp only [Char.reduceEq, if_false]
  rw [hbk, hwl]
  simp only [List.nil_append]
  rw [tokenize_loop_at_end _ [] _ (Or.inl rfl)]
  simp [token_push, MAX_TOKENS, xstrdup_eq hs, word_tok, op_tok]

theorem backslash_stripped_unquoted_witness :
    tokenize ['\\', ' ', '\\', '|', '\\', '\\', '\\', '"']
      = some [word_tok [' ', '|', '\\', '"'], op_tok .T_END] ∧
    tokenize ['a', '\\', ' ', 'b'] = some [word_tok ['a', ' ', 'b'], op_tok .T_END] :=
  backslash_stripped_unquoted [' ', '|', '\\', '"'] (by decide) (by decide) (by decide)

/-- The loop of a quoted span copies every character that is not the quote, a
backslash or NUL. -/
theorem quoted_loop_literal (q : Char) (s : List Char) : ∀ (tail buf : List Char),
    (∀ c ∈ s, c ≠ '\x00' ∧ c ≠ q ∧ c ≠ '\\') → buf.length + s.length ≤ 4095 →
    quoted_loop q (s ++ tail) buf = quoted_loop q tail (buf ++ s) := by
  induction s with
  | nil => intro tail buf _ _; simp
  | cons c s ih =>
    intro tail buf hs hlen
    obtain ⟨h0, h1, h2⟩ := hs c (List.mem_cons_self _ _)
    simp only [List.length_cons] at hlen
    rw [List.cons_append, quoted_loop_cons, if_neg (by simp [h0, h1]),
      if_neg (by simp [h2]), store_lt (by omega),
      ih tail _ (fun d hd => hs d (List.mem_cons_of_mem _ hd))
        (by simp only [List.length_append, List.length_singleton]; omega)]
    simp

/-- The tokenizer on a line that is one quoted span without its closing quote. -/
theorem tokenize_unterminated (q : Char) (hq : q = '\'' ∨ q = '"') (body s : List Char)
    (hloop : quoted_loop q body [] = (s, [])) (hs : ∀ c ∈ s, c ≠ '\x00') :
    tokenize (q :: body) = some [word_tok s, op_tok .T_END] := by
  have hlen : (q :: body).length + 1 = body.length + 1 + 1 := by simp
  unfold tokenize
  rw [hlen]
  rcases hq with rfl | rfl
  · simp [tokenize_loop, cur, skip_space, isspace, word_loop, hloop, token_push, MAX_TOKENS,
      xstrdup_eq hs, word_tok, op_tok]
  · simp [tokenize_loop, cur, skip_space, isspace, word_loop, hloop, token_push, MAX_TOKENS,
      xstrdup_eq hs, word_tok, op_tok]

/-- C14: an unterminated quote consumes to the end of the line: for a quote character
`q` and a string `s` of at most 4095 characters without `q`, backslash and NUL, the
line `q`, `s` is tokenized to exactly the word `s` followed by `T_END`, as the line
`q`, `s`, `q` is. -/
theorem unterminated_quote_to_end (q : Char) (s : List Char) (hq : q = '\'' ∨ q = '"')
    (hlen : s.length ≤ 4095) (hs : ∀ c ∈ s, c ≠ '\x00' ∧ c ≠ q ∧ c ≠ '\\') :
    tokenize (q :: s) = some [word_tok s, op_tok .T_END] ∧
    tokenize (q :: (s ++ [q])) = some [word_tok s, op_tok .T_END] := by
  have hnul : ∀ c ∈ s, c ≠ '\x00' := fun c hc => (hs c hc).1
  refine ⟨?_, ?_⟩
  · refine tokenize_unterminated q hq s s ?_ hnul
    have := quoted_loop_literal q s [] [] hs (by simpa using hlen)
    rw [List.append_nil] at this
    rw [this]
    simp [quoted_loop]
  · refine tokenize_quoted q hq s s ?_ hnul
    rw [quoted_loop_literal q s [q] [] hs (by simpa using hlen)]
    simp [quoted_loop_cons]

theorem unterminated_quote_to_end_witness :
    tokenize ('"' :: ['a', ' ', '|', '\'', 'b'])
      = some [word_tok ['a', ' ', '|', '\'', 'b'], op_tok .T_END] ∧
    tokenize ('"' :: (['a', ' ', '|', '\'', 'b'] ++ ['"']))
      = some [word_tok ['a', ' ', '|', '\'', 'b'], op_tok .T_END] :=
  unterminated_quote_to_end '"' ['a', ' ', '|', '\'', 'b'] (Or.inr rfl) (by decide) (by decide)

/-- The word loop on a run of plain characters that does not fit into the buffer: no
fuel lets it return. -/
theorem word_loop_long_plain (w : List Char) : ∀ (p buf : List Char),
    (∀ c ∈ w, plain c) → buf.length ≤ 4095 → 4095 < buf.length + w.length →
    ∀ f, word_loop f (w ++ p) buf = none := by
  induction w with
  | nil =>
    intro p buf _ hb hlen
    simp only [List.length_nil] at hlen
    omega
  | cons c w ih =>
    intro p buf hw hb hlen f
    obtain ⟨h0, h1, h2, h3, h4, h5, h6, h7, h8⟩ := hw c (List.mem_cons_self _ _)
    simp only [List.length_cons] at hlen
    have hstop : ¬ word_stop c := by
      unfold word_stop
      simp [h0, h1, h2, h3, h4, h5]
    have hq : ¬ (c = '\'' ∨ c = '"') := by simp [h6, h7]
    have hbs : ¬ (c = '\\' ∧ cur (w ++ p) ≠ '\x00') := by simp [h8]
    by_cases hl : buf.length < 4095
    · rcases f with _ | f
      · rfl
      · rw [List.cons_append, word_loop_cons, if_neg hstop, if_neg hq, if_neg hbs, if_pos hl]
        exact ih p (buf ++ [c]) (fun d hd => hw d (List.mem_cons_of_mem _ hd))
          (by simp only [List.length_append, List.length_singleton]; omega)
          (by simp only [List.length_append, List.length_singleton]; omega) f
    · exact word_loop_hangs c (w ++ p) buf hstop hq hbs hl f

/-- The tokenizer on a line that is one run of more than 4095 plain characters: no
fuel lets the main loop return. -/
theorem tokenize_loop_long_plain (line : List Char) (hpl : ∀ c ∈ line, plain c)
    (hlen : 4095 < line.length) (f : Nat) (out : TokenList) :
    tokenize_loop f line out = none := by
  rcases f with _ | f
  · rfl
  rcases line with _ | ⟨c, w⟩
  · simp at hlen
  obtain ⟨h0, h1, h2, h3, h4, h5, _, _, _⟩ := hpl c (List.mem_cons_self _ _)
  have hc0 : cur (c :: w) ≠ '\x00' := by simpa [cur] using h0
  have hsk : skip_space (c :: w) = c :: w := by simp [skip_space, h1]
  have hwl := word_loop_long_plain (c :: w) [] [] hpl (by simp) (by simpa using hlen)
    ((c :: w).length + 1)
  rw [List.append_nil] at hwl
  rw [tokenize_loop_at _ _ out c w hc0 hsk, if_neg h0, if_neg h2, if_neg h3, if_neg h4,
    if_neg h5, hwl]

theorem text_bound_push {out : TokenList} (h : text_bound out) (t : TokType)
    (txt : Option (List Char)) (htxt : ∀ s, txt = some s → s.length ≤ 4095) :
    text_bound (token_push out t txt) := by
  unfold token_push
  split
  · exact h
  · intro u hu s hs
    rcases List.mem_append.mp hu with hu | hu
    · exact h u hu s hs
    · simp only [List.mem_singleton] at hu
      subst hu
      rcases txt with _ | x
      · simp at hs
      · simp only [Option.map_some', Option.some.injEq] at hs
        rw [← hs]
        exact le_trans (List.takeWhile_sublist _).length_le (htxt x rfl)

theorem text_bound_push_none {out : TokenList} (h : text_bound out) (t : TokType) :
    text_bound (token_push out t none) :=
  text_bound_push h t none (fun s hs => by simp at hs)

/-- The buffer the word loop returns is within its bound. -/
theorem word_loop_bound : ∀ (f : Nat) (p buf : List Char) (r : List Char × List Char),
    buf.length ≤ 4095 → word_loop f p buf = some r → r.1.length ≤ 4095 := by
  intro f
  induction f with
  | zero => intro p buf r _ h; simp [word_loop] at h
  | succ f ih =>
    intro p buf r hb h
    rcases p with _ | ⟨c, rest⟩
    · simp only [word_loop, Option.some.injEq] at h
      rw [← h]
      exact hb
    rw [word_loop_cons] at h
    split at h
    · simp only [Option.some.injEq] at h
      rw [← h]
      exact hb
    split at h
    · exact ih _ _ r ((quoted_loop_bounds rest.length rest (le_refl _) c buf).2 hb) h
    split at h
    · split at h
      · rename_i hl
        exact ih _ _ r (by rw [List.length_append, List.length_singleton]; omega) h
      · exact ih _ _ r hb h
    · split at h
      · rename_i hl
        exact ih _ _ r (by rw [List.length_append, List.length_singleton]; omega) h
      · exact ih _ _ r hb h

/-- The token list the main loop of `tokenize` returns keeps every text within 4095
characters. -/
theorem tokenize_loop_bound : ∀ (f : Nat) (p : List Char) (out tl : TokenList),
    text_bound out → tokenize_loop f p out = some tl → text_bound tl := by
  intro f
  induction f with
  | zero => intro p out tl _ h; simp [tokenize_loop] at h
  | succ f ih =>
    intro p out tl hb h
    by_cases h0 : cur p = '\x00'
    · rw [tokenize_loop_at_end f p out (Or.inl h0), Option.some.injEq] at h
      rw [← h]
      exact text_bound_push_none hb _
    rcases hsk : skip_space p with _ | ⟨c, rest⟩
    · rw [tokenize_loop_at_end f p out (Or.inr hsk), Option.some.injEq] at h
      rw [← h]
      exact text_bound_push_none hb _
    rw [tokenize_loop_at f p out c rest h0 hsk] at h
    split at h
    · rw [Option.some.injEq] at h
      rw [← h]
      exact text_bound_push_none hb _
    split at h
    · exact ih _ _ _ (text_bound_push_none hb _) h
    split at h
    · exact ih _ _ _ (text_bound_push_none hb _) h
    split at h
    · exact ih _ _ _ (text_bound_push_none hb _) h
    split at h
    · split at h
      · exact ih _ _ _ (text_bound_push_none hb _) h
      · exact ih _ _ _ (text_bound_push_none hb _) h
    rcases hwl : word_loop ((c :: rest).length + 1) (c :: rest) [] with _ | ⟨b, p2⟩
    · rw [hwl] at h
      exact absurd h (by simp)
    · rw [hwl] at h
      have hbl : b.length ≤ 4095 := word_loop_bound _ _ [] (b, p2) (by decide) hwl
      refine ih _ _ _ (text_bound_push hb .T_WORD (some b) ?_) h
      intro s hs
      rw [Option.some.injEq] at hs
      rw [← hs]
      exact hbl

/-- C17, against the source: a line that is one run of plain characters is tokenized
to its word and `T_END` while it has at most 4095 characters; on a longer run the
buffer is full after 4095 characters and the position no longer moves on, so no
fuel lets the main loop return and `tokenize` has no result: the word is not
truncated. Where `tokenize` returns, on any line, no text is longer than 4095
characters. -/
theorem long_word_never_returns (line : List Char) (hne : line ≠ [])
    (hpl : ∀ c ∈ line, plain c) :
    (line.length ≤ 4095 → tokenize line = some [word_tok line, op_tok .T_END]) ∧
    (4095 < line.length →
      (∀ f out, tokenize_loop f line out = none) ∧ tokenize line = none) ∧
    (∀ other tl, tokenize other = some tl →
      ∀ t ∈ tl, ∀ s, t.text = some s → s.length ≤ 4095) := by
  refine ⟨?_, ?_, ?_⟩
  · intro hlen
    have hw : plain_word line := ⟨hne, hlen, hpl⟩
    exact tokenize_spelled [word_tok line]
      (fun t ht => by
        rw [List.mem_singleton.mp ht]
        exact Or.inl ⟨rfl, _, rfl, hw⟩)
      (by rw [List.length_singleton]; decide)
  · intro hlen
    exact ⟨fun f out => tokenize_loop_long_plain line hpl hlen f out,
      tokenize_loop_long_plain line hpl hlen _ _⟩
  · intro other tl h
    exact tokenize_loop_bound _ other [] tl (fun t ht => absurd ht (List.not_mem_nil t)) h

theorem long_word_never_returns_witness :
    tokenize (List.replicate 4096 'a') = none ∧
    tokenize (List.replicate 4095 'a')
      = some [word_tok (List.replicate 4095 'a'), op_tok .T_END] :=
  ⟨((long_word_never_returns (List.replicate 4096 'a')
      (fun h => absurd (congrArg List.length h) (by rw [List.length_replicate]; decide))
      (fun c hc => by rw [List.eq_of_mem_replicate hc]; decide)).2.1
      (by rw [List.length_replicate]; decide)).2,
   (long_word_never_returns (List.replicate 4095 'a')
      (fun h => absurd (congrArg List.length h) (by rw [List.length_replicate]; decide))
      (fun c hc => by rw [List.eq_of_mem_replicate hc]; decide)).1
      (by rw [List.length_replicate])⟩

/-! ## One command with redirections -/

theorem redirections_cons_of_not_redir (t : Token) (rest : List Token) (h : ¬ is_redir t) :
    redirections (t :: rest) = redirections rest := by
  rcases rest with _ | ⟨nx, rest⟩
  · rfl
  · simp [redirections, h]

theorem redirs_followed_tail (t : Token) (rest : List Token)
    (h : redirs_followed (t :: rest) = true) : redirs_followed rest = true := by
  rcases rest with _ | ⟨nx, rest⟩
  · rfl
  · simp only [redirs_followed, Bool.and_eq_true] at h
    exact h.2

theorem not_redir_of_word {t : Token} (h : t.type = .T_WORD) : ¬ is_redir t := by
  simp [is_redir, h]

/-- The inner loop over the words and redirections of one command. -/
theorem parse_args_command : ∀ (n : Nat) (tl : List Token), tl.length ≤ n →
    (∀ t ∈ tl, is_arg t) → redirs_followed tl = true → words_are_strings tl →
    ∀ (e : Token), ¬ is_arg e → ∀ (cmd : Command) (buf : List (List Char)),
    buf.length + (arg_words false tl).length ≤ 255 →
    parse_args (tl ++ [e]) cmd buf
      = .done ((redirections tl).foldl set_redir cmd) (buf ++ arg_words false tl) [e] := by
  intro n
  induction n with
  | zero =>
    intro tl hlen _ _ _ e he cmd buf _
    have : tl = [] := List.length_eq_zero.mp (Nat.le_zero.mp hlen)
    subst this
    simp [parse_args_sep e [] cmd buf (not_is_arg he), redirections, arg_words]
  | succ n ih =>
    intro tl hlen hargs hred hstr e he cmd buf hbuf
    rcases tl with _ | ⟨t, rest⟩
    · simp [parse_args_sep e [] cmd buf (not_is_arg he), redirections, arg_words]
    simp only [List.length_cons, Nat.add_le_add_iff_right] at hlen
    have hargs2 : ∀ u ∈ rest, is_arg u := fun u hu => hargs u (List.mem_cons_of_mem _ hu)
    have hstr2 : words_are_strings rest := fun u hu => hstr u (List.mem_cons_of_mem _ hu)
    have hred2 := redirs_followed_tail t rest hred
    by_cases hw : t.type = .T_WORD
    · obtain ⟨s, hs, hnul⟩ := hstr t (List.mem_cons_self _ _) hw
      have hnr := not_redir_of_word hw
      have haw : arg_words false (t :: rest) = s :: arg_words false rest := by
        simp [arg_words, hw, hs, hnr]
      rw [haw] at hbuf ⊢
      simp only [List.length_cons] at hbuf
      rw [List.cons_append, parse_args_cons, if_pos hw, if_neg (by omega)]
      simp only [hs]
      rw [xstrdup_eq hnul, redirections_cons_of_not_redir t rest hnr,
        ih rest hlen hargs2 hred2 hstr2 e he cmd _
          (by simp only [List.length_append, List.length_singleton]; omega)]
      simp
    · have hr : is_redir t := by
        rcases hargs t (List.mem_cons_self _ _) with h | h
        · exact absurd h hw
        · exact h
      have hr2 : t.type = .T_IN ∨ t.type = .T_OUT ∨ t.type = .T_OUT_APP := hr
      rcases rest with _ | ⟨nx, rest2⟩
      · simp [redirs_followed, hr] at hred
      have hnw : nx.type = .T_WORD := by
        simp only [redirs_followed, Bool.and_eq_true, Bool.or_eq_true, Bool.not_eq_true',
          decide_eq_false_iff_not, decide_eq_true_eq] at hred
        rcases hred.1 with h | h
        · exact absurd hr h
        · exact h
      obtain ⟨s, hs, hnul⟩ := hstr nx (List.mem_cons_of_mem _ (List.mem_cons_self _ _)) hnw
      have hnr := not_redir_of_word hnw
      have hargs3 : ∀ u ∈ rest2, is_arg u := fun u hu => hargs2 u (List.mem_cons_of_mem _ hu)
      have hstr3 : words_are_strings rest2 := fun u hu => hstr2 u (List.mem_cons_of_mem _ hu)
      have hred3 := redirs_followed_tail nx rest2 hred2
      have hlen3 : rest2.length ≤ n := by
        simp only [List.length_cons] at hlen
        omega
      have haw : arg_words false (t :: nx :: rest2) = arg_words false rest2 := by
        simp [arg_words, hw, hnw, hr, hnr]
      have hrd : redirections (t :: nx :: rest2) = (t.type, s) :: redirections rest2 := by
        rw [redirections, if_pos hr, redirections_cons_of_not_redir nx rest2 hnr, hs]
        rfl
      rw [haw] at hbuf ⊢
      rw [hrd, List.foldl_cons, List.cons_append, List.cons_append, parse_args_cons,
        if_neg hw, if_pos hr2]
      simp only [hnw, ne_eq, not_true_eq_false, if_false, hs]
      rw [xstrdup_eq hnul]
      by_cases hin : t.type = .T_IN
      · rw [if_pos hin, ih rest2 hlen3 hargs3 hred3 hstr3 e he _ buf hbuf]
        simp [set_redir, hin]
      · rw [if_neg hin, ih rest2 hlen3 hargs3 hred3 hstr3 e he _ buf hbuf]
        simp [set_redir, hin]

theorem foldl_set_redir_argv (rs : List (TokType × List Char)) : ∀ (cmd : Command),
    (rs.foldl set_redir cmd).argv = cmd.argv := by
  induction rs with
  | nil => intro cmd; rfl
  | cons r rs ih =>
    intro cmd
    rw [List.foldl_cons, ih]
    unfold set_redir
    split <;> rfl

theorem foldl_set_redir_in (rs : List (TokType × List Char)) : ∀ (cmd : Command),
    (rs.foldl set_redir cmd).in_file
      = match (rs.filter (fun r => r.1 = .T_IN)).getLast? with
        | some r => some r.2
        | none => cmd.in_file := by
  induction rs with
  | nil => intro cmd; rfl
  | cons r rs ih =>
    intro cmd
    rw [List.foldl_cons, ih]
    by_cases hr : r.1 = .T_IN
    · rw [List.filter_cons_of_pos (by simpa using hr), List.getLast?_cons]
      generalize (rs.filter (fun r => r.1 = .T_IN)).getLast? = o
      cases o <;> simp [set_redir, hr]
    · rw [List.filter_cons_of_neg (by simpa using hr)]
      generalize (rs.filter (fun r => r.1 = .T_IN)).getLast? = o
      cases o <;> simp [set_redir, hr]

theorem foldl_set_redir_out (rs : List (TokType × List Char)) : ∀ (cmd : Command),
    ((rs.foldl set_redir cmd).out_file, (rs.foldl set_redir cmd).append)
      = match (rs.filter (fun r => r.1 ≠ .T_IN)).getLast? with
        | some r => (some r.2, decide (r.1 = .T_OUT_APP))
        | none => (cmd.out_file, cmd.append) := by
  induction rs with
  | nil => intro cmd; rfl
  | cons r rs ih =>
    intro cmd
    rw [List.foldl_cons, ih]
    by_cases hr : r.1 = .T_IN
    · rw [List.filter_cons_of_neg (by simpa using hr)]
      generalize (rs.filter (fun r => r.1 ≠ .T_IN)).getLast? = o
      cases o <;> simp [set_redir, hr]
    · rw [List.filter_cons_of_pos (by simpa using hr), List.getLast?_cons]
      generalize (rs.filter (fun r => r.1 ≠ .T_IN)).getLast? = o
      cases o <;> simp [set_redir, hr]

/-- The command the redirections of a token list leave, started from the empty one. -/
theorem foldl_set_redir_empty (tl : List Token) (argv : List (List Char)) :
    { (redirections tl).foldl set_redir empty_command with argv := argv }
      = ({ argv := argv, in_file := last_in tl, out_file := (last_out tl).map (fun r => r.2),
           append := decide ((last_out tl).map (fun r => r.1) = some .T_OUT_APP) } : Command) := by
  have h1 := foldl_set_redir_in (redirections tl) empty_command
  have h2 := foldl_set_redir_out (redirections tl) empty_command
  unfold last_in last_out
  generalize ((redirections tl).filter (fun r => r.1 = .T_IN)).getLast? = oi at h1 ⊢
  generalize ((redirections tl).filter (fun r => r.1 ≠ .T_IN)).getLast? = oo at h2 ⊢
  cases oi <;> cases oo <;> simp only [Prod.mk.injEq] at h1 h2 <;>
    refine (Command.mk.injEq _ _ _ _ _ _ _ _).mpr ⟨rfl, h1, h2.1, ?_⟩ <;>
    rw [h2.2] <;> simp [empty_command]

/-- C15: last redirection wins, per direction: a token sequence of one command (words
and redirection operators only, every operator directly followed by a word, between
1 and 255 argument words, texts without NUL), closed by `T_END`, is parsed to one
command whose `argv` is the words that are not file names, in order, whose `in_file`
is the file name of the last `T_IN` (unset without one), whose `out_file` is the file
name of the last `T_OUT` or `T_OUT_APP` (unset without one) and whose `append` tells
whether that last one is `T_OUT_APP`; an input redirection assigns `in_file` only,
an output redirection `out_file` and `append` only. -/
theorem last_redirection_wins (tl : List Token) (e : Token) (he : e.type = .T_END)
    (hargs : ∀ t ∈ tl, is_arg t) (hred : redirs_followed tl = true)
    (hstr : words_are_strings tl)
    (h1 : 1 ≤ (arg_words false tl).length) (h2 : (arg_words false tl).length ≤ 255) :
    parse_pipeline (tl ++ [e])
      = .ok { cmds := [{ argv := arg_words false tl,
                         in_file := last_in tl,
                         out_file := (last_out tl).map (fun r => r.2),
                         append := decide ((last_out tl).map (fun r => r.1) = some .T_OUT_APP) }],
              background := false } ∧
    (∀ (f : List Char) (rest : List Token) (cmd : Command) (buf : List (List Char)),
      parse_args (op_tok .T_IN :: word_tok f :: rest) cmd buf
        = parse_args rest { cmd with in_file := some (xstrdup f) } buf) ∧
    (∀ (app : Bool) (f : List Char) (rest : List Token) (cmd : Command)
      (buf : List (List Char)),
      parse_args (op_tok (if app then .T_OUT_APP else .T_OUT) :: word_tok f :: rest) cmd buf
        = parse_args rest { cmd with out_file := some (xstrdup f), append := app } buf) := by
  refine ⟨?_, ?_, fun app f rest cmd buf => parse_args_out app f rest cmd buf⟩
  · have hea : ¬ is_arg e := by simp [is_arg, he]
    have hpa := parse_args_command tl.length tl (le_refl _) hargs hred hstr e hea
      empty_command [] (by simpa using h2)
    rw [List.nil_append] at hpa
    have hne : arg_words false tl ≠ [] := by
      intro h
      rw [h] at h1
      simp at h1
    have := parse_loop_end (tl ++ [e]).length (tl ++ [e]) [] { cmds := [], background := false }
      _ _ e he hpa hne (by simp) rfl
    unfold parse_pipeline
    rw [this, foldl_set_redir_empty]
    rfl
  · intro f rest cmd buf
    simp [parse_args_cons, op_tok, word_tok]

theorem last_redirection_wins_witness :
    parse_pipeline ([word_tok ['a'], op_tok .T_OUT, word_tok ['x'], op_tok .T_IN,
        word_tok ['i'], word_tok ['b'], op_tok .T_OUT_APP, word_tok ['y'], op_tok .T_IN,
        word_tok ['j']] ++ [op_tok .T_END])
      = .ok { cmds := [{ argv := arg_words false [word_tok ['a'], op_tok .T_OUT,
                           word_tok ['x'], op_tok .T_IN, word_tok ['i'], word_tok ['b'],
                           op_tok .T_OUT_APP, word_tok ['y'], op_tok .T_IN, word_tok ['j']],
                         in_file := last_in [word_tok ['a'], op_tok .T_OUT,
                           word_tok ['x'], op_tok .T_IN, word_tok ['i'], word_tok ['b'],
                           op_tok .T_OUT_APP, word_tok ['y'], op_tok .T_IN, word_tok ['j']],
                         out_file := (last_out [word_tok ['a'], op_tok .T_OUT,
                           word_tok ['x'], op_tok .T_IN, word_tok ['i'], word_tok ['b'],
                           op_tok .T_OUT_APP, word_tok ['y'], op_tok .T_IN,
                           word_tok ['j']]).map (fun r => r.2),
                         append := decide ((last_out [word_tok ['a'], op_tok .T_OUT,
                           word_tok ['x'], op_tok .T_IN, word_tok ['i'], word_tok ['b'],
                           op_tok .T_OUT_APP, word_tok ['y'], op_tok .T_IN,
                           word_tok ['j']]).map (fun r => r.1) = some .T_OUT_APP) }],
              background := false } ∧
    (∀ (f : List Char) (rest : List Token) (cmd : Command) (buf : List (List Char)),
      parse_args (op_tok .T_IN :: word_tok f :: rest) cmd buf
        = parse_args rest { cmd with in_file := some (xstrdup f) } buf) ∧
    (∀ (app : Bool) (f : List Char) (rest : List Token) (cmd : Command)
      (buf : List (List Char)),
      parse_args (op_tok (if app then .T_OUT_APP else .T_OUT) :: word_tok f :: rest) cmd buf
        = parse_args rest { cmd with out_file := some (xstrdup f), append := app } buf) :=
  last_redirection_wins [word_tok ['a'], op_tok .T_OUT, word_tok ['x'], op_tok .T_IN,
    word_tok ['i'], word_tok ['b'], op_tok .T_OUT_APP, word_tok ['y'], op_tok .T_IN,
    word_tok ['j']] (op_tok .T_END) rfl (by decide) (by decide) (by decide) (by decide)
    (by decide)

/-! ## The limit on the number of commands -/

theorem parse_args_one_word (w : List Char) (s : Token) (tail : List Token)
    (hs : s.type = .T_PIPE ∨ s.type = .T_AMP ∨ s.type = .T_END) :
    parse_args (word_tok w :: s :: tail) empty_command []
      = .done empty_command [xstrdup w] (s :: tail) := by
  rw [parse_args_word w _ _ [] (by simp), parse_args_sep s tail _ _ hs]
  rfl

theorem single_tokens_one (w : List Char) :
    command_tokens ([w].map (fun x => [x])) = [word_tok w] := by
  simp [command_tokens, join_with]

theorem single_tokens_cons (w w2 : List Char) (ws : List (List Char)) :
    command_tokens ((w :: w2 :: ws).map (fun x => [x]))
      = word_tok w :: op_tok .T_PIPE :: command_tokens ((w2 :: ws).map (fun x => [x])) := by
  simp only [List.map_cons, command_tokens_cons2]
  rfl

/-- The main loop over at most 64 single-word commands. -/
theorem parse_loop_singles (ws : List (List Char)) : ∀ (w : List Char) (pl : Pipeline)
    (f : Nat), pl.cmds.length + (w :: ws).length ≤ 64 → pl.background = false →
    ws.length < f →
    parse_loop f (command_tokens ((w :: ws).map (fun x => [x])) ++ [op_tok .T_END]) pl
      = .ok { cmds := pl.cmds ++ (w :: ws).map (fun x => simple_command [xstrdup x]),
              background := false } := by
  induction ws with
  | nil =>
    intro w pl f hn hbg hf
    rcases f with _ | f
    · simp at hf
    simp only [List.length_cons, List.length_nil] at hn
    have := parse_loop_end f _ [] pl _ _ (op_tok .T_END) rfl
      (parse_args_one_word w (op_tok .T_END) [] (Or.inr (Or.inr rfl))) (by simp) (by omega) hbg
    rw [single_tokens_one]
    simpa [simple_command, empty_command] using this
  | cons w2 ws ih =>
    intro w pl f hn hbg hf
    rcases f with _ | f
    · simp at hf
    simp only [List.length_cons] at hn hf
    have hstep := parse_loop_pipe f _
      (command_tokens ((w2 :: ws).map (fun x => [x])) ++ [op_tok .T_END]) pl _ _
      (op_tok .T_PIPE) rfl (parse_args_one_word w (op_tok .T_PIPE) _ (Or.inl rfl)) (by simp)
      (by omega)
    have hrec := ih w2 { pl with cmds := pl.cmds ++ [simple_command [xstrdup w]] } f
      (by simp only [List.length_append, List.length_cons, List.length_nil]; omega) hbg
      (by omega)
    rw [single_tokens_cons, List.cons_append, List.cons_append, hstep]
    simpa [simple_command, empty_command] using hrec

/-- The main loop over more single-word commands than fit. -/
theorem parse_loop_too_many (ws : List (List Char)) : ∀ (w : List Char) (pl : Pipeline)
    (f : Nat), 64 < pl.cmds.length + (w :: ws).length → pl.cmds.length ≤ 64 →
    ws.length < f →
    parse_loop f (command_tokens ((w :: ws).map (fun x => [x])) ++ [op_tok .T_END]) pl
      = .error := by
  induction ws with
  | nil =>
    intro w pl f hn hle hf
    rcases f with _ | f
    · simp at hf
    simp only [List.length_cons, List.length_nil] at hn
    have hfull : pl.cmds.length ≥ MAX_CMDS := by unfold MAX_CMDS; omega
    rw [single_tokens_one, List.singleton_append,
      parse_loop_cons f (word_tok w) _ pl (by simp [word_tok]), if_pos hfull]
  | cons w2 ws ih =>
    intro w pl f hn hle hf
    rcases f with _ | f
    · simp at hf
    simp only [List.length_cons] at hn hf
    rw [single_tokens_cons, List.cons_append, List.cons_append]
    by_cases hfull : pl.cmds.length ≥ MAX_CMDS
    · rw [parse_loop_cons f (word_tok w) _ pl (by simp [word_tok]), if_pos hfull]
    · have hlt : pl.cmds.length < 64 := by unfold MAX_CMDS at hfull; omega
      rw [parse_loop_pipe f _
        (command_tokens ((w2 :: ws).map (fun x => [x])) ++ [op_tok .T_END]) pl _ _
        (op_tok .T_PIPE) rfl (parse_args_one_word w (op_tok .T_PIPE) _ (Or.inl rfl)) (by simp)
        hlt]
      exact ih w2 _ f
        (by simp only [List.length_append, List.length_cons, List.length_nil]; omega)
        (by simp only [List.length_append, List.length_cons, List.length_nil]; omega)
        (by omega)

/-- C16: the command-count limit is exactly 64: the token sequence of `n ≥ 1`
single-word commands separated by `T_PIPE` and closed by `T_END` is parsed to these
`n` commands when `n ≤ 64`, and the parser returns false when `n > 64`; so it
succeeds if and only if `n ≤ 64`. -/
theorem command_limit_64 (ws : List (List Char)) (h : 1 ≤ ws.length) :
    (ws.length ≤ 64 → parse_pipeline (single_word_commands ws)
      = .ok { cmds := ws.map (fun x => simple_command [xstrdup x]), background := false }) ∧
    (64 < ws.length → parse_pipeline (single_word_commands ws) = .error) ∧
    ((∃ pl, parse_pipeline (single_word_commands ws) = .ok pl) ↔ ws.length ≤ 64) := by
  rcases ws with _ | ⟨w, ws⟩
  · simp at h
  have hfuel : ws.length < (single_word_commands (w :: ws)).length + 1 := by
    have := command_tokens_length ((w :: ws).map (fun x => [x])) (by simp)
    simp only [single_word_commands, List.length_append, List.length_map, List.length_cons,
      List.length_nil] at this ⊢
    omega
  have hok : (w :: ws).length ≤ 64 → parse_pipeline (single_word_commands (w :: ws))
      = .ok { cmds := (w :: ws).map (fun x => simple_command [xstrdup x]),
              background := false } := by
    intro hle
    have := parse_loop_singles ws w { cmds := [], background := false } _
      (by simpa using hle) rfl hfuel
    simpa [parse_pipeline, single_word_commands] using this
  have herr : 64 < (w :: ws).length → parse_pipeline (single_word_commands (w :: ws))
      = .error := by
    intro hgt
    exact parse_loop_too_many ws w { cmds := [], background := false } _
      (by simpa using hgt) (by simp) hfuel
  refine ⟨hok, herr, ?_⟩
  constructor
  · intro ⟨pl, hpl⟩
    by_contra hgt
    rw [herr (by omega)] at hpl
    exact absurd hpl (by simp)
  · intro hle
    exact ⟨_, hok hle⟩

theorem command_limit_64_witness :
    ((List.replicate 65 ['a']).length ≤ 64 →
      parse_pipeline (single_word_commands (List.replicate 65 ['a']))
        = .ok { cmds := (List.replicate 65 ['a']).map (fun x => simple_command [xstrdup x]),
                background := false }) ∧
    (64 < (List.replicate 65 ['a']).length →
      parse_pipeline (single_word_commands (List.replicate 65 ['a'])) = .error) ∧
    ((∃ pl, parse_pipeline (single_word_commands (List.replicate 65 ['a'])) = .ok pl)
      ↔ (List.replicate 65 ['a']).length ≤ 64) :=
  command_limit_64 (List.replicate 65 ['a']) (by rw [List.length_replicate]; decide)

/-! ## Reads of the parser up to the first `T_END` -/

theorem parse_finish_at_end (pl : Pipeline) (e : Token) (he : e.type = .T_END)
    (tail : List Token) :
    parse_finish pl (e :: tail) = if pl.cmds.length > 0 then .ok pl else .error := by
  unfold parse_finish
  simp only [skip_to_end, he, if_true]
  split <;> rfl

/-- One pass of the main loop over a run of words and redirections that `T_END`
follows: the result does not depend on the fuel left and the tokens after that
`T_END`, and is no read past the tokens. -/
theorem parse_loop_seg_end (args : List Token) (hargs : ∀ t ∈ args, is_arg t) (e : Token)
    (he : e.type = .T_END) (pl : Pipeline) :
    ∃ res, (res ≠ .out_of_fuel ∧ res ≠ .out_of_range) ∧
      ∀ tail g, parse_loop (g + 1) (args ++ e :: tail) pl = res := by
  have hea : ¬ is_arg e := by simp [is_arg, he]
  rcases args with _ | ⟨t, r⟩
  · refine ⟨if pl.cmds.length > 0 then .ok pl else .error, ?_, ?_⟩
    · split <;> simp
    · intro tail g
      simp only [List.nil_append, parse_loop, he, if_true]
      exact parse_finish_at_end pl e he tail
  have hne : t.type ≠ .T_END := by
    rcases hargs t (List.mem_cons_self _ _) with h | h | h | h <;> simp [h]
  have hunf : ∀ tail g, parse_loop (g + 1) ((t :: r) ++ e :: tail) pl
      = parse_loop (g + 1) (t :: (r ++ e :: tail)) pl := fun _ _ => rfl
  by_cases hn : pl.cmds.length ≥ MAX_CMDS
  · exact ⟨.error, by simp, fun tail g => by
      rw [hunf, parse_loop_cons g t _ pl hne, if_pos hn]⟩
  rcases parse_args_seg (t :: r).length (t :: r) (le_refl _) hargs e hea empty_command []
    with h | ⟨h, _⟩ | ⟨c, b, _, h⟩
  · exact ⟨.error, by simp, fun tail g => by
      rw [hunf, parse_loop_cons g t _ pl hne, if_neg hn, ← List.cons_append, h]⟩
  · exact ⟨.null_text, by simp, fun tail g => by
      rw [hunf, parse_loop_cons g t _ pl hne, if_neg hn, ← List.cons_append, h]⟩
  · by_cases hb : b.length = 0
    · exact ⟨.error, by simp, fun tail g => by
        rw [hunf, parse_loop_cons g t _ pl hne, if_neg hn, ← List.cons_append, h]
        simp [hb]⟩
    · refine ⟨.ok { pl with cmds := pl.cmds ++ [{ c with argv := b }] }, by simp, ?_⟩
      intro tail g
      rw [hunf, parse_loop_cons g t _ pl hne, if_neg hn, ← List.cons_append, h]
      simp only [hb, if_false, he, if_true]
      rw [if_neg (by simp), if_neg (by simp), parse_finish_at_end _ e he tail]
      simp

/-- A list of tokens has no `T_AMP`, or it is a run without `T_AMP`, a first `T_AMP`,
and a rest. -/
theorem split_first_amp (l : List Token) :
    (∀ t ∈ l, t.type ≠ .T_AMP) ∨
    ∃ p1 b p2, l = p1 ++ b :: p2 ∧ (∀ t ∈ p1, t.type ≠ .T_AMP) ∧ b.type = .T_AMP := by
  induction l with
  | nil => exact Or.inl (by simp)
  | cons t l ih =>
    by_cases ht : t.type = .T_AMP
    · exact Or.inr ⟨[], t, l, rfl, by simp, ht⟩
    · rcases ih with h | ⟨p1, b, p2, rfl, hp, hb⟩
      · exact Or.inl (by simpa [ht] using h)
      · exact Or.inr ⟨t :: p1, b, p2, rfl, by simpa [ht] using hp, hb⟩

/-- The main loop up to the first `T_END`: the result does not depend on the fuel
(once above the number of tokens before that `T_END`) and on the tokens after it, and
is no read past the tokens. -/
theorem parse_loop_to_end (pre : List Token) (hpre : ∀ t ∈ pre, t.type ≠ .T_END) (e : Token)
    (he : e.type = .T_END) (pl : Pipeline) :
    ∃ res, (res ≠ .out_of_fuel ∧ res ≠ .out_of_range) ∧
      ∀ tail f, pre.length < f → parse_loop f (pre ++ e :: tail) pl = res := by
  rcases split_first_amp pre with hamp | ⟨p1, b, p2, rfl, hp1, hb⟩
  · rcases parse_loop_piped pre.length pre (le_refl _) (fun t ht => ⟨hamp t ht, hpre t ht⟩) pl
      with h | ⟨h, _⟩ | ⟨a1, a2, pl2, k, hsplit, ha2, hk, h⟩
    · exact ⟨.error, by simp, fun tail f hf => h _ f hf⟩
    · exact ⟨.null_text, by simp, fun tail f hf => h _ f hf⟩
    · obtain ⟨res, hres, hrun⟩ := parse_loop_seg_end a2 ha2 e he pl2
      refine ⟨res, hres, fun tail f hf => ?_⟩
      have hlen : pre.length = a1.length + a2.length := by rw [hsplit]; simp
      obtain ⟨g, hg⟩ : ∃ g, f - k = g + 1 := ⟨f - k - 1, by omega⟩
      rw [h _ f hf, hg, hrun]
  · have hp1' : ∀ t ∈ p1, t.type ≠ .T_AMP ∧ t.type ≠ .T_END := fun t ht =>
      ⟨hp1 t ht, hpre t (List.mem_append_left _ ht)⟩
    have hassoc : ∀ tail, (p1 ++ b :: p2) ++ e :: tail = p1 ++ b :: (p2 ++ e :: tail) := by
      intro tail; simp
    have hfuel : ∀ f, (p1 ++ b :: p2).length < f → p1.length < f := by
      intro f hf
      simp only [List.length_append, List.length_cons] at hf
      omega
    rcases parse_loop_piped p1.length p1 (le_refl _) hp1' pl
      with h | ⟨h, _⟩ | ⟨a1, a2, pl2, k, hsplit, ha2, hk, h⟩
    · exact ⟨.error, by simp, fun tail f hf => by rw [hassoc, h _ f (hfuel f hf)]⟩
    · exact ⟨.null_text, by simp, fun tail f hf => by rw [hassoc, h _ f (hfuel f hf)]⟩
    · obtain ⟨res, _, hres, hrun⟩ := parse_loop_seg_amp a2 ha2 b hb pl2
      refine ⟨res, hres, fun tail f hf => ?_⟩
      have hlen : p1.length = a1.length + a2.length := by rw [hsplit]; simp
      have hf1 := hfuel f hf
      obtain ⟨g, hg⟩ : ∃ g, f - k = g + 1 := ⟨f - k - 1, by omega⟩
      rw [hassoc, h _ f hf1, hg, hrun _ g (skip_to_end_some p2 e he tail)]

/-- C18: on a token array that holds a `T_END`, the parser ends and reads no entry
after the first `T_END`: with no `T_END` in `pre`, the run on `pre`, `T_END`, `rest`
does not run out of fuel, reads no entry past the tokens, and comes to the result of
the run on `pre`, `T_END` alone, whose last entry is that `T_END`. -/
theorem parse_reads_up_to_end (pre rest : List Token) (e : Token) (he : e.type = .T_END)
    (hpre : ∀ t ∈ pre, t.type ≠ .T_END) :
    parse_pipeline (pre ++ e :: rest) ≠ .out_of_fuel ∧
    parse_pipeline (pre ++ e :: rest) ≠ .out_of_range ∧
    parse_pipeline (pre ++ [e]) ≠ .out_of_range ∧
    parse_pipeline (pre ++ e :: rest) = parse_pipeline (pre ++ [e]) := by
  obtain ⟨res, hres, hrun⟩ := parse_loop_to_end pre hpre e he { cmds := [], background := false }
  have h1 : parse_pipeline (pre ++ e :: rest) = res :=
    hrun rest _ (by simp only [List.length_append, List.length_cons]; omega)
  have h2 : parse_pipeline (pre ++ [e]) = res :=
    hrun [] _ (by simp only [List.length_append, List.length_cons]; omega)
  rw [h1, h2]
  exact ⟨hres.1, hres.2, hres.2, rfl⟩

theorem parse_reads_up_to_end_witness :
    parse_pipeline ([word_tok ['a'], op_tok .T_OUT, word_tok ['f'], op_tok .T_AMP,
        word_tok ['b']] ++ op_tok .T_END :: [op_tok .T_PIPE, op_tok .T_END])
      ≠ .out_of_fuel ∧
    parse_pipeline ([word_tok ['a'], op_tok .T_OUT, word_tok ['f'], op_tok .T_AMP,
        word_tok ['b']] ++ op_tok .T_END :: [op_tok .T_PIPE, op_tok .T_END])
      ≠ .out_of_range ∧
    parse_pipeline ([word_tok ['a'], op_tok .T_OUT, word_tok ['f'], op_tok .T_AMP,
        word_tok ['b']] ++ [op_tok .T_END]) ≠ .out_of_range ∧
    parse_pipeline ([word_tok ['a'], op_tok .T_OUT, word_tok ['f'], op_tok .T_AMP,
        word_tok ['b']] ++ op_tok .T_END :: [op_tok .T_PIPE, op_tok .T_END])
      = parse_pipeline ([word_tok ['a'], op_tok .T_OUT, word_tok ['f'], op_tok .T_AMP,
        word_tok ['b']] ++ [op_tok .T_END]) :=
  parse_reads_up_to_end [word_tok ['a'], op_tok .T_OUT, word_tok ['f'], op_tok .T_AMP,
    word_tok ['b']] [op_tok .T_PIPE, op_tok .T_END] (op_tok .T_END) rfl (by decide)

/-! ## Stream wiring and signal handlers -/

/-- C12: redirection takes precedence over pipe wiring: the source of the standard
input and the sink of the standard output of command `i` of `n`, as the design of the
execution engine gives them, are the file when the redirection is set, else the pipe
end when the command has that neighbour, else the inherited stream. -/
theorem redirection_over_pipe (cmd : Command) (i n : Nat) :
    stdin_source cmd i = stdin_by_precedence cmd i ∧
    stdout_sink cmd i n = stdout_by_precedence cmd i n := by
  unfold stdin_source stdin_by_precedence stdout_sink stdout_by_precedence
  constructor
  · cases cmd.in_file with
    | none => by_cases h : 0 < i <;> simp [h]
    | some f => simp
  · cases cmd.out_file with
    | none => by_cases h : i + 1 < n <;> simp [h]
    | some f => simp

/-- C19: interrupt routing targets the whole foreground group: with `fg_pgid = g`,
`sigint_handler` makes exactly one call of `kill`, of `SIGINT` to `-g`, when `g > 0`,
and none when `g ≤ 0`; in both cases `fg_pgid` is `g` when it returns. -/
theorem sigint_to_foreground_group (signo g : Int) :
    (0 < g → (sigint_handler signo g).1 = [{ pid := -g, sig := .SIGINT }]) ∧
    (g ≤ 0 → (sigint_handler signo g).1 = []) ∧
    (sigint_handler signo g).2 = g := by
  unfold sigint_handler
  refine ⟨fun h => ?_, fun h => ?_, ?_⟩
  · simp [h]
  · simp [Int.not_lt.mpr h]
  · simp only
    split <;> rfl

theorem sigint_to_foreground_group_witness :
    (0 < (7 : Int) → (sigint_handler 2 7).1 = [{ pid := -7, sig := .SIGINT }]) ∧
    ((7 : Int) ≤ 0 → (sigint_handler 2 7).1 = []) ∧
    (sigint_handler 2 7).2 = 7 :=
  sigint_to_foreground_group 2 7

/-- The loop of `sigchld_handler` from answer `j` to the first answer `k` whose pid is
not positive. -/
theorem sigchld_loop_run (wifexited wifsignaled : Int → Bool) (answers : Nat → WaitAnswer)
    (k : Nat) (hpos : ∀ i, i < k → 0 < (answers i).pid) (hk : (answers k).pid ≤ 0) :
    ∀ (d j fuel : Nat) (st : HandlerState), j + d = k → d < fuel →
    sigchld_loop wifexited wifsignaled answers fuel j st
      = some { errno := (answers k).errno_wait,
               notices := st.notices ++ finished_pids wifexited wifsignaled answers j d } := by
  intro d
  induction d with
  | zero =>
    intro j fuel st hj hf
    rcases fuel with _ | fuel
    · simp at hf
    have : j = k := by omega
    subst this
    simp [sigchld_loop, hk, finished_pids]
  | succ d ih =>
    intro j fuel st hj hf
    rcases fuel with _ | fuel
    · simp at hf
    have hp : ¬ (answers j).pid ≤ 0 := by
      have := hpos j (by omega)
      omega
    have hr : List.range' j (d + 1) = j :: List.range' (j + 1) d := by
      simp [List.range'_succ]
    by_cases hw : (wifexited (answers j).status || wifsignaled (answers j).status) = true
    · rw [sigchld_loop, if_neg hp, if_pos hw, ih (j + 1) fuel _ (by omega) (by omega)]
      simp [finished_pids, hr, hw]
    · rw [sigchld_loop, if_neg hp, if_neg hw, ih (j + 1) fuel _ (by omega) (by omega)]
      simp [finished_pids, hr, hw]

/-- C20: with the results of the successive `waitpid` calls given as a sequence of
answers, `k` the first answer whose pid is not positive, and fuel for more than `k`
passes, `sigchld_handler` returns after that answer, has written one notice with the
pid for each earlier answer whose status is a normal exit or a death by signal, in
order, after the notices already there, and `errno` is what it was on entry, whatever
the calls left in it. -/
theorem sigchld_drains_and_keeps_errno (wifexited wifsignaled : Int → Bool)
    (answers : Nat → WaitAnswer) (k fuel : Nat) (signo : Int) (st : HandlerState)
    (hpos : ∀ i, i < k → 0 < (answers i).pid) (hk : (answers k).pid ≤ 0) (hf : k < fuel) :
    sigchld_handler wifexited wifsignaled answers fuel signo st
      = some { errno := st.errno,
               notices := st.notices ++
                 (((List.range k).map answers).filter
                   (fun a => wifexited a.status || wifsignaled a.status)).map
                     (fun a => a.pid) } := by
  unfold sigchld_handler
  rw [sigchld_loop_run wifexited wifsignaled answers k hpos hk k 0 fuel st (by omega) hf]
  simp [finished_pids, List.range_eq_range']

theorem sigchld_drains_and_keeps_errno_witness :
    sigchld_handler (fun s => decide (s = 0)) (fun s => decide (s = 9))
        (fun i => if i = 0 then ⟨41, 0, 0, 5⟩ else if i = 1 then ⟨42, 127, 0, 0⟩
          else if i = 2 then ⟨43, 9, 4, 0⟩ else ⟨-1, 0, 10, 0⟩) 4 17 ⟨3, []⟩
      = some { errno := (⟨3, []⟩ : HandlerState).errno,
               notices := (⟨3, []⟩ : HandlerState).notices ++
                 (((List.range 3).map (fun i => if i = 0 then (⟨41, 0, 0, 5⟩ : WaitAnswer)
                    else if i = 1 then ⟨42, 127, 0, 0⟩
                    else if i = 2 then ⟨43, 9, 4, 0⟩ else ⟨-1, 0, 10, 0⟩)).filter
                   (fun a => decide (a.status = 0) || decide (a.status = 9))).map
                     (fun a => a.pid) } :=
  sigchld_drains_and_keeps_errno _ _ _ 3 4 17 ⟨3, []⟩ (by decide) (by decide) (by decide)

end Shell
